import Mathlib

/-!
# SymbolParser

A shallow embedding of `lib/utilities/parsers/SymbolParser.js`: the pattern table, the
first-match parser and converter pipelines and the resolution of abbreviated expiration
years, followed by theorems about them.

Conventions of the embedding:

* a JavaScript string is a `List Char` (a character outside the Basic Multilingual Plane,
  which is two code units in JavaScript, is one character here; the patterns of the
  source only name ASCII characters);
* the clock is explicit: every operation that reads `getCurrentYear()` or
  `getCurrentMonth()` takes the current year (a natural number) and the current month
  (1 to 12) as arguments;
* integral JavaScript numbers are integers (all the integers that occur are far below
  `2 ^ 53`), `NaN` is a value of its own, and a number with a fractional part is an exact
  decimal;
* an operation that can throw returns `Except JsError`, and `none` stands for `null`.
-/

namespace SymbolParser

/-! ## JavaScript values and built-ins -/

/-- JavaScript numbers as they occur here: `NaN`, an integer, or a number with a
fractional part: `dec mantissa scale` is `mantissa / 10 ^ scale`, with `scale` positive
and `mantissa` not a multiple of ten. -/
inductive JsNumber where
  | nan
  | int (n : Int)
  | dec (mantissa : Int) (scale : Nat)
  deriving DecidableEq

/-- JavaScript values that are passed to the public operations. `obj` stands for every
value that is neither a string nor one of the primitives listed here. -/
inductive JsValue where
  | undefined
  | null
  | bool (b : Bool)
  | num (n : JsNumber)
  | str (s : List Char)
  | obj
  deriving DecidableEq

/-- Errors thrown by the JavaScript runtime. -/
inductive JsError where
  | typeError
  | rangeError
  deriving DecidableEq

/-- The library check `is.string`: `typeof candidate === 'string'`. -/
def is.string : JsValue → Bool
  | .str _ => true
  | _ => false

/-- The number `mantissa / 10 ^ scale`. -/
def JsNumber.ofDecimal (mantissa : Int) : Nat → JsNumber
  | 0 => .int mantissa
  | scale + 1 =>
    if mantissa % 10 = 0 then JsNumber.ofDecimal (mantissa / 10) scale
    else .dec mantissa (scale + 1)

/-- The mantissa and the scale of a number, `none` for `NaN`. -/
def JsNumber.parts : JsNumber → Option (Int × Nat)
  | .nan => none
  | .int n => some (n, 0)
  | .dec m s => some (m, s)

/-- The mantissas of two numbers brought to their common scale, and that scale. -/
def JsNumber.align (a b : JsNumber) : Option (Int × Int × Nat) :=
  match a.parts, b.parts with
  | some (ma, sa), some (mb, sb) =>
    let s := max sa sb
    some (ma * 10 ^ (s - sa), mb * 10 ^ (s - sb), s)
  | _, _ => none

/-- Truthiness of a number: `NaN` and zero are falsy. -/
def JsNumber.truthy : JsNumber → Bool
  | .nan => false
  | .int n => n != 0
  | .dec m _ => m != 0

/-- The operator `+` on numbers. -/
def JsNumber.add (a b : JsNumber) : JsNumber :=
  match a.align b with
  | some (x, y, s) => .ofDecimal (x + y) s
  | none => .nan

/-- The operator `-` on numbers. -/
def JsNumber.sub (a b : JsNumber) : JsNumber :=
  match a.align b with
  | some (x, y, s) => .ofDecimal (x - y) s
  | none => .nan

/-- The operator `<` on numbers (false as soon as one side is `NaN`). -/
def JsNumber.lt (a b : JsNumber) : Bool :=
  match a.align b with
  | some (x, y, _) => x < y
  | none => false

/-- The operator `>` on numbers. -/
def JsNumber.gt (a b : JsNumber) : Bool := b.lt a

/-- The operator `===` on numbers (`NaN` is not equal to itself). -/
def JsNumber.strictEq (a b : JsNumber) : Bool :=
  match a.align b with
  | some (x, y, _) => x == y
  | none => false

/-- The expression `Math.floor(x % m)` for a positive integer `m`: the remainder has
the sign of the dividend. -/
def JsNumber.floorRem (x : JsNumber) (m : Int) : JsNumber :=
  match x.parts with
  | none => .nan
  | some (n, s) => .int (Int.fdiv (Int.tmod n (m * 10 ^ s)) (10 ^ s))

/-- The method `toString()` of a number; a number with a fractional part is written with
all the digits of its decimal expansion (the floating-point printing of long expansions
is not modelled). -/
def JsNumber.toString : JsNumber → List Char
  | .nan => ['N', 'a', 'N']
  | .int n => if n < 0 then '-' :: Nat.toDigits 10 n.natAbs else Nat.toDigits 10 n.natAbs
  | .dec m s =>
    let digits := Nat.toDigits 10 m.natAbs
    let padded := List.replicate (s + 1 - digits.length) '0' ++ digits
    let text := padded.take (padded.length - s) ++ '.' :: padded.drop (padded.length - s)
    if m < 0 then '-' :: text else text

/-- The conversion of a value to a string (`ToString`), as in a template literal. An
object is written as a plain object is. -/
def JsValue.text : JsValue → List Char
  | .undefined => "undefined".toList
  | .null => "null".toList
  | .bool true => "true".toList
  | .bool false => "false".toList
  | .num n => n.toString
  | .str s => s
  | .obj => "[object Object]".toList

/-- JavaScript truthiness (`ToBoolean`). -/
def JsValue.truthy : JsValue → Bool
  | .undefined => false
  | .null => false
  | .bool b => b
  | .num n => n.truthy
  | .str s => !s.isEmpty
  | .obj => true

/-- The value of a property that holds a text when it is set: `undefined` when not. -/
def JsValue.ofText : Option (List Char) → JsValue
  | some s => .str s
  | none => .undefined

/-- The value of a property that holds a number when it is set: `undefined` when not. -/
def JsValue.ofNumber : Option JsNumber → JsValue
  | some n => .num n
  | none => .undefined

/-- The conversion of a numeric property to a number (`ToNumber`): `undefined` gives
`NaN`. -/
def toNumber (n : Option JsNumber) : JsNumber := n.getD .nan

/-- The method `charCodeAt(0)` of a string. -/
def charCodeAt0 : List Char → JsNumber
  | c :: _ => .int c.toNat
  | [] => .nan

/-- The function `String.fromCharCode(code)`: the code is truncated to an integer and
reduced modulo `2 ^ 16`, `NaN` gives the code zero. (A code in the surrogate range,
which is not a character here, gives the code zero as well.) -/
def fromCharCode (code : JsNumber) : Char :=
  match code.parts with
  | none => Char.ofNat 0
  | some (n, s) => Char.ofNat (Int.emod (Int.tdiv n (10 ^ s)) 65536).toNat

/-- The library function `string.padLeft(s, length, character)` of
`@barchart/common-js`, which is not part of the repository: the text is extended on the
left with the character up to the given length, a text that is long enough is left as it
is. -/
def padLeft (s : List Char) (length : Nat) (character : Char) : List Char :=
  List.replicate (length - s.length) character ++ s

/-- Code points skipped by `parseInt` and `parseFloat` in front of the number
(white space and line terminators). -/
def isStrWhiteSpace (c : Char) : Bool :=
  let n := c.toNat
  n == 9 || n == 10 || n == 11 || n == 12 || n == 13 || n == 32 || n == 160 || n == 5760
    || (8192 ≤ n && n ≤ 8202) || n == 8232 || n == 8233 || n == 8239 || n == 8287
    || n == 12288 || n == 65279

/-- Drops the leading white space of a string. -/
def trimStart : List Char → List Char
  | [] => []
  | c :: cs => if isStrWhiteSpace c then trimStart cs else c :: cs

/-- The decimal digit class `[0-9]`. -/
def isDigit (c : Char) : Bool := 48 ≤ c.toNat && c.toNat ≤ 57

/-- The value of a character as a digit in the given radix, if it is one. -/
def digitValue (radix : Nat) (c : Char) : Option Nat :=
  let n := c.toNat
  let v : Option Nat :=
    if 48 ≤ n ∧ n ≤ 57 then some (n - 48)
    else if 97 ≤ n ∧ n ≤ 122 then some (n - 87)
    else if 65 ≤ n ∧ n ≤ 90 then some (n - 55)
    else none
  match v with
  | some d => if d < radix then some d else none
  | none => none

/-- The values of the longest run of digits at the start of a string. -/
def leadingDigits (radix : Nat) : List Char → List Nat
  | [] => []
  | c :: cs =>
    match digitValue radix c with
    | some d => d :: leadingDigits radix cs
    | none => []

/-- The number written by a list of digit values, most significant first. -/
def fromDigits (radix : Nat) (ds : List Nat) : Nat :=
  ds.foldl (fun acc d => acc * radix + d) 0

/-- The magnitude read by `parseInt` once the sign is gone: a `0x` or `0X` start selects
radix 16, otherwise the radix is 10; `none` is `NaN` (no digit at all). -/
def parseIntMagnitude (s : List Char) : Option Nat :=
  match s with
  | '0' :: 'x' :: rest | '0' :: 'X' :: rest =>
    match leadingDigits 16 rest with
    | [] => none
    | ds => some (fromDigits 16 ds)
  | _ =>
    match leadingDigits 10 s with
    | [] => none
    | ds => some (fromDigits 10 ds)

/-- The built-in `parseInt(string)` without a radix argument: an integer or `NaN`. -/
def parseInt (s : List Char) : JsNumber :=
  let (negative, body) : Bool × List Char :=
    match trimStart s with
    | '-' :: rest => (true, rest)
    | '+' :: rest => (false, rest)
    | rest => (false, rest)
  match parseIntMagnitude body with
  | some n => .int (if negative then -(Int.ofNat n) else Int.ofNat n)
  | none => .nan

/-- The built-in `parseFloat(string)` on the texts it is given here: an optional sign,
digits, and optionally a point followed by digits (an exponent and `Infinity` are not
read). The value is the exact decimal value of the text, the rounding to a
floating-point number is not modelled. -/
def parseFloat (s : List Char) : JsNumber :=
  let t := trimStart s
  let (negative, body) : Bool × List Char :=
    match t with
    | '-' :: rest => (true, rest)
    | '+' :: rest => (false, rest)
    | rest => (false, rest)
  let whole := leadingDigits 10 body
  let afterWhole := body.drop whole.length
  let fraction : List Nat :=
    match afterWhole with
    | '.' :: rest => leadingDigits 10 rest
    | _ => []
  if whole.isEmpty ∧ fraction.isEmpty then .nan
  else
    let mantissa : Int := fromDigits 10 (whole ++ fraction)
    .ofDecimal (if negative then -mantissa else mantissa) fraction.length

/-! ## Regular expressions

The patterns of the pattern table are written in a small abstract syntax that follows
the regular-expression literals of the source, and run by a backtracking matcher with
the priorities of the JavaScript one: alternatives from left to right, quantifiers
greedy, the first complete match wins. -/

/-- The abstract syntax of the regular expressions that occur in the source. A quantifier
`*` or `+` only ever applies to a character class there, hence `many`. -/
inductive Regex where
  | cls (p : Char → Bool)
  | eps
  | eos
  | seq (a b : Regex)
  | alt (a b : Regex)
  | many (p : Char → Bool)
  | group (i : Nat) (a : Regex)

/-- The captures of a match: the text of each numbered group that took part. -/
abbrev Captures := Nat → Option (List Char)

/-- No group has captured anything. -/
def Captures.empty : Captures := fun _ => none

/-- Records the text of group `i`. -/
def Captures.set (caps : Captures) (i : Nat) (text : List Char) : Captures :=
  fun j => if j = i then some text else caps j

/-- Greedy repetition of a character class: consume as many characters as possible and
give characters back one at a time while the rest of the pattern fails. -/
def Regex.runMany {α : Type} (p : Char → Bool) :
    List Char → Captures → (List Char → Captures → Option α) → Option α
  | [], caps, k => k [] caps
  | c :: cs, caps, k =>
    if p c then
      match Regex.runMany p cs caps k with
      | some x => some x
      | none => k (c :: cs) caps
    else k (c :: cs) caps

/-- The backtracking matcher: `r.run s caps k` matches `r` at the start of `s` and hands
the rest of the input and the captures to the continuation `k` (the rest of the
pattern); `none` when every way of matching `r` makes the continuation fail. -/
def Regex.run {α : Type} :
    Regex → List Char → Captures → (List Char → Captures → Option α) → Option α
  | .cls p, s, caps, k =>
    match s with
    | c :: cs => if p c then k cs caps else none
    | [] => none
  | .eps, s, caps, k => k s caps
  | .eos, s, caps, k =>
    match s with
    | [] => k [] caps
    | _ :: _ => none
  | .seq a b, s, caps, k => a.run s caps (fun s1 caps1 => b.run s1 caps1 k)
  | .alt a b, s, caps, k =>
    match a.run s caps k with
    | some x => some x
    | none => b.run s caps k
  | .many p, s, caps, k => Regex.runMany p s caps k
  | .group i a, s, caps, k =>
    a.run s caps (fun s1 caps1 => k s1 (caps1.set i (s.take (s.length - s1.length))))

/-- The quantifier `?` (greedy). -/
def Regex.opt (r : Regex) : Regex := .alt r .eps

/-- The quantifier `+` on a character class. -/
def Regex.plus (p : Char → Bool) : Regex := .seq (.cls p) (.many p)

/-- The quantifier `{n}`. -/
def Regex.times (r : Regex) : Nat → Regex
  | 0 => .eps
  | n + 1 => .seq r (Regex.times r n)

/-- The quantifier `{0,n}` (greedy). -/
def Regex.upTo (r : Regex) : Nat → Regex
  | 0 => .eps
  | n + 1 => .opt (.seq r (Regex.upTo r n))

/-- The quantifier `{min,max}` (greedy). -/
def Regex.rep (r : Regex) (min max : Nat) : Regex :=
  .seq (Regex.times r min) (Regex.upTo r (max - min))

/-- A sequence of patterns. -/
def Regex.cat : List Regex → Regex
  | [] => .eps
  | [r] => r
  | r :: rs => .seq r (Regex.cat rs)

/-- A regular-expression literal: whether it starts with `^`, and the rest. -/
structure Pattern where
  anchored : Bool
  body : Regex

/-- The result of a successful match: the text before the match, the text after it and
the captures. -/
structure MatchResult where
  before : List Char
  after : List Char
  captures : Captures

/-- The match of a pattern body at the start of `s`. -/
def Regex.matchHere (r : Regex) (before s : List Char) : Option MatchResult :=
  r.run s Captures.empty (fun rest caps => some ⟨before, rest, caps⟩)

/-- The leftmost match of a pattern body in `s`: the start positions are tried from left
to right, the position after the last character included; `before` (reversed) is the
text already passed. -/
def Regex.search (r : Regex) : List Char → List Char → Option MatchResult
  | revBefore, [] => r.matchHere revBefore.reverse []
  | revBefore, c :: cs =>
    match r.matchHere revBefore.reverse (c :: cs) with
    | some m => some m
    | none => Regex.search r (c :: revBefore) cs

/-- The method `symbol.match(pattern)` (for a pattern without the `g` flag): `none` is
`null`. -/
def Pattern.exec (p : Pattern) (s : List Char) : Option MatchResult :=
  if p.anchored then p.body.matchHere [] s else p.body.search [] s

/-- The method `pattern.test(symbol)`. -/
def Pattern.test (p : Pattern) (s : List Char) : Bool := (p.exec s).isSome

/-- The text of a capture as it appears in a replacement string: a group that took no
part gives the empty string. -/
def MatchResult.groupText (m : MatchResult) (i : Nat) : List Char :=
  (m.captures i).getD []

/-! ### Character classes -/

/-- The canonical form of a character under the flag `i`: the upper-case letter of an
ASCII lower-case letter. (A character outside ASCII is never identified with an ASCII
character, and every character written in a pattern of the source is ASCII.) -/
def canonicalize (c : Char) : Char :=
  if 97 ≤ c.toNat ∧ c.toNat ≤ 122 then Char.ofNat (c.toNat - 32) else c

/-- A character class under the flag `i`. -/
def ci (p : Char → Bool) (c : Char) : Bool := p (canonicalize c)

/-- The class of a single character. -/
def chr (x : Char) (c : Char) : Bool := c.toNat == x.toNat

/-- The class `[A-Z]` (without the flag `i`). -/
def isUpper (c : Char) : Bool := 65 ≤ c.toNat && c.toNat ≤ 90

/-- The class `.`: every character but the line terminators. -/
def isDot (c : Char) : Bool :=
  !(c.toNat == 10 || c.toNat == 13 || c.toNat == 8232 || c.toNat == 8233)

/-- The class `[A-Z0-9\$\-!\.]` (without the flag `i`). -/
def isRootChar (c : Char) : Bool :=
  isUpper c || isDigit c || chr '$' c || chr '-' c || chr '!' c || chr '.' c

/-- The text of a pattern, character by character, under the flag `i`. -/
def Regex.text (s : List Char) : Regex := Regex.cat (s.map (fun x => Regex.cls (ci (chr x))))

/-- The text of a pattern, character by character, case-sensitive. -/
def Regex.textExact (s : List Char) : Regex := Regex.cat (s.map (fun x => Regex.cls (chr x)))

/-! ## Pattern table -/

/-- The pattern `predicates.bats = /^(.*)\.BZ$/i`. -/
def predicates.bats : Pattern :=
  ⟨true, .cat [.group 1 (.many isDot), .text ['.', 'B', 'Z'], .eos]⟩

/-- The pattern `predicates.percent = /(\.RT)$/`. -/
def predicates.percent : Pattern :=
  ⟨false, .cat [.group 1 (.textExact ['.', 'R', 'T']), .eos]⟩

/-- The pattern `predicates.pit = /\(P(it)?\)/`. -/
def predicates.pit : Pattern :=
  ⟨false, .cat [.textExact ['(', 'P'], .opt (.group 1 (.textExact ['i', 't'])),
    .textExact [')']]⟩

/-- The pattern `types.bids = /^([A-Z]{2})([B|P])([A-Z\d]{3,4})-(\d+)-(\d+)(\.CM)$/i`. -/
def types.bids : Pattern :=
  ⟨true, .cat [
    .group 1 (.times (.cls (ci isUpper)) 2),
    .group 2 (.cls (ci (fun c => chr 'B' c || chr '|' c || chr 'P' c))),
    .group 3 (.rep (.cls (ci (fun c => isUpper c || isDigit c))) 3 4),
    .cls (ci (chr '-')),
    .group 4 (.plus (ci isDigit)),
    .cls (ci (chr '-')),
    .group 5 (.plus (ci isDigit)),
    .group 6 (.text ['.', 'C', 'M']),
    .eos]⟩

/-- The pattern `types.c3.alias = /^(C3:)(.*)$/i`. -/
def types.c3.alias : Pattern :=
  ⟨true, .cat [.group 1 (.text ['C', '3', ':']), .group 2 (.many isDot), .eos]⟩

/-- The pattern `types.c3.concrete = /(\.C3)$/i`. -/
def types.c3.concrete : Pattern :=
  ⟨false, .cat [.group 1 (.text ['.', 'C', '3']), .eos]⟩

/-- The pattern `types.cmdty.stats = /(\.CS)$/i`. -/
def types.cmdty.stats : Pattern :=
  ⟨false, .cat [.group 1 (.text ['.', 'C', 'S']), .eos]⟩

/-- The pattern `types.cmdty.internal = /(\.CM)$/i`. -/
def types.cmdty.internal : Pattern :=
  ⟨false, .cat [.group 1 (.text ['.', 'C', 'M']), .eos]⟩

/-- The pattern `types.cmdty.external = /(\.CP)$/i`. -/
def types.cmdty.external : Pattern :=
  ⟨false, .cat [.group 1 (.text ['.', 'C', 'P']), .eos]⟩

/-- The pattern `types.crypto = /^\^([A-Z]{3})([A-Z]{3,4})$/i`. -/
def types.crypto : Pattern :=
  ⟨true, .cat [.cls (ci (chr '^')), .group 1 (.times (.cls (ci isUpper)) 3),
    .group 2 (.rep (.cls (ci isUpper)) 3 4), .eos]⟩

/-- The pattern `types.equities.options =
/^([A-Z\$][A-Z\-]{0,}(\.[A-Z]{1})?)([0-9]?)(\.[A-Z]{2})?\|([[0-9]{4})([[0-9]{2})([[0-9]{2})\|([0-9]+\.[0-9]+)[P|W]?(C|P)/i`.
The classes `[[0-9]` hold the opening bracket next to the digits, the class `[P|W]` holds
the bar, and the pattern has no `$` at its end. -/
def types.equities.options : Pattern :=
  ⟨true, .cat [
    .group 1 (.cat [
      .cls (ci (fun c => isUpper c || chr '$' c)),
      .many (ci (fun c => isUpper c || chr '-' c)),
      .opt (.group 2 (.cat [.cls (ci (chr '.')), .times (.cls (ci isUpper)) 1]))]),
    .group 3 (.opt (.cls (ci isDigit))),
    .opt (.group 4 (.cat [.cls (ci (chr '.')), .times (.cls (ci isUpper)) 2])),
    .cls (ci (chr '|')),
    .group 5 (.times (.cls (ci (fun c => chr '[' c || isDigit c))) 4),
    .group 6 (.times (.cls (ci (fun c => chr '[' c || isDigit c))) 2),
    .group 7 (.times (.cls (ci (fun c => chr '[' c || isDigit c))) 2),
    .cls (ci (chr '|')),
    .group 8 (.cat [.plus (ci isDigit), .cls (ci (chr '.')), .plus (ci isDigit)]),
    .opt (.cls (ci (fun c => chr 'P' c || chr '|' c || chr 'W' c))),
    .group 9 (.alt (.cls (ci (chr 'C'))) (.cls (ci (chr 'P'))))]⟩

/-- The pattern `types.forex = /^\^([A-Z]{3})([A-Z]{3})$/i`. -/
def types.forex : Pattern :=
  ⟨true, .cat [.cls (ci (chr '^')), .group 1 (.times (.cls (ci isUpper)) 3),
    .group 2 (.times (.cls (ci isUpper)) 3), .eos]⟩

/-- The pattern `types.funds.canadian = /(.*)(\.CF)$/i`. -/
def types.funds.canadian : Pattern :=
  ⟨false, .cat [.group 1 (.many isDot), .group 2 (.text ['.', 'C', 'F']), .eos]⟩

/-- The root of a futures symbol, `[A-Z][A-Z0-9\$\-!\.]{0,2}` under the flag `i`. -/
def futuresRoot : Regex :=
  .cat [.cls (ci isUpper), .rep (.cls (ci isRootChar)) 0 2]

/-- The pattern `types.futures.alias =
/^([A-Z][A-Z0-9\$\-!\.]{0,2})(\*{1})([0-9]{1,2})$/i`. -/
def types.futures.alias : Pattern :=
  ⟨true, .cat [
    .group 1 futuresRoot,
    .group 2 (.times (.cls (ci (chr '*'))) 1),
    .group 3 (.rep (.cls (ci isDigit)) 1 2),
    .eos]⟩

/-- The pattern `types.futures.concrete =
/^([A-Z][A-Z0-9\$\-!\.]{0,2})([A-Z]{1})([0-9]{4}|[0-9]{1,2})$/i`. -/
def types.futures.concrete : Pattern :=
  ⟨true, .cat [
    .group 1 futuresRoot,
    .group 2 (.times (.cls (ci isUpper)) 1),
    .group 3 (.alt (.times (.cls (ci isDigit)) 4) (.rep (.cls (ci isDigit)) 1 2)),
    .eos]⟩

/-- The pattern `types.futures.spread = /^_S_/i`. -/
def types.futures.spread : Pattern :=
  ⟨true, .text ['_', 'S', '_']⟩

/-- The pattern `types.futures.options.historical =
/^([A-Z][A-Z0-9\$\-!\.]{0,2})([A-Z])([0-9]{2})([0-9]{1,5})(C|P)$/i`. -/
def types.futures.options.historical : Pattern :=
  ⟨true, .cat [
    .group 1 futuresRoot,
    .group 2 (.cls (ci isUpper)),
    .group 3 (.times (.cls (ci isDigit)) 2),
    .group 4 (.rep (.cls (ci isDigit)) 1 5),
    .group 5 (.alt (.cls (ci (chr 'C'))) (.cls (ci (chr 'P')))),
    .eos]⟩

/-- The pattern `types.futures.options.long =
/^([A-Z][A-Z0-9\$\-!\.]{0,2})([A-Z])([0-9]{1,4})\|(\-?[0-9]{1,5})(C|P)$/i`. -/
def types.futures.options.long : Pattern :=
  ⟨true, .cat [
    .group 1 futuresRoot,
    .group 2 (.cls (ci isUpper)),
    .group 3 (.rep (.cls (ci isDigit)) 1 4),
    .cls (ci (chr '|')),
    .group 4 (.cat [.opt (.cls (ci (chr '-'))), .rep (.cls (ci isDigit)) 1 5]),
    .group 5 (.alt (.cls (ci (chr 'C'))) (.cls (ci (chr 'P')))),
    .eos]⟩

/-- The pattern `types.futures.options.short =
/^([A-Z][A-Z0-9\$\-!\.]?)([A-Z])([0-9]{1,4})([A-Z])$/i`. -/
def types.futures.options.short : Pattern :=
  ⟨true, .cat [
    .group 1 (.cat [.cls (ci isUpper), .opt (.cls (ci isRootChar))]),
    .group 2 (.cls (ci isUpper)),
    .group 3 (.rep (.cls (ci isDigit)) 1 4),
    .group 4 (.cls (ci isUpper)),
    .eos]⟩

/-- The pattern `types.indicies.external = /^\$(.*)$/i`. -/
def types.indicies.external : Pattern :=
  ⟨true, .cat [.cls (ci (chr '$')), .group 1 (.many isDot), .eos]⟩

/-- The pattern `types.indicies.sector = /^\-(.*)$/i`. -/
def types.indicies.sector : Pattern :=
  ⟨true, .cat [.cls (ci (chr '-')), .group 1 (.many isDot), .eos]⟩

/-- The pattern `types.platts.alias = /^(PLATTS:)(.*)$/i`. -/
def types.platts.alias : Pattern :=
  ⟨true, .cat [.group 1 (.text ['P', 'L', 'A', 'T', 'T', 'S', ':']), .group 2 (.many isDot),
    .eos]⟩

/-- The pattern `types.platts.concrete = /^(.*)(\.PT)$/i`. -/
def types.platts.concrete : Pattern :=
  ⟨true, .cat [.group 1 (.many isDot), .group 2 (.text ['.', 'P', 'T']), .eos]⟩

/-! ## Temporal resolver -/

/-- The constant `alternateFuturesMonths`. -/
def alternateFuturesMonths : List (Char × Char) :=
  [('A', 'F'), ('B', 'G'), ('C', 'H'), ('D', 'J'), ('E', 'K'), ('I', 'M'), ('L', 'N'),
   ('O', 'Q'), ('P', 'U'), ('R', 'V'), ('S', 'X'), ('T', 'Z')]

/-- The constant `futuresMonthNumbers`. -/
def futuresMonthNumbers : List (Char × Nat) :=
  [('F', 1), ('G', 2), ('H', 3), ('J', 4), ('K', 5), ('M', 6), ('N', 7), ('Q', 8),
   ('U', 9), ('V', 10), ('X', 11), ('Z', 12)]

/-- The value of a one-letter key in a table keyed by letters. -/
def lookupKey {β : Type} (table : List (Char × β)) (key : List Char) : Option β :=
  match key with
  | [c] => (table.find? (fun e => e.1 == c)).map (fun e => e.2)
  | _ => none

/-- The function `getFuturesYear(yearString, monthCode)`, with the value of
`getCurrentYear()` as an argument. The result is a number or `NaN`. -/
def getFuturesYear (currentYear : Nat) (yearString : List Char) (monthCode : JsValue) :
    JsNumber :=
  match parseInt yearString with
  | .nan => .nan
  | .dec _ _ => .nan
  | .int year =>
    if year = 0 ∧ monthCode = .str ['Y'] then
      .int ((currentYear / 100 * 100 : Nat) + 100)
    else if year < 10 ∧ yearString.length = 1 then
      let bump : Int := if year < (currentYear % 10 : Nat) then 1 else 0
      .int ((currentYear / 10 * 10 : Nat) + year + bump * 10)
    else if year < 100 then
      let y : Int := (currentYear / 100 * 100 : Nat) + year
      if (currentYear : Int) + 25 < y then .int (y - 100) else .int y
    else
      .int year

/-- The names that every object inherits from `Object.prototype`: a lookup of one of them
in an object literal finds a function or an object. -/
def objectPrototypeKeys : List (List Char) :=
  ["constructor".toList, "hasOwnProperty".toList, "isPrototypeOf".toList,
   "propertyIsEnumerable".toList, "toLocaleString".toList, "toString".toList,
   "valueOf".toList, "__proto__".toList, "__defineGetter__".toList,
   "__defineSetter__".toList, "__lookupGetter__".toList, "__lookupSetter__".toList]

/-- The function `getFuturesMonth(monthString)`:
`alternateFuturesMonths[monthString] || monthString`. -/
def getFuturesMonth (monthString : List Char) : JsValue :=
  match lookupKey alternateFuturesMonths monthString with
  | some c => .str [c]
  | none =>
    if objectPrototypeKeys.contains monthString then .obj
    else .str monthString

/-- The function `getYearDigits(year, digits)` on a number. -/
def getYearDigits (year : JsNumber) (digits : Nat) : List Char :=
  let yearString := year.toString
  yearString.drop (yearString.length - digits)

/-! ## Instrument definitions -/

/-- Modelled from the spec: the enumeration `AssetClass` of `lib/utilities/data/AssetClass`,
which is not among the sources; the parser only attaches its members to definitions as
labels. -/
inductive AssetClass where
  | FUTURE
  | FOREX
  | STOCK_OPTION
  | FUTURE_OPTION
  | CMDTY_STATS
  deriving DecidableEq

/-- The values of the property `type` of a definition. -/
inductive InstrumentType where
  | future_spread
  | future
  | forex
  | equity_option
  | index
  | sector
  | future_option
  | cmdtyStats
  deriving DecidableEq

/-- The values of the property `option_type` of a definition. -/
inductive OptionType where
  | call
  | put
  deriving DecidableEq

/-- The object built by a parser. A property that the parser does not set is `none`
(`undefined` for `month`). -/
structure Definition where
  symbol : List Char
  type : InstrumentType
  asset : Option AssetClass := none
  dynamic : Option Bool := none
  root : Option (List Char) := none
  month : JsValue := .undefined
  day : Option JsNumber := none
  year : Option JsNumber := none
  dynamicCode : Option (List Char) := none
  option_type : Option OptionType := none
  strike : Option JsNumber := none
  adjusted : Option Bool := none
  deriving DecidableEq

/-- The element `match[i]` of a match as a text, for a group that takes part in every
match of its pattern (the empty text stands in for `undefined`). -/
def MatchResult.group (m : MatchResult) (i : Nat) : List Char := (m.captures i).getD []

/-! ## Structural parser pipeline -/

/-- The first parser: futures spreads. -/
def parsers.futureSpread (symbol : List Char) : Option Definition :=
  if types.futures.spread.test symbol then
    some { symbol := symbol, type := .future_spread }
  else none

/-- The second parser: concrete futures. -/
def parsers.futureConcrete (currentYear : Nat) (symbol : List Char) : Option Definition :=
  match types.futures.concrete.exec symbol with
  | some m =>
    some { symbol := symbol, type := .future, asset := some .FUTURE, dynamic := some false,
           root := m.captures 1, month := .ofText (m.captures 2),
           year := some (getFuturesYear currentYear (m.group 3) (.ofText (m.captures 2))) }
  | none => none

/-- The third parser: futures aliases. -/
def parsers.futureAlias (symbol : List Char) : Option Definition :=
  match types.futures.alias.exec symbol with
  | some m =>
    some { symbol := symbol, type := .future, asset := some .FUTURE, dynamic := some true,
           root := m.captures 1, dynamicCode := m.captures 3 }
  | none => none

/-- The fourth parser: foreign exchange. -/
def parsers.forex (symbol : List Char) : Option Definition :=
  if types.forex.test symbol then
    some { symbol := symbol, type := .forex, asset := some .FOREX }
  else none

/-- The fifth parser: equity options. -/
def parsers.equityOption (symbol : List Char) : Option Definition :=
  match types.equities.options.exec symbol with
  | some m =>
    let suffix := (m.captures 4).getD []
    some { symbol := symbol, type := .equity_option, asset := some .STOCK_OPTION,
           option_type := some (if m.captures 9 = some ['C'] then .call else .put),
           strike := some (parseFloat (m.group 8)),
           root := some ((JsValue.ofText (m.captures 1)).text ++ suffix),
           month := .num (parseInt (m.group 6)),
           day := some (parseInt (m.group 7)),
           year := some (parseInt (m.group 5)),
           adjusted := some (decide (m.captures 3 ≠ some [])) }
  | none => none

/-- The sixth parser: external indices. -/
def parsers.index (symbol : List Char) : Option Definition :=
  if types.indicies.external.test symbol then
    some { symbol := symbol, type := .index }
  else none

/-- The seventh parser: sectors. -/
def parsers.sector (symbol : List Char) : Option Definition :=
  if types.indicies.sector.test symbol then
    some { symbol := symbol, type := .sector }
  else none

/-- The eighth parser: futures options in the short format, where the last letter gives
both the option type and the distance of the expiration year from the current year. -/
def parsers.futureOptionShort (currentYear : Nat) (symbol : List Char) : Option Definition :=
  match types.futures.options.short.exec symbol with
  | some m =>
    let putCallCharacterCode := charCodeAt0 (m.group 4)
    let putCharacterCode : JsNumber := .int 80
    let callCharacterCode : JsNumber := .int 67
    let (optionType, optionYearDelta) : OptionType × JsNumber :=
      if putCallCharacterCode.lt putCharacterCode then
        (.call, putCallCharacterCode.sub callCharacterCode)
      else
        (.put, putCallCharacterCode.sub putCharacterCode)
    some { symbol := symbol, type := .future_option, asset := some .FUTURE_OPTION,
           option_type := some optionType,
           strike := some (parseInt (m.group 3)),
           root := m.captures 1, month := .ofText (m.captures 2),
           year := some ((JsNumber.int currentYear).add optionYearDelta) }
  | none => none

/-- The ninth parser: futures options in the long format or, failing that, in the
historical format. -/
def parsers.futureOptionLong (currentYear : Nat) (symbol : List Char) : Option Definition :=
  let found : Option MatchResult :=
    match types.futures.options.long.exec symbol with
    | some m => some m
    | none => types.futures.options.historical.exec symbol
  match found with
  | some m =>
    some { symbol := symbol, type := .future_option, asset := some .FUTURE_OPTION,
           option_type := some (if m.captures 5 = some ['C'] then .call else .put),
           strike := some (parseInt (m.group 4)),
           root := m.captures 1, month := getFuturesMonth (m.group 2),
           year := some (getFuturesYear currentYear (m.group 3) .undefined) }
  | none => none

/-- The tenth parser: cmdtyStats symbols. -/
def parsers.cmdtyStats (symbol : List Char) : Option Definition :=
  match types.cmdty.stats.exec symbol with
  | some _ => some { symbol := symbol, type := .cmdtyStats, asset := some .CMDTY_STATS }
  | none => none

/-- The array `parsers`, in the order in which the parsers are pushed. -/
def parsers (currentYear : Nat) : List (List Char → Option Definition) :=
  [parsers.futureSpread, parsers.futureConcrete currentYear, parsers.futureAlias,
   parsers.forex, parsers.equityOption, parsers.index, parsers.sector,
   parsers.futureOptionShort currentYear, parsers.futureOptionLong currentYear,
   parsers.cmdtyStats]

/-- The loop of `parseInstrumentType`: the parsers are called in turn while the
definition is `null`. -/
def parseLoop : List (List Char → Option Definition) → List Char → Option Definition
  | [], _ => none
  | parser :: rest, symbol =>
    match parser symbol with
    | some definition => some definition
    | none => parseLoop rest symbol

/-! ## Public operations -/

/-- The method `getIsReference`. -/
def getIsReference (symbol : JsValue) : Bool :=
  is.string symbol && types.futures.alias.test symbol.text

/-- The method `getIsConcrete`. -/
def getIsConcrete (symbol : JsValue) : Bool :=
  is.string symbol && !getIsReference symbol

/-- The method `getIsFuture`. -/
def getIsFuture (symbol : JsValue) : Bool :=
  is.string symbol &&
    (types.futures.concrete.test symbol.text || types.futures.alias.test symbol.text)

/-- The method `getIsFutureSpread`. -/
def getIsFutureSpread (symbol : JsValue) : Bool :=
  is.string symbol && types.futures.spread.test symbol.text

/-- The method `getIsFutureOption`. -/
def getIsFutureOption (symbol : JsValue) : Bool :=
  is.string symbol &&
    (types.futures.options.short.test symbol.text ||
      types.futures.options.long.test symbol.text ||
      types.futures.options.historical.test symbol.text)

/-- The method `getIsForex`. -/
def getIsForex (symbol : JsValue) : Bool :=
  is.string symbol && types.forex.test symbol.text

/-- The method `getIsCrypto`. -/
def getIsCrypto (symbol : JsValue) : Bool :=
  is.string symbol && types.crypto.test symbol.text

/-- The method `getIsIndex`. -/
def getIsIndex (symbol : JsValue) : Bool :=
  is.string symbol && types.indicies.external.test symbol.text

/-- The method `getIsSector`. -/
def getIsSector (symbol : JsValue) : Bool :=
  is.string symbol && types.indicies.sector.test symbol.text

/-- The method `getIsCanadianFund`. -/
def getIsCanadianFund (symbol : JsValue) : Bool :=
  is.string symbol && types.funds.canadian.test symbol.text

/-- The method `getIsCmdty`. -/
def getIsCmdty (symbol : JsValue) : Bool :=
  is.string symbol &&
    (types.cmdty.stats.test symbol.text || types.cmdty.internal.test symbol.text ||
      types.cmdty.external.test symbol.text)

/-- The method `getIsCmdtyStats`. -/
def getIsCmdtyStats (symbol : JsValue) : Bool :=
  is.string symbol && types.cmdty.stats.test symbol.text

/-- The method `getIsBats`. -/
def getIsBats (symbol : JsValue) : Bool :=
  is.string symbol && predicates.bats.test symbol.text

/-- The method `getIsEquityOption`. -/
def getIsEquityOption (symbol : JsValue) : Bool :=
  is.string symbol && types.equities.options.test symbol.text

/-- The method `getIsC3`. -/
def getIsC3 (symbol : JsValue) : Bool :=
  is.string symbol && (types.c3.concrete.test symbol.text || types.c3.alias.test symbol.text)

/-- The method `getIsPlatts`. -/
def getIsPlatts (symbol : JsValue) : Bool :=
  is.string symbol &&
    (types.platts.concrete.test symbol.text || types.platts.alias.test symbol.text)

/-- The method `getIsPit`. -/
def getIsPit (symbol name : JsValue) : Bool :=
  is.string symbol && is.string name && predicates.pit.test name.text

/-- The method `getIsGrainBid`. -/
def getIsGrainBid (symbol : JsValue) : Bool :=
  is.string symbol && types.bids.test symbol.text

/-- The method `displayUsingPercent`. -/
def displayUsingPercent (symbol : JsValue) : Bool :=
  is.string symbol && predicates.percent.test symbol.text

/-- The method `parseInstrumentType`; `none` is `null`. -/
def parseInstrumentType (currentYear : Nat) (symbol : JsValue) : Option Definition :=
  if !is.string symbol then none
  else parseLoop (parsers currentYear) symbol.text

/-- The test `futuresMonthNumbers.hasOwnProperty(month)`. -/
def hasMonthNumber (month : JsValue) : Bool :=
  (lookupKey futuresMonthNumbers month.text).isSome

/-- The method `getIsExpired`, with the values of `getCurrentYear()` and
`getCurrentMonth()` as arguments. -/
def getIsExpired (currentYear currentMonth : Nat) (symbol : JsValue) : Bool :=
  match parseInstrumentType currentYear symbol with
  | none => false
  | some definition =>
    if (JsValue.ofNumber definition.year).truthy && definition.month.truthy then
      if (toNumber definition.year).lt (.int currentYear) then true
      else if (toNumber definition.year).strictEq (.int currentYear)
          && hasMonthNumber definition.month then
        match lookupKey futuresMonthNumbers definition.month.text with
        | some futuresMonth => decide (currentMonth > futuresMonth)
        | none => false
      else false
    else false

/-- The function `getPutCallCharacter`; `none` is `null`. -/
def getPutCallCharacter : Option OptionType → Option Char
  | some .call => some 'C'
  | some .put => some 'P'
  | none => none

/-- The text of `getPutCallCharacter(...)` in a template literal. -/
def putCallText : Option Char → List Char
  | some c => [c]
  | none => "null".toList

/-- The call `getYearDigits(definition.year, digits)`: the method `toString` of
`undefined` throws. -/
def yearDigits (year : Option JsNumber) (digits : Nat) : Except JsError (List Char) :=
  match year with
  | some y => .ok (getYearDigits y digits)
  | none => .error .typeError

/-- The method `getFuturesOptionPipelineFormat`. The property `type` is read from the
result of `parseInstrumentType` without a check for `null`. -/
def getFuturesOptionPipelineFormat (currentYear : Nat) (symbol : JsValue) :
    Except JsError (Option (List Char)) :=
  match parseInstrumentType currentYear symbol with
  | none => .error .typeError
  | some definition =>
    if definition.type = .future_option then
      let putCallCharacter := getPutCallCharacter definition.option_type
      match yearDigits definition.year 1 with
      | .error e => .error e
      | .ok digits =>
        .ok (some ((JsValue.ofText definition.root).text ++ definition.month.text ++ digits
          ++ '|' :: (JsValue.ofNumber definition.strike).text ++ putCallText putCallCharacter))
    else .ok none

/-- The method `getFuturesExplicitFormat`. -/
def getFuturesExplicitFormat (currentYear : Nat) (symbol : JsValue) :
    Except JsError (Option (List Char)) :=
  if getIsFuture symbol && getIsConcrete symbol then
    match parseInstrumentType currentYear symbol with
    | none => .error .typeError
    | some parsed =>
      .ok (some ((JsValue.ofText parsed.root).text ++ parsed.month.text
        ++ padLeft ((toNumber parsed.year).floorRem 100).toString 2 '0'))
  else .ok none

/-! ## Converter pipeline -/

/-- The pattern `/(.{1,3})([A-Z]{1})([0-9]{3}|[0-9]{1})?([0-9]{1})$/i` of the first
converter. -/
def converters.futurePattern : Pattern :=
  ⟨false, .cat [
    .group 1 (.rep (.cls isDot) 1 3),
    .group 2 (.times (.cls (ci isUpper)) 1),
    .opt (.group 3 (.alt (.times (.cls (ci isDigit)) 3) (.times (.cls (ci isDigit)) 1))),
    .group 4 (.times (.cls (ci isDigit)) 1),
    .eos]⟩

/-- A piece of a replacement string: a reference `$i` to a group, or plain text. -/
inductive Replacement where
  | ref (i : Nat)
  | lit (s : List Char)

/-- The text that stands for a piece of a replacement string; a group that took no part in
the match gives the empty text. -/
def Replacement.expand (m : MatchResult) : Replacement → List Char
  | .ref i => (m.captures i).getD []
  | .lit s => s

/-- The method `symbol.replace(pattern, replacement)` for a pattern without the flag
`g`: the first match is replaced, a text without a match is returned as it is. -/
def replace (symbol : List Char) (pattern : Pattern) (replacement : List Replacement) :
    List Char :=
  match pattern.exec symbol with
  | some m => m.before ++ (replacement.map (Replacement.expand m)).flatten ++ m.after
  | none => symbol

/-- The first converter: concrete futures keep the last digit of the year only. -/
def converters.future (symbol : List Char) : Except JsError (Option (List Char)) :=
  if getIsFuture (.str symbol) && getIsConcrete (.str symbol) then
    let converted := replace symbol converters.futurePattern [.ref 1, .ref 2, .ref 4]
    .ok (if converted.isEmpty then none else some converted)
  else .ok none

/-- The second converter: futures options. -/
def converters.futureOption (currentYear : Nat) (symbol : List Char) :
    Except JsError (Option (List Char)) :=
  if getIsFutureOption (.str symbol) then
    match parseInstrumentType currentYear (.str symbol) with
    | none => .error .typeError
    | some definition =>
      let putCallCharacter := getPutCallCharacter definition.option_type
      match definition.root with
      | none => .error .typeError
      | some root =>
        if root.length < 3 then
          match putCallCharacter with
          | none => .error .typeError
          | some c =>
            let putCallCharacterCode : JsNumber := .int c.toNat
            .ok (some (root ++ definition.month.text
              ++ (JsValue.ofNumber definition.strike).text
              ++ [fromCharCode ((putCallCharacterCode.add (toNumber definition.year)).sub
                    (.int currentYear))]))
        else
          match yearDigits definition.year 1 with
          | .error e => .error e
          | .ok digits =>
            .ok (some (root ++ definition.month.text ++ digits
              ++ '|' :: (JsValue.ofNumber definition.strike).text
              ++ putCallText putCallCharacter))
  else .ok none

/-- The third converter: the alias `C3:` becomes the suffix `.C3`. -/
def converters.c3 (symbol : List Char) : Except JsError (Option (List Char)) :=
  if types.c3.alias.test symbol then
    .ok (some (replace symbol types.c3.alias [.ref 2, .lit ['.', 'C', '3']]))
  else .ok none

/-- The fourth converter: the alias `PLATTS:` becomes the suffix `.PT`. -/
def converters.platts (symbol : List Char) : Except JsError (Option (List Char)) :=
  if types.platts.alias.test symbol then
    .ok (some (replace symbol types.platts.alias [.ref 2, .lit ['.', 'P', 'T']]))
  else .ok none

/-- The last converter: the symbol itself. -/
def converters.identity (symbol : List Char) : Except JsError (Option (List Char)) :=
  .ok (some symbol)

/-- The array `converters`, in the order in which the converters are pushed. -/
def converters (currentYear : Nat) : List (List Char → Except JsError (Option (List Char))) :=
  [converters.future, converters.futureOption currentYear, converters.c3, converters.platts,
   converters.identity]

/-- The loop of `getProducerSymbol`: the converters are called in turn while the result is
`null`; an error thrown by a converter ends the loop. -/
def convertLoop : List (List Char → Except JsError (Option (List Char))) → List Char →
    Except JsError (Option (List Char))
  | [], _ => .ok none
  | converter :: rest, symbol =>
    match converter symbol with
    | .error e => .error e
    | .ok (some converted) => .ok (some converted)
    | .ok none => convertLoop rest symbol

/-- The method `getProducerSymbol`. -/
def getProducerSymbol (currentYear : Nat) (symbol : JsValue) :
    Except JsError (Option (List Char)) :=
  if !is.string symbol then .ok none
  else convertLoop (converters currentYear) symbol.text

/-! ## Specification of matching -/

/-- The texts a regular expression can match, whatever the priorities of the matcher:
`r.Matches s rest` holds when `r` matches a part of `s` that starts at its first
character and is followed by `rest`. -/
def Regex.Matches : Regex → List Char → List Char → Prop
  | .cls p, s, rest => ∃ c, p c = true ∧ s = c :: rest
  | .eps, s, rest => s = rest
  | .eos, s, rest => s = [] ∧ rest = []
  | .seq a b, s, rest => ∃ mid, a.Matches s mid ∧ b.Matches mid rest
  | .alt a b, s, rest => a.Matches s rest ∨ b.Matches s rest
  | .many p, s, rest => ∃ pre, s = pre ++ rest ∧ ∀ c ∈ pre, p c = true
  | .group _ a, s, rest => a.Matches s rest

/-- The least number of characters that a match of a regular expression consumes. -/
def Regex.minLength : Regex → Nat
  | .cls _ => 1
  | .eps => 0
  | .eos => 0
  | .seq a b => a.minLength + b.minLength
  | .alt a b => min a.minLength b.minLength
  | .many _ => 0
  | .group _ a => a.minLength

/-! ## The parser pipeline as the specification describes it -/

/-- An extractor of the specification: the type it assigns, the test of its pattern and
the parser of the source that plays its part. -/
structure Extractor where
  type : InstrumentType
  accepts : List Char → Bool
  extract : List Char → Option Definition

/-- The extractors in the priority order of the specification: future_spread, future
(concrete), future (alias), forex, equity_option, index, sector, future_option (short),
future_option (long or historical), cmdtyStats. -/
def extractors (currentYear : Nat) : List Extractor :=
  [⟨.future_spread, types.futures.spread.test, parsers.futureSpread⟩,
   ⟨.future, types.futures.concrete.test, parsers.futureConcrete currentYear⟩,
   ⟨.future, types.futures.alias.test, parsers.futureAlias⟩,
   ⟨.forex, types.forex.test, parsers.forex⟩,
   ⟨.equity_option, types.equities.options.test, parsers.equityOption⟩,
   ⟨.index, types.indicies.external.test, parsers.index⟩,
   ⟨.sector, types.indicies.sector.test, parsers.sector⟩,
   ⟨.future_option, types.futures.options.short.test, parsers.futureOptionShort currentYear⟩,
   ⟨.future_option,
     fun s => types.futures.options.long.test s || types.futures.options.historical.test s,
     parsers.futureOptionLong currentYear⟩,
   ⟨.cmdtyStats, types.cmdty.stats.test, parsers.cmdtyStats⟩]

/-- The matches of a regular expression together with their captures:
`r.MatchesWith s caps rest caps1` holds when `r` can match the part of `s` in front of
`rest`, turning the captures `caps` into `caps1`. -/
def Regex.MatchesWith : Regex → List Char → Captures → List Char → Captures → Prop
  | .cls p, s, caps, rest, caps1 => (∃ c, p c = true ∧ s = c :: rest) ∧ caps1 = caps
  | .eps, s, caps, rest, caps1 => s = rest ∧ caps1 = caps
  | .eos, s, caps, rest, caps1 => s = [] ∧ rest = [] ∧ caps1 = caps
  | .seq a b, s, caps, rest, caps1 =>
    ∃ mid capsMid, a.MatchesWith s caps mid capsMid ∧ b.MatchesWith mid capsMid rest caps1
  | .alt a b, s, caps, rest, caps1 =>
    a.MatchesWith s caps rest caps1 ∨ b.MatchesWith s caps rest caps1
  | .many p, s, caps, rest, caps1 =>
    (∃ pre, s = pre ++ rest ∧ ∀ c ∈ pre, p c = true) ∧ caps1 = caps
  | .group i a, s, caps, rest, caps1 =>
    ∃ capsIn, a.MatchesWith s caps rest capsIn
      ∧ caps1 = capsIn.set i (s.take (s.length - rest.length))

/-- The numbers of the groups of a regular expression. -/
def Regex.groups : Regex → List Nat
  | .cls _ => []
  | .eps => []
  | .eos => []
  | .seq a b => a.groups ++ b.groups
  | .alt a b => a.groups ++ b.groups
  | .many _ => []
  | .group i a => i :: a.groups

/-- Every character class of a regular expression lies within the class `q`. -/
def Regex.Within (q : Char → Bool) : Regex → Prop
  | .cls p => ∀ c, p c = true → q c = true
  | .eps => True
  | .eos => True
  | .seq a b => a.Within q ∧ b.Within q
  | .alt a b => a.Within q ∧ b.Within q
  | .many p => ∀ c, p c = true → q c = true
  | .group _ a => a.Within q


/-! ## Further definitions of the specification -/

/-- The alternate month letters, in the order of the months. -/
def alternateMonthLetters : List Char :=
  ['A', 'B', 'C', 'D', 'E', 'I', 'L', 'O', 'P', 'R', 'S', 'T']

/-- The canonical futures month letters, in the order of the months. -/
def canonicalMonthLetters : List Char :=
  ['F', 'G', 'H', 'J', 'K', 'M', 'N', 'Q', 'U', 'V', 'X', 'Z']

/-- The class of the characters other than the bar. -/
def notBar (c : Char) : Bool := c.toNat != 124

/-- The short scheme of the trailing letter of a futures option, as the specification
words it: a character code below that of `P` is a call that expires in the year
`R + code - code('C')`, any other code is a put that expires in the year
`R + code - code('P')`. -/
def decodeShortLetter (R : Nat) (c : Char) : OptionType × Int :=
  if c.toNat < ('P' : Char).toNat then
    (.call, (R : Int) + ((c.toNat : Int) - (('C' : Char).toNat : Int)))
  else
    (.put, (R : Int) + ((c.toNat : Int) - (('P' : Char).toNat : Int)))

/-- The character code of the letter of an option type: 67 for `C`, 80 for `P`. -/
def letterCode : OptionType → Int
  | .call => 67
  | .put => 80

/-- The two decimal digits of a number below 100. -/
def twoDigits (n : Nat) : List Char := [Nat.digitChar (n / 10), Nat.digitChar (n % 10)]

/-- The rational number that a number stands for, `none` for `NaN`. -/
def JsNumber.toRat : JsNumber → Option ℚ
  | .nan => none
  | .int n => some n
  | .dec m s => some ((m : ℚ) / 10 ^ s)

/-- The values of the characters of a text as decimal digits. -/
def digitValues (ds : List Char) : List Nat := ds.map (fun c => c.toNat - 48)

/-! ## Lemmas on the built-ins -/

theorem isDigit_iff (c : Char) : isDigit c = true ↔ 48 ≤ c.toNat ∧ c.toNat ≤ 57 := by
  simp [isDigit]

theorem digitValue_ten_of_isDigit {c : Char} (h : isDigit c = true) :
    digitValue 10 c = some (c.toNat - 48) := by
  rw [isDigit_iff] at h
  have h2 : c.toNat - 48 < 10 := by omega
  simp [digitValue, h, h2]

theorem leadingDigits_of_digits (ds : List Char) (h : ∀ c ∈ ds, isDigit c = true) :
    leadingDigits 10 ds = ds.map (fun c => c.toNat - 48) := by
  induction ds with
  | nil => rfl
  | cons c cs ih =>
    have hc := digitValue_ten_of_isDigit (h c (by simp))
    simp only [leadingDigits, hc, List.map_cons]
    rw [ih (fun x hx => h x (by simp [hx]))]

theorem trimStart_of_digit {c : Char} (cs : List Char) (h : isDigit c = true) :
    trimStart (c :: cs) = c :: cs := by
  rw [isDigit_iff] at h
  have : isStrWhiteSpace c = false := by
    simp only [isStrWhiteSpace, Bool.or_eq_false_iff, beq_eq_false_iff_ne, Bool.and_eq_false_iff, decide_eq_false_iff_not, ne_eq]
    omega
  simp [trimStart, this]

theorem parseIntMagnitude_of_digits (ds : List Char) (hne : ds ≠ [])
    (h : ∀ c ∈ ds, isDigit c = true) :
    parseIntMagnitude ds = some (fromDigits 10 (ds.map (fun c => c.toNat - 48))) := by
  have hl := leadingDigits_of_digits ds h
  unfold parseIntMagnitude
  split
  · rename_i rest
    have := h 'x' (by simp)
    exact absurd this (by decide)
  · rename_i rest
    have := h 'X' (by simp)
    exact absurd this (by decide)
  · rw [hl]
    cases ds with
    | nil => exact absurd rfl hne
    | cons c cs => simp


theorem char_eq_of_toNat {c d : Char} (h : c.toNat = d.toNat) : c = d := by
  rw [← Char.ofNat_toNat c, ← Char.ofNat_toNat d, h]

theorem parseInt_of_digits (ds : List Char) (hne : ds ≠ [])
    (h : ∀ c ∈ ds, isDigit c = true) :
    parseInt ds = .int (fromDigits 10 (ds.map (fun c => c.toNat - 48)) : Nat) := by
  cases ds with
  | nil => exact absurd rfl hne
  | cons c cs =>
    have hc := h c (by simp)
    have hm := parseIntMagnitude_of_digits (c :: cs) hne h
    have hminus : c ≠ '-' := by
      intro e; rw [e] at hc; exact absurd hc (by decide)
    have hplus : c ≠ '+' := by
      intro e; rw [e] at hc; exact absurd hc (by decide)
    have hsplit : (match c :: cs with
        | '-' :: rest => (true, rest)
        | '+' :: rest => (false, rest)
        | rest => (false, rest)) = ((false, c :: cs) : Bool × List Char) := by
      split
      · rename_i rest heq
        exact absurd (List.cons.inj heq).1 hminus
      · rename_i rest heq
        exact absurd (List.cons.inj heq).1 hplus
      · rfl
    unfold parseInt
    rw [trimStart_of_digit cs hc]
    simp only [hsplit, hm]
    rfl

theorem JsNumber.lt_int (a b : Int) : JsNumber.lt (.int a) (.int b) = decide (a < b) := by
  simp [JsNumber.lt, JsNumber.align, JsNumber.parts]

theorem JsNumber.strictEq_int (a b : Int) :
    JsNumber.strictEq (.int a) (.int b) = decide (a = b) := by
  simp only [JsNumber.strictEq, JsNumber.align, JsNumber.parts, Nat.max_self, Nat.sub_self,
    pow_zero, mul_one]
  rfl

theorem JsNumber.add_int (a b : Int) : JsNumber.add (.int a) (.int b) = .int (a + b) := by
  simp [JsNumber.add, JsNumber.align, JsNumber.parts, JsNumber.ofDecimal]

theorem JsNumber.sub_int (a b : Int) : JsNumber.sub (.int a) (.int b) = .int (a - b) := by
  simp [JsNumber.sub, JsNumber.align, JsNumber.parts, JsNumber.ofDecimal]

theorem digit_lt_ten {c : Char} (h : isDigit c = true) : c.toNat - 48 < 10 := by
  rw [isDigit_iff] at h; omega

/-- C1. For every year text made of one decimal digit `c`, every month code and every
reference year `R`, the text `0` with the month code `Y` apart, `getFuturesYear` returns
the only year `y` with `R ≤ y ≤ R + 9` whose last digit is the digit: the decade of `R`
is kept when the digit is at least the last digit of `R`, and the next decade is taken
when it is less. -/
theorem getFuturesYear_single_digit (R : Nat) (c : Char) (monthCode : JsValue)
    (hc : isDigit c = true) (hY : ¬ (c = '0' ∧ monthCode = .str ['Y'])) :
    ∃ y : Int, getFuturesYear R [c] monthCode = .int y
      ∧ (R : Int) ≤ y ∧ y ≤ (R : Int) + 9 ∧ y % 10 = ((c.toNat - 48 : Nat) : Int)
      ∧ (∀ z : Int, (R : Int) ≤ z → z ≤ (R : Int) + 9 →
          z % 10 = ((c.toNat - 48 : Nat) : Int) → z = y)
      ∧ y = ((R / 10 * 10 : Nat) : Int) + ((c.toNat - 48 : Nat) : Int)
          + (if c.toNat - 48 < R % 10 then 10 else 0) := by
  have hp := parseInt_of_digits [c] (by simp) (by simpa using hc)
  have hd := digit_lt_ten hc
  have hzero : ¬ (((c.toNat - 48 : Nat) : Int) = 0 ∧ monthCode = .str ['Y']) := by
    rintro ⟨h0, hm⟩
    apply hY
    refine ⟨?_, hm⟩
    rw [isDigit_iff] at hc
    have : c.toNat = 48 := by omega
    exact char_eq_of_toNat (by rw [this]; rfl)
  simp only [List.map_cons, List.map_nil, fromDigits, List.foldl_cons, List.foldl_nil,
    Nat.zero_mul, Nat.zero_add] at hp
  simp only [getFuturesYear, hp, hzero, if_false, List.length_singleton, and_true]
  have h10 : ((c.toNat - 48 : Nat) : Int) < 10 := by omega
  simp only [h10, if_true]
  by_cases hb : c.toNat - 48 < R % 10
  · have hb' : ((c.toNat - 48 : Nat) : Int) < ((R % 10 : Nat) : Int) := by omega
    simp only [hb, hb', if_true]
    refine ⟨_, rfl, ?_, ?_, ?_, ?_, ?_⟩ <;> omega
  · have hb' : ¬ ((c.toNat - 48 : Nat) : Int) < ((R % 10 : Nat) : Int) := by omega
    simp only [hb, hb', if_false]
    refine ⟨_, rfl, ?_, ?_, ?_, ?_, ?_⟩ <;> omega


/-- Witness of C1: the text `4` with month `Z` gives 2024 and the text `1` with month `F`
gives 2031 when the reference year is 2023. -/
theorem getFuturesYear_single_digit_witness :
    isDigit '4' = true
      ∧ ¬ ('4' = '0' ∧ JsValue.str ['Z'] = .str ['Y'])
      ∧ (∃ y : Int, getFuturesYear 2023 ['4'] (.str ['Z']) = .int y
          ∧ ((2023 : Nat) : Int) ≤ y ∧ y ≤ ((2023 : Nat) : Int) + 9
          ∧ y % 10 = ((('4' : Char).toNat - 48 : Nat) : Int)
          ∧ (∀ z : Int, ((2023 : Nat) : Int) ≤ z → z ≤ ((2023 : Nat) : Int) + 9 →
              z % 10 = ((('4' : Char).toNat - 48 : Nat) : Int) → z = y)
          ∧ y = ((2023 / 10 * 10 : Nat) : Int) + ((('4' : Char).toNat - 48 : Nat) : Int)
              + (if ('4' : Char).toNat - 48 < 2023 % 10 then 10 else 0))
      ∧ getFuturesYear 2023 ['4'] (.str ['Z']) = .int 2024
      ∧ getFuturesYear 2023 ['1'] (.str ['F']) = .int 2031 :=
  ⟨by decide, by decide,
    getFuturesYear_single_digit 2023 '4' (.str ['Z']) (by decide) (by decide),
    by decide, by decide⟩

/-- C2 as stated fails for the text `00` with the month code `Y`: in 2023 the result is
2100, which is neither the year 2000 that the rule of the claim gives nor at most
2023 + 25. -/
theorem getFuturesYear_two_digits_counterexample :
    isDigit '0' = true
      ∧ getFuturesYear 2023 ['0', '0'] (.str ['Y']) = .int 2100
      ∧ ((2023 / 100 * 100 + 0 : Nat) : Int) ≤ 2023 + 25
      ∧ getFuturesYear 2023 ['0', '0'] (.str ['Y']) ≠ .int ((2023 / 100 * 100 + 0 : Nat) : Int)
      ∧ ¬ ((2100 : Int) ≤ 2023 + 25) := by
  decide

/-- C2, amended. For every year text of two decimal digits with value `v`, every month
code and every reference year `R`, the text `00` with the month code `Y` apart,
`getFuturesYear` returns `floor(R / 100) * 100 + v` when that year is at most `R + 25`,
and a hundred years less otherwise; the result is congruent to `v` modulo 100 and is at
most `R + 25`. -/
theorem getFuturesYear_two_digits (R : Nat) (c1 c2 : Char) (monthCode : JsValue)
    (h1 : isDigit c1 = true) (h2 : isDigit c2 = true)
    (hY : ¬ (c1 = '0' ∧ c2 = '0' ∧ monthCode = .str ['Y'])) :
    ∃ y : Int, getFuturesYear R [c1, c2] monthCode = .int y
      ∧ y = (if R / 100 * 100 + (10 * (c1.toNat - 48) + (c2.toNat - 48)) ≤ R + 25
          then ((R / 100 * 100 + (10 * (c1.toNat - 48) + (c2.toNat - 48)) : Nat) : Int)
          else ((R / 100 * 100 + (10 * (c1.toNat - 48) + (c2.toNat - 48)) : Nat) : Int) - 100)
      ∧ y % 100 = ((10 * (c1.toNat - 48) + (c2.toNat - 48) : Nat) : Int)
      ∧ y ≤ (R : Int) + 25 := by
  have hp := parseInt_of_digits [c1, c2] (by simp) (by
    intro c hc
    simp only [List.mem_cons, List.mem_singleton, List.not_mem_nil, or_false] at hc
    rcases hc with rfl | rfl <;> assumption)
  have hd1 := digit_lt_ten h1
  have hd2 := digit_lt_ten h2
  simp only [List.map_cons, List.map_nil, fromDigits, List.foldl_cons, List.foldl_nil,
    Nat.zero_mul, Nat.zero_add] at hp
  have hzero : ¬ ((((c1.toNat - 48) * 10 + (c2.toNat - 48) : Nat) : Int) = 0
      ∧ monthCode = .str ['Y']) := by
    rintro ⟨h0, hm⟩
    apply hY
    rw [isDigit_iff] at h1 h2
    have e1 : c1.toNat = 48 := by omega
    have e2 : c2.toNat = 48 := by omega
    exact ⟨char_eq_of_toNat (by rw [e1]; rfl), char_eq_of_toNat (by rw [e2]; rfl), hm⟩
  have hlen : ¬ ([c1, c2].length = 1) := by simp
  have h100 : (((c1.toNat - 48) * 10 + (c2.toNat - 48) : Nat) : Int) < 100 := by omega
  simp only [getFuturesYear, hp, hzero, if_false, hlen, and_false, h100, if_true]
  by_cases hb : R / 100 * 100 + (10 * (c1.toNat - 48) + (c2.toNat - 48)) ≤ R + 25
  · have hb' : ¬ ((R : Int) + 25 < ((R / 100 * 100 : Nat) : Int)
        + (((c1.toNat - 48) * 10 + (c2.toNat - 48) : Nat) : Int)) := by omega
    simp only [hb, hb', if_false, if_true]
    refine ⟨_, rfl, ?_, ?_, ?_⟩ <;> omega
  · have hb' : ((R : Int) + 25 < ((R / 100 * 100 : Nat) : Int)
        + (((c1.toNat - 48) * 10 + (c2.toNat - 48) : Nat) : Int)) := by omega
    simp only [hb, hb', if_false, if_true]
    refine ⟨_, rfl, ?_, ?_, ?_⟩ <;> omega

/-- Witness of C2 (amended): the text `24` gives 2024 and the text `95` gives 1995 when
the reference year is 2023. -/
theorem getFuturesYear_two_digits_witness :
    isDigit '9' = true ∧ isDigit '5' = true
      ∧ ¬ ('9' = '0' ∧ '5' = '0' ∧ JsValue.undefined = .str ['Y'])
      ∧ (∃ y : Int, getFuturesYear 2023 ['9', '5'] .undefined = .int y
          ∧ y = (if 2023 / 100 * 100 + (10 * (('9' : Char).toNat - 48)
                + (('5' : Char).toNat - 48)) ≤ 2023 + 25
              then ((2023 / 100 * 100 + (10 * (('9' : Char).toNat - 48)
                + (('5' : Char).toNat - 48)) : Nat) : Int)
              else ((2023 / 100 * 100 + (10 * (('9' : Char).toNat - 48)
                + (('5' : Char).toNat - 48)) : Nat) : Int) - 100)
          ∧ y % 100 = ((10 * (('9' : Char).toNat - 48) + (('5' : Char).toNat - 48) : Nat) : Int)
          ∧ y ≤ ((2023 : Nat) : Int) + 25)
      ∧ getFuturesYear 2023 ['9', '5'] .undefined = .int 1995
      ∧ getFuturesYear 2023 ['2', '4'] .undefined = .int 2024 :=
  ⟨by decide, by decide, by decide,
    getFuturesYear_two_digits 2023 '9' '5' .undefined (by decide) (by decide) (by decide),
    by decide, by decide⟩

/-- C3 as stated fails for a text of four digits whose value is below 100: the text
`0024` has the value 24 and gives 2024 when the reference year is 2023. -/
theorem getFuturesYear_four_digits_counterexample :
    (∀ c ∈ ['0', '0', '2', '4'], isDigit c = true)
      ∧ parseInt ['0', '0', '2', '4'] = .int 24
      ∧ getFuturesYear 2023 ['0', '0', '2', '4'] (.str ['Z']) = .int 2024
      ∧ getFuturesYear 2023 ['0', '0', '2', '4'] (.str ['Z']) ≠ parseInt ['0', '0', '2', '4'] := by
  decide

/-- C3, amended. For every year text of four decimal digits whose value is at least 100,
every month code and every reference year, `getFuturesYear` returns the integer value
of the text unchanged. -/
theorem getFuturesYear_four_digits (R : Nat) (c1 c2 c3 c4 : Char) (monthCode : JsValue)
    (h1 : isDigit c1 = true) (h2 : isDigit c2 = true) (h3 : isDigit c3 = true)
    (h4 : isDigit c4 = true)
    (hv : 100 ≤ 1000 * (c1.toNat - 48) + 100 * (c2.toNat - 48) + 10 * (c3.toNat - 48)
      + (c4.toNat - 48)) :
    parseInt [c1, c2, c3, c4] = .int ((1000 * (c1.toNat - 48) + 100 * (c2.toNat - 48)
        + 10 * (c3.toNat - 48) + (c4.toNat - 48) : Nat) : Int)
      ∧ getFuturesYear R [c1, c2, c3, c4] monthCode = parseInt [c1, c2, c3, c4] := by
  have hp := parseInt_of_digits [c1, c2, c3, c4] (by simp) (by
    intro c hc
    simp only [List.mem_cons, List.mem_singleton, List.not_mem_nil, or_false] at hc
    rcases hc with rfl | rfl | rfl | rfl <;> assumption)
  simp only [List.map_cons, List.map_nil, fromDigits, List.foldl_cons, List.foldl_nil,
    Nat.zero_mul, Nat.zero_add] at hp
  have hval : ((((c1.toNat - 48) * 10 + (c2.toNat - 48)) * 10 + (c3.toNat - 48)) * 10
      + (c4.toNat - 48)) = 1000 * (c1.toNat - 48) + 100 * (c2.toNat - 48)
        + 10 * (c3.toNat - 48) + (c4.toNat - 48) := by ring
  rw [hval] at hp
  refine ⟨hp, ?_⟩
  have hzero : ¬ (((1000 * (c1.toNat - 48) + 100 * (c2.toNat - 48)
      + 10 * (c3.toNat - 48) + (c4.toNat - 48) : Nat) : Int) = 0
      ∧ monthCode = .str ['Y']) := by
    rintro ⟨h0, -⟩; omega
  have h10 : ¬ (((1000 * (c1.toNat - 48) + 100 * (c2.toNat - 48)
      + 10 * (c3.toNat - 48) + (c4.toNat - 48) : Nat) : Int) < 10
      ∧ [c1, c2, c3, c4].length = 1) := by
    rintro ⟨h0, -⟩; omega
  have h100 : ¬ (((1000 * (c1.toNat - 48) + 100 * (c2.toNat - 48)
      + 10 * (c3.toNat - 48) + (c4.toNat - 48) : Nat) : Int) < 100) := by omega
  simp only [getFuturesYear, hp, hzero, h10, h100, if_false]


/-- Witness of C3 (amended): the text `2024` gives 2024 whatever the reference year, here
1990. -/
theorem getFuturesYear_four_digits_witness :
    (isDigit '2' = true ∧ isDigit '0' = true ∧ isDigit '4' = true)
      ∧ 100 ≤ 1000 * (('2' : Char).toNat - 48) + 100 * (('0' : Char).toNat - 48)
          + 10 * (('2' : Char).toNat - 48) + (('4' : Char).toNat - 48)
      ∧ parseInt ['2', '0', '2', '4'] = .int 2024
      ∧ getFuturesYear 1990 ['2', '0', '2', '4'] (.str ['Z']) = parseInt ['2', '0', '2', '4'] :=
  ⟨⟨by decide, by decide, by decide⟩, by decide, by decide,
    (getFuturesYear_four_digits 1990 '2' '0' '2' '4' (.str ['Z']) (by decide) (by decide)
      (by decide) (by decide) (by decide)).2⟩

/-! ## Lemmas on character classes -/

theorem toNat_canonicalize (c : Char) :
    (canonicalize c).toNat = if 97 ≤ c.toNat ∧ c.toNat ≤ 122 then c.toNat - 32 else c.toNat := by
  unfold canonicalize
  split
  · rename_i h
    have hv : (c.toNat - 32).isValidChar := by
      left; omega
    show (Char.ofNat (c.toNat - 32)).toNat = _
    rw [Char.ofNat, dif_pos hv]
    rfl
  · rfl

theorem ci_isUpper_iff (c : Char) :
    ci isUpper c = true ↔ (65 ≤ c.toNat ∧ c.toNat ≤ 90) ∨ (97 ≤ c.toNat ∧ c.toNat ≤ 122) := by
  simp only [ci, isUpper, toNat_canonicalize, Bool.and_eq_true, decide_eq_true_eq]
  split <;> omega

theorem ci_isDigit (c : Char) : ci isDigit c = isDigit c := by
  rw [Bool.eq_iff_iff]
  simp only [ci, isDigit, toNat_canonicalize, Bool.and_eq_true, decide_eq_true_eq]
  split <;> omega

/-- A character that is not a letter is its own canonical form. -/
theorem ci_chr (x c : Char) (hx : x.toNat < 65 ∨ 90 < x.toNat)
    (hx2 : x.toNat < 97 ∨ 122 < x.toNat) :
    ci (chr x) c = chr x c := by
  rw [Bool.eq_iff_iff]
  simp only [ci, chr, toNat_canonicalize, beq_iff_eq]
  split <;> omega


theorem ci_isRootChar_iff (c : Char) :
    ci isRootChar c = true ↔ ci isUpper c = true ∨ isDigit c = true ∨ c.toNat = 36
      ∨ c.toNat = 45 ∨ c.toNat = 33 ∨ c.toNat = 46 := by
  rw [ci_isUpper_iff]
  simp only [ci, isRootChar, isUpper, isDigit, chr, toNat_canonicalize, Bool.or_eq_true,
    Bool.and_eq_true, decide_eq_true_eq, beq_iff_eq]
  have e1 : ('$' : Char).toNat = 36 := rfl
  have e2 : ('-' : Char).toNat = 45 := rfl
  have e3 : ('!' : Char).toNat = 33 := rfl
  have e4 : ('.' : Char).toNat = 46 := rfl
  rw [e1, e2, e3, e4]
  split <;> omega

theorem upper_isRootChar {c : Char} (h : ci isUpper c = true) : ci isRootChar c = true := by
  rw [ci_isRootChar_iff]; exact Or.inl h

theorem digit_isRootChar {c : Char} (h : isDigit c = true) : ci isRootChar c = true := by
  rw [ci_isRootChar_iff]; exact Or.inr (Or.inl h)

theorem digit_not_upper {c : Char} (h : isDigit c = true) : ci isUpper c = false := by
  rw [isDigit_iff] at h
  rw [Bool.eq_false_iff, ne_eq, ci_isUpper_iff]; omega

theorem upper_not_digit {c : Char} (h : ci isUpper c = true) : isDigit c = false := by
  rw [ci_isUpper_iff] at h
  rw [Bool.eq_false_iff, ne_eq, isDigit_iff]; omega


/-! ## Soundness of the matcher -/

theorem Regex.runMany_sound {α : Type} (p : Char → Bool) (s : List Char) (caps : Captures)
    (k : List Char → Captures → Option α) (x : α) (h : Regex.runMany p s caps k = some x) :
    ∃ pre rest, s = pre ++ rest ∧ (∀ c ∈ pre, p c = true) ∧ k rest caps = some x := by
  induction s with
  | nil => exact ⟨[], [], rfl, by simp, h⟩
  | cons c cs ih =>
    unfold Regex.runMany at h
    by_cases hp : p c = true
    · rw [if_pos hp] at h
      cases hr : Regex.runMany p cs caps k with
      | some y =>
        rw [hr] at h
        have hxy : y = x := by simpa using h
        subst hxy
        obtain ⟨pre, rest, hs, hall, hk⟩ := ih hr
        refine ⟨c :: pre, rest, by rw [hs]; rfl, ?_, hk⟩
        intro d hd
        rcases List.mem_cons.mp hd with rfl | hd
        · exact hp
        · exact hall d hd
      | none =>
        rw [hr] at h
        exact ⟨[], c :: cs, rfl, by simp, h⟩
    · rw [if_neg hp] at h
      exact ⟨[], c :: cs, rfl, by simp, h⟩

theorem Regex.run_sound {α : Type} (r : Regex) :
    ∀ (s : List Char) (caps : Captures) (k : List Char → Captures → Option α) (x : α),
      r.run s caps k = some x →
      ∃ rest caps1, r.Matches s rest ∧ k rest caps1 = some x := by
  induction r with
  | cls p =>
    intro s caps k x h
    cases s with
    | nil => simp [Regex.run] at h
    | cons c cs =>
      simp only [Regex.run] at h
      by_cases hp : p c = true
      · rw [if_pos hp] at h
        exact ⟨cs, caps, ⟨c, hp, rfl⟩, h⟩
      · rw [if_neg hp] at h
        exact absurd h (by simp)
  | eps =>
    intro s caps k x h
    exact ⟨s, caps, rfl, h⟩
  | eos =>
    intro s caps k x h
    cases s with
    | nil => exact ⟨[], caps, ⟨rfl, rfl⟩, h⟩
    | cons c cs => simp [Regex.run] at h
  | seq a b iha ihb =>
    intro s caps k x h
    simp only [Regex.run] at h
    obtain ⟨mid, caps1, hm, hk⟩ := iha s caps _ x h
    obtain ⟨rest, caps2, hm2, hk2⟩ := ihb mid caps1 k x hk
    exact ⟨rest, caps2, ⟨mid, hm, hm2⟩, hk2⟩
  | alt a b iha ihb =>
    intro s caps k x h
    simp only [Regex.run] at h
    cases hr : a.run s caps k with
    | some y =>
      rw [hr] at h
      have hxy : y = x := by simpa using h
      subst hxy
      obtain ⟨rest, caps1, hm, hk⟩ := iha s caps k y hr
      exact ⟨rest, caps1, Or.inl hm, hk⟩
    | none =>
      rw [hr] at h
      obtain ⟨rest, caps1, hm, hk⟩ := ihb s caps k x h
      exact ⟨rest, caps1, Or.inr hm, hk⟩
  | many p =>
    intro s caps k x h
    simp only [Regex.run] at h
    obtain ⟨pre, rest, hs, hall, hk⟩ := Regex.runMany_sound p s caps k x h
    exact ⟨rest, caps, ⟨pre, hs, hall⟩, hk⟩
  | group i a iha =>
    intro s caps k x h
    simp only [Regex.run] at h
    obtain ⟨rest, caps1, hm, hk⟩ := iha s caps _ x h
    exact ⟨rest, _, hm, hk⟩

theorem Regex.matchHere_sound (r : Regex) (before s : List Char) (m : MatchResult)
    (h : r.matchHere before s = some m) : r.Matches s m.after ∧ m.before = before := by
  unfold Regex.matchHere at h
  obtain ⟨rest, caps1, hm, hk⟩ := Regex.run_sound r s _ _ m h
  simp only [Option.some.injEq] at hk
  subst hk
  exact ⟨hm, rfl⟩

/-- A pattern that starts with `^` matches at the first character only. -/
theorem Pattern.test_anchored (p : Pattern) (hp : p.anchored = true) (s : List Char)
    (h : p.test s = true) : ∃ rest, p.body.Matches s rest := by
  unfold Pattern.test Pattern.exec at h
  rw [if_pos hp] at h
  cases hr : p.body.matchHere [] s with
  | none => rw [hr] at h; exact absurd h (by simp)
  | some m => exact ⟨m.after, (Regex.matchHere_sound _ _ _ _ hr).1⟩


theorem Regex.Matches.length_ge (r : Regex) :
    ∀ (s rest : List Char), r.Matches s rest → r.minLength + rest.length ≤ s.length := by
  induction r with
  | cls p =>
    rintro s rest ⟨c, -, rfl⟩
    simp [Regex.minLength]; omega
  | eps =>
    rintro s rest rfl
    simp [Regex.minLength]
  | eos =>
    rintro s rest ⟨rfl, rfl⟩
    simp [Regex.minLength]
  | seq a b iha ihb =>
    rintro s rest ⟨mid, h1, h2⟩
    have := iha s mid h1
    have := ihb mid rest h2
    simp only [Regex.minLength]; omega
  | alt a b iha ihb =>
    rintro s rest (h | h)
    · have := iha s rest h
      simp only [Regex.minLength]; omega
    · have := ihb s rest h
      simp only [Regex.minLength]; omega
  | many p =>
    rintro s rest ⟨pre, rfl, -⟩
    simp [Regex.minLength]
  | group i a iha =>
    intro s rest h
    exact iha s rest h

theorem Regex.Matches.append_rest (r : Regex) :
    ∀ (s rest : List Char), r.Matches s rest → ∃ pre, s = pre ++ rest := by
  induction r with
  | cls p =>
    rintro s rest ⟨c, -, rfl⟩
    exact ⟨[c], rfl⟩
  | eps =>
    rintro s rest rfl
    exact ⟨[], rfl⟩
  | eos =>
    rintro s rest ⟨rfl, rfl⟩
    exact ⟨[], rfl⟩
  | seq a b iha ihb =>
    rintro s rest ⟨mid, h1, h2⟩
    obtain ⟨p1, rfl⟩ := iha s mid h1
    obtain ⟨p2, rfl⟩ := ihb mid rest h2
    exact ⟨p1 ++ p2, by simp⟩
  | alt a b iha ihb =>
    rintro s rest (h | h)
    · exact iha s rest h
    · exact ihb s rest h
  | many p =>
    rintro s rest ⟨pre, rfl, -⟩
    exact ⟨pre, rfl⟩
  | group i a iha =>
    intro s rest h
    exact iha s rest h

theorem equityOption_length {s : List Char} (h : types.equities.options.test s = true) :
    15 ≤ s.length := by
  obtain ⟨rest, hm⟩ := Pattern.test_anchored _ rfl s h
  have := Regex.Matches.length_ge _ s rest hm
  have e : types.equities.options.body.minLength = 15 := by decide
  omega

theorem short_shape {s : List Char} (h : types.futures.options.short.test s = true) :
    ∃ first last, s.head? = some first ∧ s.getLast? = some last ∧ ci isUpper first = true
      ∧ ci isUpper last = true ∧ s.length ≤ 8 := by
  obtain ⟨rest, hm⟩ := Pattern.test_anchored _ rfl s h
  simp only [types.futures.options.short, Regex.cat, Regex.Matches, Regex.rep, Regex.times,
    Regex.upTo, Regex.opt] at hm
  obtain ⟨mid, ⟨m1, ⟨a, ha, rfl⟩, hroot⟩, m2, ⟨m, -, rfl⟩, m3, hdigits, m4, ⟨L, hL, rfl⟩,
    rfl, rfl⟩ := hm
  obtain ⟨m5, ⟨m6, ⟨d1, -, rfl⟩, rfl⟩, hmore⟩ := hdigits
  refine ⟨a, L, rfl, ?_, ha, hL, ?_⟩
  · rcases hroot with ⟨b, -, rfl⟩ | rfl <;>
      rcases hmore with ⟨m7, ⟨d2, -, rfl⟩, ⟨m8, ⟨d3, -, rfl⟩, ⟨m9, ⟨d4, -, rfl⟩, rfl⟩ | rfl⟩ | rfl⟩ | rfl <;>
      simp
  · rcases hroot with ⟨b, -, rfl⟩ | rfl <;>
      rcases hmore with ⟨m7, ⟨d2, -, rfl⟩, ⟨m8, ⟨d3, -, rfl⟩, ⟨m9, ⟨d4, -, rfl⟩, rfl⟩ | rfl⟩ | rfl⟩ | rfl <;>
      simp

theorem concrete_shape {s : List Char} (h : types.futures.concrete.test s = true) :
    ∃ first last, s.head? = some first ∧ s.getLast? = some last ∧ ci isUpper first = true
      ∧ isDigit last = true := by
  obtain ⟨rest, hm⟩ := Pattern.test_anchored _ rfl s h
  simp only [types.futures.concrete, futuresRoot, Regex.cat, Regex.Matches, Regex.rep,
    Regex.times, Regex.upTo, Regex.opt, ci_isDigit] at hm
  obtain ⟨mid, ⟨m1, ⟨a, ha, rfl⟩, m2, rfl, hroot⟩, m3, ⟨m4, ⟨m, -, rfl⟩, rfl⟩, m5, hdigits,
    rfl, rfl⟩ := hm
  rcases hroot with ⟨m6, ⟨b, -, rfl⟩, ⟨m7, ⟨c, -, rfl⟩, rfl⟩ | rfl⟩ | rfl <;>
    rcases hdigits with ⟨m8, ⟨d1, h1, rfl⟩, m9, ⟨d2, h2, rfl⟩, m10, ⟨d3, h3, rfl⟩, m11,
        ⟨d4, h4, rfl⟩, rfl⟩
      | ⟨m8, ⟨m9, ⟨d1, h1, rfl⟩, rfl⟩, ⟨m10, ⟨d2, h2, rfl⟩, rfl⟩ | rfl⟩ <;>
    exact ⟨a, _, rfl, by simp; rfl, ha, by assumption⟩

theorem alias_shape {s : List Char} (h : types.futures.alias.test s = true) :
    ∃ first last, s.head? = some first ∧ s.getLast? = some last ∧ ci isUpper first = true
      ∧ isDigit last = true := by
  obtain ⟨rest, hm⟩ := Pattern.test_anchored _ rfl s h
  simp only [types.futures.alias, futuresRoot, Regex.cat, Regex.Matches, Regex.rep,
    Regex.times, Regex.upTo, Regex.opt, ci_isDigit] at hm
  obtain ⟨mid, ⟨m1, ⟨a, ha, rfl⟩, m2, rfl, hroot⟩, m3, ⟨m4, ⟨m, -, rfl⟩, rfl⟩, m5, hdigits,
    rfl, rfl⟩ := hm
  rcases hroot with ⟨m6, ⟨b, -, rfl⟩, ⟨m7, ⟨c, -, rfl⟩, rfl⟩ | rfl⟩ | rfl <;>
    rcases hdigits with ⟨m8, ⟨m9, ⟨d1, h1, rfl⟩, rfl⟩, ⟨m10, ⟨d2, h2, rfl⟩, rfl⟩ | rfl⟩ <;>
    exact ⟨a, _, rfl, by simp; rfl, ha, by assumption⟩

theorem spread_first {s : List Char} (h : types.futures.spread.test s = true) :
    ∃ c cs, s = c :: cs ∧ c.toNat = 95 := by
  obtain ⟨rest, hm⟩ := Pattern.test_anchored _ rfl s h
  simp only [types.futures.spread, Regex.text, List.map, Regex.cat, Regex.Matches] at hm
  obtain ⟨mid, ⟨c, hc, rfl⟩, -⟩ := hm
  refine ⟨c, mid, rfl, ?_⟩
  rw [ci_chr _ _ (by decide) (by decide)] at hc
  simpa [chr] using hc

theorem forex_first {s : List Char} (h : types.forex.test s = true) :
    ∃ c cs, s = c :: cs ∧ c.toNat = 94 := by
  obtain ⟨rest, hm⟩ := Pattern.test_anchored _ rfl s h
  simp only [types.forex, Regex.cat, Regex.Matches] at hm
  obtain ⟨mid, ⟨c, hc, rfl⟩, -⟩ := hm
  refine ⟨c, mid, rfl, ?_⟩
  rw [ci_chr _ _ (by decide) (by decide)] at hc
  simpa [chr] using hc

theorem index_first {s : List Char} (h : types.indicies.external.test s = true) :
    ∃ c cs, s = c :: cs ∧ c.toNat = 36 := by
  obtain ⟨rest, hm⟩ := Pattern.test_anchored _ rfl s h
  simp only [types.indicies.external, Regex.cat, Regex.Matches] at hm
  obtain ⟨mid, ⟨c, hc, rfl⟩, -⟩ := hm
  refine ⟨c, mid, rfl, ?_⟩
  rw [ci_chr _ _ (by decide) (by decide)] at hc
  simpa [chr] using hc

theorem sector_first {s : List Char} (h : types.indicies.sector.test s = true) :
    ∃ c cs, s = c :: cs ∧ c.toNat = 45 := by
  obtain ⟨rest, hm⟩ := Pattern.test_anchored _ rfl s h
  simp only [types.indicies.sector, Regex.cat, Regex.Matches] at hm
  obtain ⟨mid, ⟨c, hc, rfl⟩, -⟩ := hm
  refine ⟨c, mid, rfl, ?_⟩
  rw [ci_chr _ _ (by decide) (by decide)] at hc
  simpa [chr] using hc


/-! ## Soundness of the matcher, with captures -/

theorem Regex.run_sound_with {α : Type} (r : Regex) :
    ∀ (s : List Char) (caps : Captures) (k : List Char → Captures → Option α) (x : α),
      r.run s caps k = some x →
      ∃ rest caps1, r.MatchesWith s caps rest caps1 ∧ k rest caps1 = some x := by
  induction r with
  | cls p =>
    intro s caps k x h
    cases s with
    | nil => simp [Regex.run] at h
    | cons c cs =>
      simp only [Regex.run] at h
      by_cases hp : p c = true
      · rw [if_pos hp] at h
        exact ⟨cs, caps, ⟨⟨c, hp, rfl⟩, rfl⟩, h⟩
      · rw [if_neg hp] at h
        exact absurd h (by simp)
  | eps =>
    intro s caps k x h
    exact ⟨s, caps, ⟨rfl, rfl⟩, h⟩
  | eos =>
    intro s caps k x h
    cases s with
    | nil => exact ⟨[], caps, ⟨rfl, rfl, rfl⟩, h⟩
    | cons c cs => simp [Regex.run] at h
  | seq a b iha ihb =>
    intro s caps k x h
    simp only [Regex.run] at h
    obtain ⟨mid, caps1, hm, hk⟩ := iha s caps _ x h
    obtain ⟨rest, caps2, hm2, hk2⟩ := ihb mid caps1 k x hk
    exact ⟨rest, caps2, ⟨mid, caps1, hm, hm2⟩, hk2⟩
  | alt a b iha ihb =>
    intro s caps k x h
    simp only [Regex.run] at h
    cases hr : a.run s caps k with
    | some y =>
      rw [hr] at h
      have hxy : y = x := by simpa using h
      subst hxy
      obtain ⟨rest, caps1, hm, hk⟩ := iha s caps k y hr
      exact ⟨rest, caps1, Or.inl hm, hk⟩
    | none =>
      rw [hr] at h
      obtain ⟨rest, caps1, hm, hk⟩ := ihb s caps k x h
      exact ⟨rest, caps1, Or.inr hm, hk⟩
  | many p =>
    intro s caps k x h
    simp only [Regex.run] at h
    obtain ⟨pre, rest, hs, hall, hk⟩ := Regex.runMany_sound p s caps k x h
    exact ⟨rest, caps, ⟨⟨pre, hs, hall⟩, rfl⟩, hk⟩
  | group i a iha =>
    intro s caps k x h
    simp only [Regex.run] at h
    obtain ⟨rest, caps1, hm, hk⟩ := iha s caps _ x h
    exact ⟨rest, _, ⟨caps1, hm, rfl⟩, hk⟩

/-- The result of the match of an anchored pattern: nothing in front of the match, and
captures that a match of the body yields. -/
theorem Pattern.exec_anchored (p : Pattern) (hp : p.anchored = true) (s : List Char)
    (m : MatchResult) (h : p.exec s = some m) :
    m.before = [] ∧ p.body.MatchesWith s Captures.empty m.after m.captures := by
  unfold Pattern.exec at h
  rw [if_pos hp] at h
  unfold Regex.matchHere at h
  obtain ⟨rest, caps1, hm, hk⟩ := Regex.run_sound_with p.body s _ _ m h
  simp only [Option.some.injEq] at hk
  subst hk
  exact ⟨rfl, hm⟩

theorem Regex.MatchesWith.matches (r : Regex) :
    ∀ (s : List Char) (caps : Captures) (rest : List Char) (caps1 : Captures),
      r.MatchesWith s caps rest caps1 → r.Matches s rest := by
  induction r with
  | cls p => intro s caps rest caps1 h; exact h.1
  | eps => intro s caps rest caps1 h; exact h.1
  | eos => intro s caps rest caps1 h; exact ⟨h.1, h.2.1⟩
  | seq a b iha ihb =>
    rintro s caps rest caps1 ⟨mid, capsMid, h1, h2⟩
    exact ⟨mid, iha _ _ _ _ h1, ihb _ _ _ _ h2⟩
  | alt a b iha ihb =>
    rintro s caps rest caps1 (h | h)
    · exact Or.inl (iha _ _ _ _ h)
    · exact Or.inr (ihb _ _ _ _ h)
  | many p => intro s caps rest caps1 h; exact h.1
  | group i a iha =>
    rintro s caps rest caps1 ⟨capsIn, h, -⟩
    exact iha _ _ _ _ h

/-- A match leaves the captures of the groups it does not contain as they were. -/
theorem Regex.MatchesWith.frame (r : Regex) :
    ∀ (s : List Char) (caps : Captures) (rest : List Char) (caps1 : Captures),
      r.MatchesWith s caps rest caps1 → ∀ j, j ∉ r.groups → caps1 j = caps j := by
  induction r with
  | cls p => intro s caps rest caps1 h j _; rw [h.2]
  | eps => intro s caps rest caps1 h j _; rw [h.2]
  | eos => intro s caps rest caps1 h j _; rw [h.2.2]
  | seq a b iha ihb =>
    rintro s caps rest caps1 ⟨mid, capsMid, h1, h2⟩ j hj
    simp only [Regex.groups, List.mem_append, not_or] at hj
    rw [ihb _ _ _ _ h2 j hj.2, iha _ _ _ _ h1 j hj.1]
  | alt a b iha ihb =>
    rintro s caps rest caps1 (h | h) j hj <;>
      simp only [Regex.groups, List.mem_append, not_or] at hj
    · exact iha _ _ _ _ h j hj.1
    · exact ihb _ _ _ _ h j hj.2
  | many p => intro s caps rest caps1 h j _; rw [h.2]
  | group i a iha =>
    rintro s caps rest caps1 ⟨capsIn, h, rfl⟩ j hj
    simp only [Regex.groups, List.mem_cons, not_or] at hj
    simp only [Captures.set, if_neg hj.1]
    exact iha _ _ _ _ h j hj.2

/-- The characters consumed by a match lie in every class that contains the character
classes of the regular expression. -/
theorem Regex.Matches.within (q : Char → Bool) (r : Regex) :
    ∀ (s rest : List Char), r.Within q → r.Matches s rest →
      ∃ pre, s = pre ++ rest ∧ ∀ c ∈ pre, q c = true := by
  induction r with
  | cls p =>
    rintro s rest hw ⟨c, hc, rfl⟩
    exact ⟨[c], rfl, by simpa using hw c hc⟩
  | eps =>
    rintro s rest - rfl
    exact ⟨[], rfl, by simp⟩
  | eos =>
    rintro s rest - ⟨rfl, rfl⟩
    exact ⟨[], rfl, by simp⟩
  | seq a b iha ihb =>
    rintro s rest ⟨hwa, hwb⟩ ⟨mid, h1, h2⟩
    obtain ⟨p1, rfl, hp1⟩ := iha s mid hwa h1
    obtain ⟨p2, rfl, hp2⟩ := ihb mid rest hwb h2
    refine ⟨p1 ++ p2, by simp, ?_⟩
    intro c hc
    rcases List.mem_append.mp hc with hc | hc
    · exact hp1 c hc
    · exact hp2 c hc
  | alt a b iha ihb =>
    rintro s rest ⟨hwa, hwb⟩ (h | h)
    · exact iha s rest hwa h
    · exact ihb s rest hwb h
  | many p =>
    rintro s rest hw ⟨pre, rfl, hall⟩
    exact ⟨pre, rfl, fun c hc => hw c (hall c hc)⟩
  | group i a iha =>
    intro s rest hw h
    exact iha s rest hw h

/-- The capture of a group is the text that the group matched. -/
theorem Regex.MatchesWith.group_capture (i : Nat) (a : Regex) (s : List Char)
    (caps : Captures) (rest : List Char) (caps1 : Captures)
    (h : (Regex.group i a).MatchesWith s caps rest caps1) :
    ∃ pre, s = pre ++ rest ∧ caps1 i = some pre ∧ a.Matches s rest := by
  obtain ⟨capsIn, hm, rfl⟩ := h
  have hmm := Regex.MatchesWith.matches a _ _ _ _ hm
  obtain ⟨pre, rfl⟩ := Regex.Matches.append_rest a _ _ hmm
  refine ⟨pre, rfl, ?_, hmm⟩
  simp [Captures.set]


/-! ## The parser pipeline -/

theorem parseLoop_eq_find (es : List Extractor) (s : List Char)
    (h : ∀ e ∈ es, (e.accepts s = true ↔ (e.extract s).isSome = true)) :
    parseLoop (es.map Extractor.extract) s
      = (es.find? (fun e => e.accepts s)).bind (fun e => e.extract s) := by
  induction es with
  | nil => rfl
  | cons e rest ih =>
    have he := h e (by simp)
    have ih2 := ih (fun x hx => h x (by simp [hx]))
    simp only [List.map_cons, parseLoop, List.find?_cons]
    cases hx : e.extract s with
    | some d =>
      have : e.accepts s = true := he.mpr (by rw [hx]; rfl)
      simp [this, hx]
    | none =>
      have : e.accepts s = false := by
        rw [Bool.eq_false_iff]
        intro ha
        have := he.mp ha
        rw [hx] at this
        exact absurd this (by simp)
      simp [this, ih2]

theorem extractors_sound (R : Nat) (s : List Char) :
    ∀ e ∈ extractors R, (e.accepts s = true ↔ (e.extract s).isSome = true)
      ∧ ∀ d, e.extract s = some d → d.type = e.type ∧ d.symbol = s := by
  intro e he
  simp only [extractors, List.mem_cons, List.mem_singleton, List.not_mem_nil, or_false] at he
  rcases he with rfl | rfl | rfl | rfl | rfl | rfl | rfl | rfl | rfl | rfl
  · simp only [parsers.futureSpread]
    cases h : types.futures.spread.test s <;> simp
  · simp only [parsers.futureConcrete, Pattern.test]
    cases h : types.futures.concrete.exec s <;> simp
  · simp only [parsers.futureAlias, Pattern.test]
    cases h : types.futures.alias.exec s <;> simp
  · simp only [parsers.forex]
    cases h : types.forex.test s <;> simp
  · simp only [parsers.equityOption, Pattern.test]
    cases h : types.equities.options.exec s <;> simp
  · simp only [parsers.index]
    cases h : types.indicies.external.test s <;> simp
  · simp only [parsers.sector]
    cases h : types.indicies.sector.test s <;> simp
  · simp only [parsers.futureOptionShort, Pattern.test]
    cases h : types.futures.options.short.exec s <;> simp
  · simp only [parsers.futureOptionLong, Pattern.test]
    cases h : types.futures.options.long.exec s <;>
      cases h2 : types.futures.options.historical.exec s <;> simp
  · simp only [parsers.cmdtyStats, Pattern.test]
    cases h : types.cmdty.stats.exec s <;> simp

theorem parseInstrumentType_eq_find (R : Nat) (s : List Char) :
    parseInstrumentType R (.str s)
      = ((extractors R).find? (fun e => e.accepts s)).bind (fun e => e.extract s) := by
  have h := parseLoop_eq_find (extractors R) s (fun e he => (extractors_sound R s e he).1)
  have hp : (extractors R).map Extractor.extract = parsers R := rfl
  rw [hp] at h
  simp only [parseInstrumentType, is.string, JsValue.text]
  exact h


theorem upper_toNat {c : Char} (h : ci isUpper c = true) : 65 ≤ c.toNat ∧ c.toNat ≠ 94
    ∧ c.toNat ≠ 95 := by
  rw [ci_isUpper_iff] at h; omega

/-- A symbol accepted by the index pattern is rejected by the four patterns that come before
the equity-option pattern. -/
theorem index_excludes {s : List Char} (h : types.indicies.external.test s = true) :
    types.futures.spread.test s = false ∧ types.futures.concrete.test s = false
      ∧ types.futures.alias.test s = false ∧ types.forex.test s = false := by
  obtain ⟨c, cs, rfl, hc⟩ := index_first h
  refine ⟨?_, ?_, ?_, ?_⟩ <;> rw [Bool.eq_false_iff] <;> intro h2
  · obtain ⟨c2, cs2, e, hc2⟩ := spread_first h2
    cases e; omega
  · obtain ⟨a, l, e, -, ha, -⟩ := concrete_shape h2
    cases e
    have := upper_toNat ha; omega
  · obtain ⟨a, l, e, -, ha, -⟩ := alias_shape h2
    cases e
    have := upper_toNat ha; omega
  · obtain ⟨c2, cs2, e, hc2⟩ := forex_first h2
    cases e; omega

/-- A symbol accepted by the short future-option pattern is rejected by the seven patterns
that come before it. -/
theorem short_excludes {s : List Char} (h : types.futures.options.short.test s = true) :
    types.futures.spread.test s = false ∧ types.futures.concrete.test s = false
      ∧ types.futures.alias.test s = false ∧ types.forex.test s = false
      ∧ types.equities.options.test s = false ∧ types.indicies.external.test s = false
      ∧ types.indicies.sector.test s = false := by
  obtain ⟨a, l, hhead, hlast, ha, hl, hlen⟩ := short_shape h
  have hau := upper_toNat ha
  have hld := upper_not_digit hl
  refine ⟨?_, ?_, ?_, ?_, ?_, ?_, ?_⟩ <;> rw [Bool.eq_false_iff] <;> intro h2
  · obtain ⟨c2, cs2, rfl, hc2⟩ := spread_first h2
    cases hhead; omega
  · obtain ⟨a2, l2, -, hlast2, -, hd⟩ := concrete_shape h2
    rw [hlast] at hlast2; cases hlast2
    rw [hd] at hld; exact absurd hld (by simp)
  · obtain ⟨a2, l2, -, hlast2, -, hd⟩ := alias_shape h2
    rw [hlast] at hlast2; cases hlast2
    rw [hd] at hld; exact absurd hld (by simp)
  · obtain ⟨c2, cs2, rfl, hc2⟩ := forex_first h2
    cases hhead; omega
  · have := equityOption_length h2; omega
  · obtain ⟨c2, cs2, rfl, hc2⟩ := index_first h2
    cases hhead; omega
  · obtain ⟨c2, cs2, rfl, hc2⟩ := sector_first h2
    cases hhead; omega

/-- C6. For every string symbol, `parseInstrumentType` returns the definition produced by
the first extractor whose pattern accepts the symbol, in the order future_spread, future
(concrete), future (alias), forex, equity_option, index, sector, future_option (short),
future_option (long or historical), cmdtyStats (the parsers of the source are those of
the extractors, each parser returns a definition exactly when its pattern accepts the
symbol, and the definition carries the type of the extractor); it returns no definition
exactly when no pattern accepts the symbol. A symbol accepted by the equity-option
and the index pattern gets the definition of the equity-option parser, and a symbol
accepted by the short and the historical future-option pattern gets the definition of
the short future-option parser. -/
theorem parseInstrumentType_first_match (R : Nat) (s : List Char) :
    (extractors R).map Extractor.extract = parsers R
      ∧ (extractors R).map Extractor.type
          = [.future_spread, .future, .future, .forex, .equity_option, .index, .sector,
             .future_option, .future_option, .cmdtyStats]
      ∧ (∀ e ∈ extractors R, (e.accepts s = true ↔ (e.extract s).isSome = true)
          ∧ ∀ d, e.extract s = some d → d.type = e.type ∧ d.symbol = s)
      ∧ parseInstrumentType R (.str s)
          = ((extractors R).find? (fun e => e.accepts s)).bind (fun e => e.extract s)
      ∧ (parseInstrumentType R (.str s) = none ↔ ∀ e ∈ extractors R, e.accepts s = false)
      ∧ (types.equities.options.test s = true → types.indicies.external.test s = true →
          parseInstrumentType R (.str s) = parsers.equityOption s
            ∧ ∃ d, parsers.equityOption s = some d ∧ d.type = .equity_option)
      ∧ (types.futures.options.short.test s = true →
          types.futures.options.historical.test s = true →
          parseInstrumentType R (.str s) = parsers.futureOptionShort R s
            ∧ ∃ d, parsers.futureOptionShort R s = some d ∧ d.type = .future_option) := by
  have hfind := parseInstrumentType_eq_find R s
  have hsound := extractors_sound R s
  refine ⟨rfl, rfl, hsound, hfind, ?_, ?_, ?_⟩
  · rw [hfind]
    constructor
    · intro hnone e he
      rw [Bool.eq_false_iff]
      intro ha
      obtain ⟨e2, hf⟩ : ∃ e2, (extractors R).find? (fun e => e.accepts s) = some e2 := by
        rw [← Option.isSome_iff_exists, List.find?_isSome]
        exact ⟨e, he, ha⟩
      rw [hf] at hnone
      have hacc : e2.accepts s = true := by
        have := List.find?_some hf
        simpa using this
      have hmem : e2 ∈ extractors R := List.mem_of_find?_eq_some hf
      have := (hsound e2 hmem).1.mp hacc
      change e2.extract s = none at hnone
      rw [hnone] at this
      exact absurd this (by simp)
    · intro hall
      have : (extractors R).find? (fun e => e.accepts s) = none := by
        rw [List.find?_eq_none]
        intro e he
        simp [hall e he]
      rw [this]; rfl
  · intro heq hidx
    obtain ⟨h1, h2, h3, h4⟩ := index_excludes hidx
    have hres : parseInstrumentType R (.str s) = parsers.equityOption s := by
      rw [hfind]
      simp [extractors, List.find?, h1, h2, h3, h4, heq]
    refine ⟨hres, ?_⟩
    have hs := hsound ⟨.equity_option, types.equities.options.test, parsers.equityOption⟩
      (by simp [extractors])
    obtain ⟨d, hd⟩ := Option.isSome_iff_exists.mp (hs.1.mp heq)
    exact ⟨d, hd, (hs.2 d hd).1⟩
  · intro hshort _
    obtain ⟨h1, h2, h3, h4, h5, h6, h7⟩ := short_excludes hshort
    have hres : parseInstrumentType R (.str s) = parsers.futureOptionShort R s := by
      rw [hfind]
      simp [extractors, List.find?, h1, h2, h3, h4, h5, h6, h7, hshort]
    refine ⟨hres, ?_⟩
    have hs := hsound ⟨.future_option, types.futures.options.short.test,
      parsers.futureOptionShort R⟩ (by simp [extractors])
    obtain ⟨d, hd⟩ := Option.isSome_iff_exists.mp (hs.1.mp hshort)
    exact ⟨d, hd, (hs.2 d hd).1⟩

/-- Witness of C6: `$SPX|20240119|150.00C` is accepted by the equity-option and the index
pattern and is parsed as an equity option; `ZZ2150C` is accepted by the short and the
historical future-option pattern and is decoded by the short scheme (a call of the
current year with strike 2150, where the historical scheme would read the year 21 and
the strike 50); `AAPL` is accepted by no pattern. -/
theorem parseInstrumentType_first_match_witness :
    (types.equities.options.test "$SPX|20240119|150.00C".toList = true
        ∧ types.indicies.external.test "$SPX|20240119|150.00C".toList = true
        ∧ parseInstrumentType 2024 (.str "$SPX|20240119|150.00C".toList)
            = parsers.equityOption "$SPX|20240119|150.00C".toList
        ∧ (parseInstrumentType 2024 (.str "$SPX|20240119|150.00C".toList)).map Definition.type
            = some .equity_option)
      ∧ (types.futures.options.short.test "ZZ2150C".toList = true
        ∧ types.futures.options.historical.test "ZZ2150C".toList = true
        ∧ parseInstrumentType 2024 (.str "ZZ2150C".toList)
            = parsers.futureOptionShort 2024 "ZZ2150C".toList
        ∧ (parseInstrumentType 2024 (.str "ZZ2150C".toList)).map
              (fun d => (d.type, d.year, d.strike, d.option_type))
            = some (.future_option, some (.int 2024), some (.int 2150), some .call))
      ∧ parseInstrumentType 2024 (.str "AAPL".toList) = none :=
  have h1 := (parseInstrumentType_first_match 2024 "$SPX|20240119|150.00C".toList).2.2.2.2.2.1
    (by decide) (by decide)
  have h2 := (parseInstrumentType_first_match 2024 "ZZ2150C".toList).2.2.2.2.2.2
    (by decide) (by decide)
  ⟨⟨by decide, by decide, h1.1, by decide⟩, ⟨by decide, by decide, h2.1, by decide⟩,
    by decide⟩


/-! ## The year of a parsed definition -/

theorem getFuturesYear_pos (R : Nat) (hR : 100 ≤ R) (ds : List Char) (hne : ds ≠ [])
    (hd : ∀ c ∈ ds, isDigit c = true) (monthCode : JsValue) :
    ∃ y : Int, getFuturesYear R ds monthCode = .int y ∧ 0 < y := by
  have hp := parseInt_of_digits ds hne hd
  generalize fromDigits 10 (ds.map (fun c => c.toNat - 48)) = v at hp
  simp only [getFuturesYear, hp]
  split_ifs <;> exact ⟨_, rfl, by omega⟩

theorem digits_within : (Regex.alt (Regex.times (.cls (ci isDigit)) 4)
    (Regex.rep (.cls (ci isDigit)) 1 2)).Within isDigit := by
  simp [Regex.Within, Regex.times, Regex.rep, Regex.upTo, Regex.opt, ci_isDigit]

theorem concrete_year {R : Nat} {s : List Char} {d : Definition}
    (h : parsers.futureConcrete R s = some d) :
    ∃ (ds : List Char) (monthCode : JsValue), ds ≠ [] ∧ (∀ c ∈ ds, isDigit c = true)
      ∧ d.year = some (getFuturesYear R ds monthCode) := by
  unfold parsers.futureConcrete at h
  cases hm : types.futures.concrete.exec s with
  | none => rw [hm] at h; exact absurd h (by simp)
  | some m =>
    rw [hm] at h
    simp only [Option.some.injEq] at h
    subst h
    obtain ⟨-, hw⟩ := Pattern.exec_anchored _ rfl s m hm
    obtain ⟨mid1, caps1, -, mid2, caps2, -, mid3, caps3, h3, h4⟩ := hw
    obtain ⟨pre, rfl, hcap, hmm⟩ := Regex.MatchesWith.group_capture _ _ _ _ _ _ h3
    have hcaps : m.captures = caps3 := h4.2.2
    obtain ⟨pre2, hpre2, hdig⟩ := Regex.Matches.within isDigit _ _ _ digits_within hmm
    have hpp : pre2 = pre := List.append_cancel_right hpre2.symm
    subst hpp
    have hlen := Regex.Matches.length_ge _ _ _ hmm
    have hmin : (Regex.alt (Regex.times (.cls (ci isDigit)) 4)
        (Regex.rep (.cls (ci isDigit)) 1 2)).minLength = 1 := by decide
    refine ⟨pre2, JsValue.ofText (m.captures 2), ?_, hdig, ?_⟩
    · intro e
      subst e
      rw [hmin] at hlen
      simp at hlen
    · simp only [MatchResult.group, hcaps, hcap, Option.getD_some]


theorem long_year {R : Nat} {s : List Char} {d : Definition}
    (h : parsers.futureOptionLong R s = some d) :
    ∃ (ds : List Char), ds ≠ [] ∧ (∀ c ∈ ds, isDigit c = true)
      ∧ d.year = some (getFuturesYear R ds .undefined) := by
  unfold parsers.futureOptionLong at h
  cases hl : types.futures.options.long.exec s with
  | some m =>
    rw [hl] at h
    simp only [Option.some.injEq] at h
    subst h
    obtain ⟨-, hw⟩ := Pattern.exec_anchored _ rfl s m hl
    obtain ⟨mid1, caps1, -, mid2, caps2, -, mid3, caps3, h3, mid4, caps4, h4, mid5, caps5, h5,
      mid6, caps6, h6, h7⟩ := hw
    obtain ⟨pre, rfl, hcap, hmm⟩ := Regex.MatchesWith.group_capture _ _ _ _ _ _ h3
    have hcaps : m.captures 3 = some pre := by
      have e7 : m.captures = caps6 := h7.2.2
      have e6 := Regex.MatchesWith.frame _ _ _ _ _ h6 3 (by decide)
      have e5 := Regex.MatchesWith.frame _ _ _ _ _ h5 3 (by decide)
      have e4 := Regex.MatchesWith.frame _ _ _ _ _ h4 3 (by decide)
      rw [e7, e6, e5, e4, hcap]
    have hwithin : (Regex.rep (.cls (ci isDigit)) 1 4).Within isDigit := by
      simp [Regex.Within, Regex.times, Regex.rep, Regex.upTo, Regex.opt, ci_isDigit]
    obtain ⟨pre2, hpre2, hdig⟩ := Regex.Matches.within isDigit _ _ _ hwithin hmm
    have hpp : pre2 = pre := List.append_cancel_right hpre2.symm
    subst hpp
    have hlen := Regex.Matches.length_ge _ _ _ hmm
    have hmin : (Regex.rep (.cls (ci isDigit)) 1 4).minLength = 1 := by decide
    refine ⟨pre2, ?_, hdig, ?_⟩
    · intro e
      subst e
      rw [hmin] at hlen
      simp at hlen
    · simp only [MatchResult.group, hcaps, Option.getD_some]
  | none =>
    rw [hl] at h
    cases hh : types.futures.options.historical.exec s with
    | none => rw [hh] at h; exact absurd h (by simp)
    | some m =>
      rw [hh] at h
      simp only [Option.some.injEq] at h
      subst h
      obtain ⟨-, hw⟩ := Pattern.exec_anchored _ rfl s m hh
      obtain ⟨mid1, caps1, -, mid2, caps2, -, mid3, caps3, h3, mid4, caps4, h4, mid5, caps5,
        h5, h6⟩ := hw
      obtain ⟨pre, rfl, hcap, hmm⟩ := Regex.MatchesWith.group_capture _ _ _ _ _ _ h3
      have hcaps : m.captures 3 = some pre := by
        have e6 : m.captures = caps5 := h6.2.2
        have e5 := Regex.MatchesWith.frame _ _ _ _ _ h5 3 (by decide)
        have e4 := Regex.MatchesWith.frame _ _ _ _ _ h4 3 (by decide)
        rw [e6, e5, e4, hcap]
      have hwithin : (Regex.times (.cls (ci isDigit)) 2).Within isDigit := by
        simp [Regex.Within, Regex.times, ci_isDigit]
      obtain ⟨pre2, hpre2, hdig⟩ := Regex.Matches.within isDigit _ _ _ hwithin hmm
      have hpp : pre2 = pre := List.append_cancel_right hpre2.symm
      subst hpp
      have hlen := Regex.Matches.length_ge _ _ _ hmm
      have hmin : (Regex.times (.cls (ci isDigit)) 2).minLength = 2 := by decide
      refine ⟨pre2, ?_, hdig, ?_⟩
      · intro e
        subst e
        rw [hmin] at hlen
        simp at hlen
      · simp only [MatchResult.group, hcaps, Option.getD_some]

theorem short_year {R : Nat} {s : List Char} {d : Definition}
    (h : parsers.futureOptionShort R s = some d) :
    ∃ (l : Char), ci isUpper l = true
      ∧ d.year = some (.int (if (l.toNat : Int) < 80 then (R : Int) + ((l.toNat : Int) - 67)
          else (R : Int) + ((l.toNat : Int) - 80)))
      ∧ d.option_type = some (if (l.toNat : Int) < 80 then .call else .put) := by
  unfold parsers.futureOptionShort at h
  cases hm : types.futures.options.short.exec s with
  | none => rw [hm] at h; exact absurd h (by simp)
  | some m =>
    rw [hm] at h
    simp only [Option.some.injEq] at h
    subst h
    obtain ⟨-, hw⟩ := Pattern.exec_anchored _ rfl s m hm
    obtain ⟨mid1, caps1, -, mid2, caps2, -, mid3, caps3, -, mid4, caps4, h4, h5⟩ := hw
    obtain ⟨pre, rfl, hcap, hmm⟩ := Regex.MatchesWith.group_capture _ _ _ _ _ _ h4
    have hcaps : m.captures = caps4 := h5.2.2
    obtain ⟨l, hl, hpre⟩ := hmm
    have hpl : pre = [l] := by
      have : pre ++ mid4 = [l] ++ mid4 := hpre
      exact List.append_cancel_right this
    subst hpl
    refine ⟨l, hl, ?_, ?_⟩
    · simp only [MatchResult.group, hcaps, hcap, Option.getD_some, charCodeAt0,
        JsNumber.lt_int]
      by_cases hlt : (l.toNat : Int) < 80
      · simp [hlt, JsNumber.sub_int, JsNumber.add_int]
      · simp [hlt, JsNumber.sub_int, JsNumber.add_int]
    · simp only [MatchResult.group, hcaps, hcap, Option.getD_some, charCodeAt0,
        JsNumber.lt_int]
      by_cases hlt : (l.toNat : Int) < 80
      · simp [hlt]
      · simp [hlt]


/-- A definition returned by `parseInstrumentType` is the result of one of the parsers on
the symbol, which is a string. -/
theorem parseInstrumentType_some {R : Nat} {symbol : JsValue} {d : Definition}
    (h : parseInstrumentType R symbol = some d) :
    ∃ s, symbol = .str s ∧ ∃ e ∈ extractors R, e.extract s = some d := by
  cases symbol with
  | str s =>
    refine ⟨s, rfl, ?_⟩
    rw [parseInstrumentType_eq_find] at h
    cases hf : (extractors R).find? (fun e => e.accepts s) with
    | none => rw [hf] at h; exact absurd h (by simp)
    | some e =>
      rw [hf] at h
      exact ⟨e, List.mem_of_find?_eq_some hf, h⟩
  | _ => simp [parseInstrumentType, is.string] at h

/-- From the reference year 100 on, the year of a parsed definition whose month is a text
is never zero. -/
theorem parsed_year_ne_zero {R : Nat} (hR : 100 ≤ R) {symbol : JsValue} {d : Definition}
    (h : parseInstrumentType R symbol = some d) {y : Int} (hy : d.year = some (.int y))
    {t : List Char} (hm : d.month = .str t) : y ≠ 0 := by
  obtain ⟨s, -, e, he, hd⟩ := parseInstrumentType_some h
  simp only [extractors, List.mem_cons, List.mem_singleton, List.not_mem_nil, or_false] at he
  rcases he with rfl | rfl | rfl | rfl | rfl | rfl | rfl | rfl | rfl | rfl
  · simp only [parsers.futureSpread] at hd
    split at hd
    · cases hd; simp at hy
    · simp at hd
  · obtain ⟨ds, mc, hne, hdig, hyear⟩ := concrete_year hd
    obtain ⟨y2, hy2, hpos⟩ := getFuturesYear_pos R hR ds hne hdig mc
    rw [hyear, hy2] at hy
    cases hy
    omega
  · simp only [parsers.futureAlias] at hd
    split at hd
    · cases hd; simp at hy
    · simp at hd
  · simp only [parsers.forex] at hd
    split at hd
    · cases hd; simp at hy
    · simp at hd
  · simp only [parsers.equityOption] at hd
    split at hd
    · cases hd; simp at hm
    · simp at hd
  · simp only [parsers.index] at hd
    split at hd
    · cases hd; simp at hy
    · simp at hd
  · simp only [parsers.sector] at hd
    split at hd
    · cases hd; simp at hy
    · simp at hd
  · obtain ⟨l, hl, hyear, -⟩ := short_year hd
    rw [hyear] at hy
    have hu := upper_toNat hl
    simp only [Option.some.injEq, JsNumber.int.injEq] at hy
    split at hy <;> omega
  · obtain ⟨ds, hne, hdig, hyear⟩ := long_year hd
    obtain ⟨y2, hy2, hpos⟩ := getFuturesYear_pos R hR ds hne hdig .undefined
    rw [hyear, hy2] at hy
    cases hy
    omega
  · simp only [parsers.cmdtyStats] at hd
    split at hd
    · cases hd; simp at hy
    · simp at hd


/-! ## Claims on the public operations -/

/-- C4 (code defect). `getFuturesOptionPipelineFormat` reads the property `type` of the
result of `parseInstrumentType` without checking it for `null`: for the symbol `AAPL`,
for which no parser returns a definition, and for every input that is not a string, it
throws a `TypeError` where the claim promises `null`. `null` is returned only when a
definition exists and its type is not `future_option`. -/
theorem getFuturesOptionPipelineFormat_throws (R : Nat) :
    parseInstrumentType R (.str "AAPL".toList) = none
      ∧ getFuturesOptionPipelineFormat R (.str "AAPL".toList) = .error .typeError
      ∧ (∀ v : JsValue, is.string v = false →
          getFuturesOptionPipelineFormat R v = .error .typeError)
      ∧ (∀ (v : JsValue) (d : Definition), parseInstrumentType R v = some d →
          d.type ≠ .future_option → getFuturesOptionPipelineFormat R v = .ok none) := by
  refine ⟨rfl, rfl, ?_, ?_⟩
  · intro v hv
    simp [getFuturesOptionPipelineFormat, parseInstrumentType, hv]
  · intro v d hd ht
    simp only [getFuturesOptionPipelineFormat, hd, ht, if_false]

/-- C5. For every input that is not a string, every classification predicate returns
false (for `getIsPit` whatever the name, for `getIsExpired` whatever the date), and
`parseInstrumentType`, `getProducerSymbol` and `getFuturesExplicitFormat` return
`null`. -/
theorem non_string_input (R m : Nat) (v name : JsValue) (h : is.string v = false) :
    getIsConcrete v = false ∧ getIsReference v = false ∧ getIsFuture v = false
      ∧ getIsFutureSpread v = false ∧ getIsFutureOption v = false ∧ getIsForex v = false
      ∧ getIsCrypto v = false ∧ getIsIndex v = false ∧ getIsSector v = false
      ∧ getIsCanadianFund v = false ∧ getIsCmdty v = false ∧ getIsCmdtyStats v = false
      ∧ getIsBats v = false ∧ getIsEquityOption v = false ∧ getIsExpired R m v = false
      ∧ getIsC3 v = false ∧ getIsPlatts v = false ∧ getIsGrainBid v = false
      ∧ displayUsingPercent v = false ∧ getIsPit v name = false
      ∧ parseInstrumentType R v = none ∧ getProducerSymbol R v = .ok none
      ∧ getFuturesExplicitFormat R v = .ok none := by
  have hp : parseInstrumentType R v = none := by simp [parseInstrumentType, h]
  have hf : getIsFuture v = false := by simp [getIsFuture, h]
  refine ⟨?_, ?_, hf, ?_, ?_, ?_, ?_, ?_, ?_, ?_, ?_, ?_, ?_, ?_, ?_, ?_, ?_, ?_, ?_, ?_, hp,
    ?_, ?_⟩
  · simp [getIsConcrete, h]
  · simp [getIsReference, h]
  · simp [getIsFutureSpread, h]
  · simp [getIsFutureOption, h]
  · simp [getIsForex, h]
  · simp [getIsCrypto, h]
  · simp [getIsIndex, h]
  · simp [getIsSector, h]
  · simp [getIsCanadianFund, h]
  · simp [getIsCmdty, h]
  · simp [getIsCmdtyStats, h]
  · simp [getIsBats, h]
  · simp [getIsEquityOption, h]
  · simp [getIsExpired, hp]
  · simp [getIsC3, h]
  · simp [getIsPlatts, h]
  · simp [getIsGrainBid, h]
  · simp [displayUsingPercent, h]
  · simp [getIsPit, h]
  · simp [getProducerSymbol, h]
  · simp [getFuturesExplicitFormat, hf]

/-- Witness of C5 at the number 5 (and the name `(Pit)`). -/
theorem non_string_input_witness :
    is.string (.num (.int 5)) = false
      ∧ getIsFuture (.num (.int 5)) = false
      ∧ getIsPit (.num (.int 5)) (.str "(Pit)".toList) = false
      ∧ parseInstrumentType 2024 (.num (.int 5)) = none
      ∧ getProducerSymbol 2024 (.num (.int 5)) = .ok none :=
  have h := non_string_input 2024 6 (.num (.int 5)) (.str "(Pit)".toList) rfl
  ⟨rfl, h.2.2.1, h.2.2.2.2.2.2.2.2.2.2.2.2.2.2.2.2.2.2.2.1,
    h.2.2.2.2.2.2.2.2.2.2.2.2.2.2.2.2.2.2.2.2.1, h.2.2.2.2.2.2.2.2.2.2.2.2.2.2.2.2.2.2.2.2.2.1⟩

/-- C7. For every string symbol accepted by `getIsFuture`, `parseInstrumentType` yields
a definition whose type is `future` or `future_spread`. -/
theorem getIsFuture_parse (R : Nat) (s : List Char) (h : getIsFuture (.str s) = true) :
    ∃ d, parseInstrumentType R (.str s) = some d
      ∧ (d.type = .future ∨ d.type = .future_spread) := by
  have hsound := extractors_sound R s
  rw [parseInstrumentType_eq_find]
  simp only [getIsFuture, is.string, JsValue.text, Bool.true_and, Bool.or_eq_true] at h
  cases h1 : types.futures.spread.test s with
  | true =>
    have hs := hsound ⟨.future_spread, types.futures.spread.test, parsers.futureSpread⟩
      (by simp [extractors])
    obtain ⟨d, hd⟩ := Option.isSome_iff_exists.mp (hs.1.mp h1)
    refine ⟨d, ?_, Or.inr (hs.2 d hd).1⟩
    simpa [extractors, List.find?, h1] using hd
  | false =>
    cases h2 : types.futures.concrete.test s with
    | true =>
      have hs := hsound ⟨.future, types.futures.concrete.test, parsers.futureConcrete R⟩
        (by simp [extractors])
      obtain ⟨d, hd⟩ := Option.isSome_iff_exists.mp (hs.1.mp h2)
      refine ⟨d, ?_, Or.inl (hs.2 d hd).1⟩
      simpa [extractors, List.find?, h1, h2] using hd
    | false =>
      have h3 : types.futures.alias.test s = true := by
        rcases h with h | h
        · rw [h2] at h; exact absurd h (by simp)
        · exact h
      have hs := hsound ⟨.future, types.futures.alias.test, parsers.futureAlias⟩
        (by simp [extractors])
      obtain ⟨d, hd⟩ := Option.isSome_iff_exists.mp (hs.1.mp h3)
      refine ⟨d, ?_, Or.inl (hs.2 d hd).1⟩
      simpa [extractors, List.find?, h1, h2, h3] using hd

/-- Witness of C7 at the symbols `ZCZ21` and `ZC*1`. -/
theorem getIsFuture_parse_witness :
    getIsFuture (.str "ZCZ21".toList) = true
      ∧ (∃ d, parseInstrumentType 2024 (.str "ZCZ21".toList) = some d
          ∧ (d.type = .future ∨ d.type = .future_spread))
      ∧ (parseInstrumentType 2024 (.str "ZCZ21".toList)).map Definition.type = some .future
      ∧ getIsFuture (.str "ZC*1".toList) = true
      ∧ (parseInstrumentType 2024 (.str "ZC*1".toList)).map Definition.type = some .future :=
  ⟨by decide, getIsFuture_parse 2024 "ZCZ21".toList (by decide), by decide, by decide,
    by decide⟩


/-- C8. For every symbol whose parsed definition has a year and a canonical futures month
letter, and every reference date with year `R` and month `m`, `getIsExpired` returns
true exactly when the year of the definition is less than `R`, or equals `R` while the
number of the month letter in `futuresMonthNumbers` is less than `m`. This holds for
every reference year from 100 on; for an earlier reference year it holds when the year
of the definition is not zero (the method takes a year of zero for a missing year). -/
theorem getIsExpired_iff (R m : Nat) (symbol : JsValue) (d : Definition) (y : Int)
    (c : Char) (n : Nat)
    (hd : parseInstrumentType R symbol = some d)
    (hy : d.year = some (.int y)) (hm : d.month = .str [c])
    (hc : lookupKey futuresMonthNumbers [c] = some n) (hR : 100 ≤ R ∨ y ≠ 0) :
    getIsExpired R m symbol = true ↔ (y < R ∨ (y = R ∧ n < m)) := by
  have hy0 : y ≠ 0 := by
    rcases hR with hR | hR
    · exact parsed_year_ne_zero hR hd hy hm
    · exact hR
  simp only [getIsExpired, hd, hy, hm, JsValue.ofNumber, JsValue.truthy, JsNumber.truthy,
    toNumber, Option.getD_some, JsNumber.lt_int, JsNumber.strictEq_int, hasMonthNumber,
    JsValue.text, hc, Option.isSome_some, Bool.and_true]
  by_cases h1 : y < (R : Int)
  · simp [h1, hy0]
  · by_cases h2 : y = (R : Int)
    · simp [h1, h2, hy0]
      intro _ h0
      exact hy0 (by rw [h2, h0]; rfl)
    · simp [h1, h2, hy0]

/-- Witness of C8: the future `ZCQ24` seen from May, August and September 2024 and from
2025. -/
theorem getIsExpired_iff_witness :
    (∃ d, parseInstrumentType 2024 (.str "ZCQ24".toList) = some d
        ∧ d.year = some (.int 2024) ∧ d.month = .str ['Q'])
      ∧ lookupKey futuresMonthNumbers ['Q'] = some 8
      ∧ (100 ≤ 2024 ∨ (2024 : Int) ≠ 0)
      ∧ (getIsExpired 2024 9 (.str "ZCQ24".toList) = true ↔
          ((2024 : Int) < (2024 : Nat) ∨ ((2024 : Int) = (2024 : Nat) ∧ 8 < 9)))
      ∧ getIsExpired 2024 9 (.str "ZCQ24".toList) = true
      ∧ getIsExpired 2024 8 (.str "ZCQ24".toList) = false
      ∧ getIsExpired 2024 5 (.str "ZCQ24".toList) = false
      ∧ getIsExpired 2025 1 (.str "ZCQ24".toList) = true :=
  ⟨⟨_, rfl, rfl, rfl⟩, rfl, Or.inl (by decide),
    getIsExpired_iff 2024 9 (.str "ZCQ24".toList) _ 2024 'Q' 8 rfl rfl rfl rfl
      (Or.inl (by decide)),
    by decide, by decide, by decide, by decide⟩

/-- C9 as stated fails: the future `ZCA20` (month letter `A`, which is not in the month
table) and the equity option `AAPL|20200119|150.00C` (month 1, a number) are reported as
expired in 2024, since their year is 2020. -/
theorem getIsExpired_unknown_month_counterexample :
    (∃ d, parseInstrumentType 2024 (.str "ZCA20".toList) = some d
        ∧ d.month = .str ['A'] ∧ hasMonthNumber d.month = false
        ∧ d.year = some (.int 2020))
      ∧ getIsExpired 2024 5 (.str "ZCA20".toList) = true
      ∧ (∃ d, parseInstrumentType 2024 (.str "AAPL|20200119|150.00C".toList) = some d
        ∧ d.month = .num (.int 1) ∧ hasMonthNumber d.month = false
        ∧ d.year = some (.int 2020))
      ∧ getIsExpired 2024 5 (.str "AAPL|20200119|150.00C".toList) = true :=
  ⟨⟨_, rfl, rfl, rfl, rfl⟩, by decide, ⟨_, rfl, rfl, rfl, rfl⟩, by decide⟩

/-- C9, amended. For every symbol whose parsed definition carries a month code that is
not in the month table, and every reference date, `getIsExpired` returns true exactly
when the year and the month of the definition are set (truthy) and the year is less than
the reference year; it returns false whenever the year is not less than the reference
year. -/
theorem getIsExpired_unknown_month (R m : Nat) (symbol : JsValue) (d : Definition)
    (hd : parseInstrumentType R symbol = some d) (hm : hasMonthNumber d.month = false) :
    (getIsExpired R m symbol = true ↔
        ((JsValue.ofNumber d.year).truthy = true ∧ d.month.truthy = true
          ∧ (toNumber d.year).lt (.int R) = true))
      ∧ ((toNumber d.year).lt (.int R) = false → getIsExpired R m symbol = false) := by
  have key : getIsExpired R m symbol = true ↔
      ((JsValue.ofNumber d.year).truthy = true ∧ d.month.truthy = true
        ∧ (toNumber d.year).lt (.int R) = true) := by
    simp only [getIsExpired, hd, hm, Bool.and_false]
    cases h1 : (JsValue.ofNumber d.year).truthy <;> cases h2 : d.month.truthy <;>
      cases h3 : (toNumber d.year).lt (.int R) <;> simp
  refine ⟨key, ?_⟩
  intro hlt
  rw [Bool.eq_false_iff]
  intro h
  have := (key.mp h).2.2
  rw [hlt] at this
  exact absurd this (by simp)

/-- Witness of C9 (amended): the future `ZCA24` (month letter `A`) is not expired in
December 2024, and is expired in 2025. -/
theorem getIsExpired_unknown_month_witness :
    (∃ d, parseInstrumentType 2024 (.str "ZCA24".toList) = some d
        ∧ hasMonthNumber d.month = false ∧ (toNumber d.year).lt (.int (2024 : Nat)) = false)
      ∧ getIsExpired 2024 12 (.str "ZCA24".toList) = false
      ∧ getIsExpired 2025 1 (.str "ZCA24".toList) = true :=
  ⟨⟨_, rfl, rfl, rfl⟩,
    (getIsExpired_unknown_month 2024 12 (.str "ZCA24".toList) _ rfl rfl).2 rfl,
    by decide⟩


/-! ## The producer symbol of a concrete future -/

theorem upper_not_star {c : Char} (h : ci isUpper c = true) : ci (chr '*') c = false := by
  rw [ci_chr _ _ (by decide) (by decide)]
  rw [ci_isUpper_iff] at h
  have e : ('*' : Char).toNat = 42 := rfl
  simp only [chr, e, beq_eq_false_iff_ne, ne_eq]
  omega

theorem digit_not_star {c : Char} (h : isDigit c = true) : ci (chr '*') c = false := by
  rw [ci_chr _ _ (by decide) (by decide)]
  rw [isDigit_iff] at h
  have e : ('*' : Char).toNat = 42 := rfl
  simp only [chr, e, beq_eq_false_iff_ne, ne_eq]
  omega

theorem rootChar_not_star {c : Char} (h : ci isRootChar c = true) :
    ci (chr '*') c = false := by
  rw [ci_chr _ _ (by decide) (by decide)]
  rw [ci_isRootChar_iff, ci_isUpper_iff, isDigit_iff] at h
  have e : ('*' : Char).toNat = 42 := rfl
  simp only [chr, e, beq_eq_false_iff_ne, ne_eq]
  omega

theorem upper_isDot {c : Char} (h : ci isUpper c = true) : isDot c = true := by
  rw [ci_isUpper_iff] at h
  simp only [isDot, Bool.not_eq_true', Bool.or_eq_false_iff, beq_eq_false_iff_ne, ne_eq]
  omega

theorem rootChar_isDot {c : Char} (h : ci isRootChar c = true) : isDot c = true := by
  rw [ci_isRootChar_iff, ci_isUpper_iff, isDigit_iff] at h
  simp only [isDot, Bool.not_eq_true', Bool.or_eq_false_iff, beq_eq_false_iff_ne, ne_eq]
  omega

theorem digit_isDot {c : Char} (h : isDigit c = true) : isDot c = true := by
  rw [isDigit_iff] at h
  simp only [isDot, Bool.not_eq_true', Bool.or_eq_false_iff, beq_eq_false_iff_ne, ne_eq]
  omega

theorem converters_future_concrete (a : Char) (rest : List Char) (month : Char)
    (digits : List Char) (last : Char)
    (ha : ci isUpper a = true) (hrest : rest.length ≤ 2)
    (hrc : ∀ c ∈ rest, ci isRootChar c = true) (hm : ci isUpper month = true)
    (hd : ∀ c ∈ digits, isDigit c = true) (hl : isDigit last = true)
    (hlen : digits.length = 0 ∨ digits.length = 1 ∨ digits.length = 3) :
    types.futures.concrete.test (a :: rest ++ month :: digits ++ [last]) = true
      ∧ types.futures.alias.test (a :: rest ++ month :: digits ++ [last]) = false
      ∧ replace (a :: rest ++ month :: digits ++ [last]) converters.futurePattern
          [.ref 1, .ref 2, .ref 4] = a :: rest ++ [month, last] := by
  have hma := upper_isRootChar hm
  have hmd := upper_not_digit hm
  have hms := upper_not_star hm
  have hmdot := upper_isDot hm
  have had := upper_not_digit ha
  have has := upper_not_star ha
  have hadot := upper_isDot ha
  have hlu := digit_not_upper hl
  have hlr := digit_isRootChar hl
  have hls := digit_not_star hl
  have hldot := digit_isDot hl
  rcases rest with _ | ⟨b, _ | ⟨c, _ | ⟨e, r⟩⟩⟩ <;>
    rcases digits with _ | ⟨x, _ | ⟨y, _ | ⟨z, _ | ⟨w, r2⟩⟩⟩⟩ <;>
    simp only [List.length_cons, List.length_nil, List.mem_cons, List.not_mem_nil,
      forall_eq_or_imp, or_false, false_or, IsEmpty.forall_iff, implies_true, and_true,
      Nat.reduceAdd, Nat.reduceLeDiff, Nat.reduceEqDiff, OfNat.ofNat_ne_zero,
      OfNat.zero_ne_ofNat, OfNat.ofNat_ne_one, Nat.succ_ne_self, or_self,
      Nat.le_refl, Nat.zero_le] at hrest hrc hd hlen <;>
    simp [*, replace, converters.futurePattern,
      Regex.search, Replacement.expand, Captures.set, Captures.empty,
      Pattern.test, Pattern.exec, types.futures.concrete, types.futures.alias,
      Regex.matchHere, Regex.cat, futuresRoot, Regex.rep, Regex.times, Regex.upTo, Regex.opt,
      Regex.run, ci_isDigit, digit_not_upper, digit_isRootChar, digit_not_star, digit_isDot,
      rootChar_not_star, rootChar_isDot]


/-- Every symbol accepted by the pattern of concrete futures is a root (a letter followed
by at most two characters of the root class), a month letter and one, two or four
digits. -/
theorem concrete_full_shape {s : List Char} (h : types.futures.concrete.test s = true) :
    ∃ (a : Char) (rest : List Char) (month : Char) (digits : List Char) (last : Char),
      s = a :: rest ++ month :: digits ++ [last]
        ∧ ci isUpper a = true ∧ rest.length ≤ 2 ∧ (∀ c ∈ rest, ci isRootChar c = true)
        ∧ ci isUpper month = true ∧ (∀ c ∈ digits, isDigit c = true) ∧ isDigit last = true
        ∧ (digits.length = 0 ∨ digits.length = 1 ∨ digits.length = 3) := by
  obtain ⟨rest, hm⟩ := Pattern.test_anchored _ rfl s h
  simp only [types.futures.concrete, futuresRoot, Regex.cat, Regex.Matches, Regex.rep,
    Regex.times, Regex.upTo, Regex.opt, ci_isDigit] at hm
  obtain ⟨mid, ⟨m1, ⟨a, ha, rfl⟩, m2, rfl, hroot⟩, m3, ⟨m4, ⟨m, hmonth, rfl⟩, rfl⟩, m5,
    hdigits, rfl, rfl⟩ := hm
  rcases hroot with ⟨m6, ⟨b, hb, rfl⟩, ⟨m7, ⟨c, hc, rfl⟩, rfl⟩ | rfl⟩ | rfl
  · rcases hdigits with ⟨m8, ⟨d1, h1, rfl⟩, m9, ⟨d2, h2, rfl⟩, m10, ⟨d3, h3, rfl⟩, m11,
        ⟨d4, h4, rfl⟩, rfl⟩
      | ⟨m8, ⟨m9, ⟨d1, h1, rfl⟩, rfl⟩, ⟨m10, ⟨d2, h2, rfl⟩, rfl⟩ | rfl⟩
    · exact ⟨a, [b, c], m, [d1, d2, d3], d4, rfl, ha, by simp, by simp [hb, hc], hmonth,
        by simp [h1, h2, h3], h4, by simp⟩
    · exact ⟨a, [b, c], m, [d1], d2, rfl, ha, by simp, by simp [hb, hc], hmonth,
        by simp [h1], h2, by simp⟩
    · exact ⟨a, [b, c], m, [], d1, rfl, ha, by simp, by simp [hb, hc], hmonth,
        by simp, h1, by simp⟩
  · rcases hdigits with ⟨m8, ⟨d1, h1, rfl⟩, m9, ⟨d2, h2, rfl⟩, m10, ⟨d3, h3, rfl⟩, m11,
        ⟨d4, h4, rfl⟩, rfl⟩
      | ⟨m8, ⟨m9, ⟨d1, h1, rfl⟩, rfl⟩, ⟨m10, ⟨d2, h2, rfl⟩, rfl⟩ | rfl⟩
    · exact ⟨a, [b], m, [d1, d2, d3], d4, rfl, ha, by simp, by simp [hb], hmonth,
        by simp [h1, h2, h3], h4, by simp⟩
    · exact ⟨a, [b], m, [d1], d2, rfl, ha, by simp, by simp [hb], hmonth,
        by simp [h1], h2, by simp⟩
    · exact ⟨a, [b], m, [], d1, rfl, ha, by simp, by simp [hb], hmonth,
        by simp, h1, by simp⟩
  · rcases hdigits with ⟨m8, ⟨d1, h1, rfl⟩, m9, ⟨d2, h2, rfl⟩, m10, ⟨d3, h3, rfl⟩, m11,
        ⟨d4, h4, rfl⟩, rfl⟩
      | ⟨m8, ⟨m9, ⟨d1, h1, rfl⟩, rfl⟩, ⟨m10, ⟨d2, h2, rfl⟩, rfl⟩ | rfl⟩
    · exact ⟨a, [], m, [d1, d2, d3], d4, rfl, ha, by simp, by simp, hmonth,
        by simp [h1, h2, h3], h4, by simp⟩
    · exact ⟨a, [], m, [d1], d2, rfl, ha, by simp, by simp, hmonth,
        by simp [h1], h2, by simp⟩
    · exact ⟨a, [], m, [], d1, rfl, ha, by simp, by simp, hmonth,
        by simp, h1, by simp⟩

/-- C10. For every concrete future symbol, made of a root of one to three characters (a
letter, then characters of the root class), a month letter and one, two or four year
digits, `getProducerSymbol` returns the root, the month letter and the last year digit
alone; every symbol accepted by the pattern of concrete futures is of that form. -/
theorem getProducerSymbol_concrete_future (R : Nat) (a : Char) (rest : List Char)
    (month : Char) (digits : List Char) (last : Char)
    (ha : ci isUpper a = true) (hrest : rest.length ≤ 2)
    (hrc : ∀ c ∈ rest, ci isRootChar c = true) (hm : ci isUpper month = true)
    (hd : ∀ c ∈ digits, isDigit c = true) (hl : isDigit last = true)
    (hlen : digits.length = 0 ∨ digits.length = 1 ∨ digits.length = 3) :
    types.futures.concrete.test (a :: rest ++ month :: digits ++ [last]) = true
      ∧ getProducerSymbol R (.str (a :: rest ++ month :: digits ++ [last]))
          = .ok (some (a :: rest ++ [month, last]))
      ∧ (∀ s : List Char, types.futures.concrete.test s = true →
          ∃ (a : Char) (rest : List Char) (month : Char) (digits : List Char) (last : Char),
            s = a :: rest ++ month :: digits ++ [last]
              ∧ ci isUpper a = true ∧ rest.length ≤ 2
              ∧ (∀ c ∈ rest, ci isRootChar c = true)
              ∧ ci isUpper month = true ∧ (∀ c ∈ digits, isDigit c = true)
              ∧ isDigit last = true
              ∧ (digits.length = 0 ∨ digits.length = 1 ∨ digits.length = 3)) := by
  obtain ⟨h1, h2, h3⟩ := converters_future_concrete a rest month digits last ha hrest hrc hm
    hd hl hlen
  refine ⟨h1, ?_, fun s hs => concrete_full_shape hs⟩
  simp only [List.cons_append, List.append_assoc, List.nil_append] at h1 h2 h3
  simp [getProducerSymbol, convertLoop, converters, converters.future, getIsFuture,
    getIsConcrete, getIsReference, is.string, JsValue.text, h1, h2, h3]

/-- Witness of C10: `ZCZ21` and `ZCZ2021` both give `ZCZ1`, and `ZCZ1` is returned
unchanged. -/
theorem getProducerSymbol_concrete_future_witness :
    (ci isUpper 'Z' = true ∧ ['C'].length ≤ 2 ∧ (∀ c ∈ ['C'], ci isRootChar c = true)
        ∧ (∀ c ∈ ['2'], isDigit c = true) ∧ isDigit '1' = true)
      ∧ getProducerSymbol 2024 (.str ('Z' :: ['C'] ++ 'Z' :: ['2'] ++ ['1']))
          = .ok (some ('Z' :: ['C'] ++ ['Z', '1']))
      ∧ getProducerSymbol 2024 (.str "ZCZ21".toList) = .ok (some "ZCZ1".toList)
      ∧ getProducerSymbol 2024 (.str "ZCZ2021".toList) = .ok (some "ZCZ1".toList)
      ∧ getProducerSymbol 2024 (.str "ZCZ1".toList) = .ok (some "ZCZ1".toList) :=
  ⟨⟨by decide, by decide, by decide, by decide, by decide⟩,
    (getProducerSymbol_concrete_future 2024 'Z' ['C'] 'Z' ['2'] '1' (by decide) (by decide)
      (by decide) (by decide) (by decide) (by decide) (by decide)).2.1,
    rfl, rfl, rfl⟩

/-! ## The short form of futures options -/

theorem short_exec_shape (a : Char) (rest : List Char) (m : Char) (digits : List Char)
    (l : Char) (ha : ci isUpper a = true) (hrest : rest.length ≤ 1)
    (hrc : ∀ c ∈ rest, ci isRootChar c = true) (hm : ci isUpper m = true)
    (hd : ∀ c ∈ digits, isDigit c = true) (hd1 : 1 ≤ digits.length)
    (hd4 : digits.length ≤ 4) (hl : ci isUpper l = true) :
    ∃ mr, types.futures.options.short.exec (a :: rest ++ m :: digits ++ [l]) = some mr
      ∧ mr.captures 1 = some (a :: rest) ∧ mr.captures 2 = some [m]
      ∧ mr.captures 3 = some digits ∧ mr.captures 4 = some [l] := by
  have hma := upper_isRootChar hm
  have hmd := upper_not_digit hm
  have hld := upper_not_digit hl
  rcases rest with _ | ⟨b, _ | ⟨c, r⟩⟩ <;>
    rcases digits with _ | ⟨x, _ | ⟨y, _ | ⟨z, _ | ⟨w, _ | ⟨v, r2⟩⟩⟩⟩⟩ <;>
    simp only [List.length_cons, List.length_nil, List.mem_cons, List.not_mem_nil,
      forall_eq_or_imp, or_false, false_or, IsEmpty.forall_iff, implies_true, and_true,
      Nat.reduceAdd, Nat.reduceLeDiff, Nat.le_refl, Nat.zero_le, Nat.not_succ_le_zero,
      Nat.not_succ_le_self] at hrest hrc hd hd1 hd4 <;>
    simp [*, Captures.set, Captures.empty,
      Pattern.exec, types.futures.options.short,
      Regex.matchHere, Regex.cat, Regex.rep, Regex.times, Regex.upTo, Regex.opt,
      Regex.run, ci_isDigit, digit_not_upper, digit_isRootChar]

/-- Every symbol accepted by the short pattern of futures options is a root of one or two
characters, a month letter, one to four digits and a trailing letter. -/
theorem short_full_shape {s : List Char} (h : types.futures.options.short.test s = true) :
    ∃ (a : Char) (rest : List Char) (m : Char) (digits : List Char) (l : Char),
      s = a :: rest ++ m :: digits ++ [l]
        ∧ ci isUpper a = true ∧ rest.length ≤ 1 ∧ (∀ c ∈ rest, ci isRootChar c = true)
        ∧ ci isUpper m = true ∧ (∀ c ∈ digits, isDigit c = true) ∧ 1 ≤ digits.length
        ∧ digits.length ≤ 4 ∧ ci isUpper l = true := by
  obtain ⟨rest, hm⟩ := Pattern.test_anchored _ rfl s h
  simp only [types.futures.options.short, Regex.cat, Regex.Matches, Regex.rep, Regex.times,
    Regex.upTo, Regex.opt, ci_isDigit] at hm
  obtain ⟨mid, ⟨m1, ⟨a, ha, rfl⟩, hroot⟩, m2, ⟨m, hmonth, rfl⟩, m3, hdigits, m4, ⟨L, hL, rfl⟩,
    rfl, rfl⟩ := hm
  obtain ⟨m5, ⟨m6, ⟨d1, h1, rfl⟩, rfl⟩, hmore⟩ := hdigits
  rcases hroot with ⟨b, hb, rfl⟩ | rfl
  · rcases hmore with ⟨m7, ⟨d2, h2, rfl⟩, ⟨m8, ⟨d3, h3, rfl⟩, ⟨m9, ⟨d4, h4, rfl⟩, rfl⟩ | rfl⟩
        | rfl⟩ | rfl
    · exact ⟨a, [b], m, [d1, d2, d3, d4], L, rfl, ha, by simp, by simp [hb], hmonth,
        by simp [h1, h2, h3, h4], by simp, by simp, hL⟩
    · exact ⟨a, [b], m, [d1, d2, d3], L, rfl, ha, by simp, by simp [hb], hmonth,
        by simp [h1, h2, h3], by simp, by simp, hL⟩
    · exact ⟨a, [b], m, [d1, d2], L, rfl, ha, by simp, by simp [hb], hmonth,
        by simp [h1, h2], by simp, by simp, hL⟩
    · exact ⟨a, [b], m, [d1], L, rfl, ha, by simp, by simp [hb], hmonth,
        by simp [h1], by simp, by simp, hL⟩
  · rcases hmore with ⟨m7, ⟨d2, h2, rfl⟩, ⟨m8, ⟨d3, h3, rfl⟩, ⟨m9, ⟨d4, h4, rfl⟩, rfl⟩ | rfl⟩
        | rfl⟩ | rfl
    · exact ⟨a, [], m, [d1, d2, d3, d4], L, rfl, ha, by simp, by simp, hmonth,
        by simp [h1, h2, h3, h4], by simp, by simp, hL⟩
    · exact ⟨a, [], m, [d1, d2, d3], L, rfl, ha, by simp, by simp, hmonth,
        by simp [h1, h2, h3], by simp, by simp, hL⟩
    · exact ⟨a, [], m, [d1, d2], L, rfl, ha, by simp, by simp, hmonth,
        by simp [h1, h2], by simp, by simp, hL⟩
    · exact ⟨a, [], m, [d1], L, rfl, ha, by simp, by simp, hmonth,
        by simp [h1], by simp, by simp, hL⟩

/-- A symbol accepted by the short pattern of futures options is parsed by the short
parser. -/
theorem parse_of_short (R : Nat) {s : List Char}
    (h : types.futures.options.short.test s = true) :
    parseInstrumentType R (.str s) = parsers.futureOptionShort R s := by
  obtain ⟨h1, h2, h3, h4, h5, h6, h7⟩ := short_excludes h
  rw [parseInstrumentType_eq_find]
  simp [extractors, List.find?, h1, h2, h3, h4, h5, h6, h7, h]

/-- The definition that the short parser builds for a symbol of the short form. -/
theorem short_definition (R : Nat) (a : Char) (rest : List Char) (m : Char)
    (digits : List Char) (l : Char) (ha : ci isUpper a = true) (hrest : rest.length ≤ 1)
    (hrc : ∀ c ∈ rest, ci isRootChar c = true) (hm : ci isUpper m = true)
    (hd : ∀ c ∈ digits, isDigit c = true) (hd1 : 1 ≤ digits.length)
    (hd4 : digits.length ≤ 4) (hl : ci isUpper l = true) :
    types.futures.options.short.test (a :: rest ++ m :: digits ++ [l]) = true
      ∧ parseInstrumentType R (.str (a :: rest ++ m :: digits ++ [l]))
        = some { symbol := a :: rest ++ m :: digits ++ [l], type := .future_option,
                 asset := some .FUTURE_OPTION,
                 option_type := some (if l.toNat < 80 then .call else .put),
                 strike := some (.int (fromDigits 10 (digits.map (fun c => c.toNat - 48)) : Nat)),
                 root := some (a :: rest), month := .str [m],
                 year := some (.int (if l.toNat < 80 then (R : Int) + ((l.toNat : Int) - 67)
                   else (R : Int) + ((l.toNat : Int) - 80))) } := by
  obtain ⟨mr, hexec, c1, c2, c3, c4⟩ :=
    short_exec_shape a rest m digits l ha hrest hrc hm hd hd1 hd4 hl
  have htest : types.futures.options.short.test (a :: rest ++ m :: digits ++ [l]) = true := by
    unfold Pattern.test; rw [hexec]; rfl
  refine ⟨htest, ?_⟩
  rw [parse_of_short R htest]
  have hne : digits ≠ [] := by
    intro e; rw [e] at hd1; simp at hd1
  have hstrike := parseInt_of_digits digits hne hd
  simp only [parsers.futureOptionShort, hexec, MatchResult.group, c1, c2, c3, c4,
    Option.getD_some, charCodeAt0, JsNumber.lt_int, hstrike, JsValue.ofText]
  by_cases hlt : l.toNat < 80
  · have hlt2 : ((l.toNat : Nat) : Int) < 80 := by omega
    simp [hlt, hlt2, JsNumber.sub_int, JsNumber.add_int]
  · have hlt2 : ¬ ((l.toNat : Nat) : Int) < 80 := by omega
    simp [hlt, hlt2, JsNumber.sub_int, JsNumber.add_int]

/-- C20. For every symbol of the short future-option form (a root of one or two
characters, a month letter, one to four digits and a trailing letter `l`) and every
reference year `R`, the short pattern accepts the symbol, none of the seven extractors
before the short one accepts it, and `parseInstrumentType` yields a `future_option`
definition with the root and the month letter as written and the integer value of the
digits as strike; when the code of `l` is below the code of `P` the option is a call of
the year `R + (code l - code C)`, otherwise it is a put of the year
`R + (code l - code P)`. Every symbol that the short pattern accepts is of that form. -/
theorem parseInstrumentType_short_option (R : Nat) (a : Char) (rest : List Char) (m : Char)
    (digits : List Char) (l : Char) (ha : ci isUpper a = true) (hrest : rest.length ≤ 1)
    (hrc : ∀ c ∈ rest, ci isRootChar c = true) (hm : ci isUpper m = true)
    (hd : ∀ c ∈ digits, isDigit c = true) (hd1 : 1 ≤ digits.length)
    (hd4 : digits.length ≤ 4) (hl : ci isUpper l = true) :
    types.futures.options.short.test (a :: rest ++ m :: digits ++ [l]) = true
      ∧ (∀ e ∈ (extractors R).take 7, e.accepts (a :: rest ++ m :: digits ++ [l]) = false)
      ∧ (∃ d, parseInstrumentType R (.str (a :: rest ++ m :: digits ++ [l])) = some d
          ∧ d.type = .future_option ∧ d.root = some (a :: rest) ∧ d.month = .str [m]
          ∧ d.strike = some (.int (fromDigits 10 (digits.map (fun c => c.toNat - 48)) : Nat))
          ∧ (l.toNat < ('P' : Char).toNat → d.option_type = some .call
              ∧ d.year = some (.int ((R : Int) + ((l.toNat : Int) - (('C' : Char).toNat : Int)))))
          ∧ (¬ l.toNat < ('P' : Char).toNat → d.option_type = some .put
              ∧ d.year = some (.int ((R : Int) + ((l.toNat : Int) - (('P' : Char).toNat : Int))))))
      ∧ (∀ s : List Char, types.futures.options.short.test s = true →
          ∃ (a : Char) (rest : List Char) (m : Char) (digits : List Char) (l : Char),
            s = a :: rest ++ m :: digits ++ [l]
              ∧ ci isUpper a = true ∧ rest.length ≤ 1
              ∧ (∀ c ∈ rest, ci isRootChar c = true)
              ∧ ci isUpper m = true ∧ (∀ c ∈ digits, isDigit c = true)
              ∧ 1 ≤ digits.length ∧ digits.length ≤ 4 ∧ ci isUpper l = true) := by
  obtain ⟨htest, hparse⟩ := short_definition R a rest m digits l ha hrest hrc hm hd hd1 hd4 hl
  obtain ⟨h1, h2, h3, h4, h5, h6, h7⟩ := short_excludes htest
  have eP : ('P' : Char).toNat = 80 := rfl
  have eC : ('C' : Char).toNat = 67 := rfl
  refine ⟨htest, ?_, ⟨_, hparse, rfl, rfl, rfl, rfl, ?_, ?_⟩, fun s hs => short_full_shape hs⟩
  · intro e he
    simp only [extractors, List.take, List.mem_cons, List.mem_singleton, List.not_mem_nil,
      or_false] at he
    rcases he with rfl | rfl | rfl | rfl | rfl | rfl | rfl <;> assumption
  · intro hlt
    rw [eP] at hlt
    simp [hlt, eC]
  · intro hlt
    rw [eP] at hlt
    simp [hlt, eP]

/-- Witness of C20: `ZLF320Q` is a put of the year after the reference year with strike
320, and `ZCZ500C` is a call of the reference year with strike 500. -/
theorem parseInstrumentType_short_option_witness :
    (ci isUpper 'Z' = true ∧ ['L'].length ≤ 1 ∧ (∀ c ∈ ['L'], ci isRootChar c = true)
        ∧ ci isUpper 'F' = true ∧ (∀ c ∈ ['3', '2', '0'], isDigit c = true)
        ∧ ci isUpper 'Q' = true)
      ∧ types.futures.options.short.test ('Z' :: ['L'] ++ 'F' :: ['3', '2', '0'] ++ ['Q']) = true
      ∧ (parseInstrumentType 2019 (.str "ZLF320Q".toList)).map
            (fun d => (d.type, d.root, d.month, d.strike, d.option_type, d.year))
          = some (.future_option, some ['Z', 'L'], .str ['F'], some (.int 320), some .put,
              some (.int 2020))
      ∧ (parseInstrumentType 2019 (.str "ZCZ500C".toList)).map
            (fun d => (d.type, d.root, d.month, d.strike, d.option_type, d.year))
          = some (.future_option, some ['Z', 'C'], .str ['Z'], some (.int 500), some .call,
              some (.int 2019)) :=
  ⟨⟨by decide, by decide, by decide, by decide, by decide, by decide⟩,
    (parseInstrumentType_short_option 2019 'Z' ['L'] 'F' ['3', '2', '0'] 'Q' (by decide)
      (by decide) (by decide) (by decide) (by decide) (by decide) (by decide) (by decide)).1,
    rfl, rfl⟩

/-- C19 (code defect). The documentation of `getFuturesOptionPipelineFormat` gives the
example `ZLF320Q -> ZLF9|320C`. The code reads the trailing letter `Q` (code 81, not below
the code 80 of `P`) as a put of the year after the reference year: for every reference
year `R` the result is `ZLF`, the last digit of `R + 1`, and `|320P`; it is never
`ZLF9|320C`, and it is `ZLF9|320P` when the reference year is 2018. -/
theorem pipeline_format_documented_example (R : Nat) :
    getFuturesOptionPipelineFormat R (.str "ZLF320Q".toList)
        = .ok (some ("ZLF".toList ++ getYearDigits (.int ((R : Int) + 1)) 1 ++ "|320P".toList))
      ∧ getFuturesOptionPipelineFormat R (.str "ZLF320Q".toList)
        ≠ .ok (some "ZLF9|320C".toList)
      ∧ getFuturesOptionPipelineFormat 2018 (.str "ZLF320Q".toList)
        = .ok (some "ZLF9|320P".toList) := by
  have hparse := (short_definition R 'Z' ['L'] 'F' ['3', '2', '0'] 'Q' (by decide) (by decide)
    (by decide) (by decide) (by decide) (by decide) (by decide) (by decide)).2
  have hres : getFuturesOptionPipelineFormat R (.str "ZLF320Q".toList)
      = .ok (some ("ZLF".toList ++ getYearDigits (.int ((R : Int) + 1)) 1
          ++ "|320P".toList)) := by
    have hs : ('Z' :: ['L'] ++ 'F' :: ['3', '2', '0'] ++ ['Q']) = "ZLF320Q".toList := rfl
    rw [hs] at hparse
    have hq : ¬ (('Q' : Char).toNat < 80) := by decide
    have hv : fromDigits 10 (List.map (fun c => c.toNat - 48) ['3', '2', '0']) = 320 := rfl
    simp only [getFuturesOptionPipelineFormat, hparse, hq, if_false, if_true, yearDigits,
      getPutCallCharacter, putCallText, JsValue.ofText, JsValue.ofNumber, JsValue.text, hv]
    have hyr : ((R : Int) + (((('Q' : Char).toNat : Nat) : Int) - 80)) = (R : Int) + 1 := by
      have : ('Q' : Char).toNat = 81 := rfl
      rw [this]; norm_num
    rw [hyr]
    have ht : (JsNumber.int ((320 : Nat) : Int)).toString = "320".toList := rfl
    rw [ht]
    simp
  refine ⟨hres, ?_, rfl⟩
  rw [hres]
  intro h
  have h2 := congrArg (fun x => match x with
    | Except.ok (some t) => t.reverse.head?
    | _ => none) h
  simp at h2

/-! ## Month letters -/

/-- C17. `getFuturesMonth` maps the i-th letter of the alternate month alphabet
A,B,C,D,E,I,L,O,P,R,S,T to the i-th canonical month letter of F,G,H,J,K,M,N,Q,U,V,X,Z,
whose number in `futuresMonthNumbers` is i (1 to 12); it leaves every canonical month
letter unchanged, so it is idempotent on the letters of both alphabets and maps these 24
letters onto the 12 canonical ones. -/
theorem getFuturesMonth_table :
    alternateFuturesMonths = alternateMonthLetters.zip canonicalMonthLetters
      ∧ futuresMonthNumbers = canonicalMonthLetters.zip (List.range' 1 12)
      ∧ (∀ i : Fin 12, getFuturesMonth [alternateMonthLetters.get! i]
        = .str [canonicalMonthLetters.get! i]
        ∧ lookupKey futuresMonthNumbers [canonicalMonthLetters.get! i] = some (i.val + 1))
      ∧ (∀ c ∈ canonicalMonthLetters, getFuturesMonth [c] = .str [c])
      ∧ (∀ c ∈ alternateMonthLetters ++ canonicalMonthLetters,
          ∃ t, getFuturesMonth [c] = .str t ∧ getFuturesMonth t = .str t)
      ∧ (alternateMonthLetters ++ canonicalMonthLetters).length = 24
      ∧ (alternateMonthLetters ++ canonicalMonthLetters).Nodup
      ∧ (∀ c ∈ alternateMonthLetters ++ canonicalMonthLetters,
          ∃ k ∈ canonicalMonthLetters, getFuturesMonth [c] = .str [k])
      ∧ (∀ k ∈ canonicalMonthLetters,
          ∃ c ∈ alternateMonthLetters ++ canonicalMonthLetters,
            getFuturesMonth [c] = .str [k]) := by
  refine ⟨by decide, by decide, by decide, by decide, ?_, by decide, by decide, by decide,
    by decide⟩
  intro c hc
  simp only [alternateMonthLetters, canonicalMonthLetters, List.cons_append, List.nil_append,
    List.mem_cons, List.mem_singleton, List.not_mem_nil, or_false] at hc
  rcases hc with rfl | rfl | rfl | rfl | rfl | rfl | rfl | rfl | rfl | rfl | rfl | rfl | rfl
    | rfl | rfl | rfl | rfl | rfl | rfl | rfl | rfl | rfl | rfl | rfl <;>
    exact ⟨_, rfl, rfl⟩

/-! ## Forex and crypto -/

/-- Every symbol accepted by the forex pattern is a caret followed by six letters. -/
theorem forex_full_shape {s : List Char} (h : types.forex.test s = true) :
    ∃ c a1 a2 a3 b1 b2 b3, s = [c, a1, a2, a3, b1, b2, b3] ∧ ci (chr '^') c = true
      ∧ ci isUpper a1 = true ∧ ci isUpper a2 = true ∧ ci isUpper a3 = true
      ∧ ci isUpper b1 = true ∧ ci isUpper b2 = true ∧ ci isUpper b3 = true := by
  obtain ⟨rest, hm⟩ := Pattern.test_anchored _ rfl s h
  simp only [types.forex, Regex.cat, Regex.Matches, Regex.times] at hm
  obtain ⟨m0, ⟨c, hc, rfl⟩, m1, ⟨m2, ⟨a1, h1, rfl⟩, m3, ⟨a2, h2, rfl⟩, m4, ⟨a3, h3, rfl⟩, rfl⟩,
    m5, ⟨m6, ⟨b1, h4, rfl⟩, m7, ⟨b2, h5, rfl⟩, m8, ⟨b3, h6, rfl⟩, rfl⟩, rfl, rfl⟩ := hm
  exact ⟨c, a1, a2, a3, b1, b2, b3, rfl, hc, h1, h2, h3, h4, h5, h6⟩

/-- C18. For every symbol, `getIsForex` implies `getIsCrypto`: every symbol accepted by the
forex pattern (a caret and six letters) is accepted by the crypto pattern (a caret, three
letters and three or four letters), so both predicates are true on every forex symbol. -/
theorem getIsForex_getIsCrypto (symbol : JsValue) (h : getIsForex symbol = true) :
    getIsCrypto symbol = true ∧ (getIsForex symbol = true ∧ getIsCrypto symbol = true) := by
  have key : getIsCrypto symbol = true := by
    cases symbol with
    | str s =>
      simp only [getIsForex, is.string, JsValue.text, Bool.true_and] at h
      obtain ⟨c, a1, a2, a3, b1, b2, b3, rfl, hc, h1, h2, h3, h4, h5, h6⟩ := forex_full_shape h
      simp [getIsCrypto, is.string, JsValue.text, Pattern.test, Pattern.exec, types.crypto,
        Regex.matchHere, Regex.cat, Regex.rep, Regex.times, Regex.upTo, Regex.opt, Regex.run,
        hc, h1, h2, h3, h4, h5, h6]
    | _ => simp [getIsForex, is.string] at h
  exact ⟨key, h, key⟩

/-- Witness of C18: `^EURUSD` is accepted by both predicates. -/
theorem getIsForex_getIsCrypto_witness :
    getIsForex (.str "^EURUSD".toList) = true
      ∧ getIsCrypto (.str "^EURUSD".toList) = true :=
  ⟨by decide, (getIsForex_getIsCrypto (.str "^EURUSD".toList) (by decide)).1⟩

/-! ## The producer symbol of an alias -/

/-- A greedy repetition over a text made of characters of the class consumes the whole
text when the rest of the pattern accepts the end of the input. -/
theorem Regex.runMany_all {α : Type} (p : Char → Bool) (s : List Char) (caps : Captures)
    (k : List Char → Captures → Option α) (x : α) (hall : ∀ c ∈ s, p c = true)
    (hk : k [] caps = some x) : Regex.runMany p s caps k = some x := by
  induction s with
  | nil => exact hk
  | cons c cs ih =>
    have hc : p c = true := hall c (by simp)
    have := ih (fun d hd => hall d (by simp [hd]))
    simp [Regex.runMany, hc, this]

theorem c3_not_future (rest : List Char) :
    types.futures.concrete.test ('C' :: '3' :: ':' :: rest) = false
      ∧ types.futures.alias.test ('C' :: '3' :: ':' :: rest) = false
      ∧ types.futures.options.short.test ('C' :: '3' :: ':' :: rest) = false
      ∧ types.futures.options.long.test ('C' :: '3' :: ':' :: rest) = false
      ∧ types.futures.options.historical.test ('C' :: '3' :: ':' :: rest) = false := by
  have f1 : ci isUpper 'C' = true := by decide
  have f2 : ci isUpper '3' = false := by decide
  have f3 : ci isRootChar '3' = true := by decide
  have f4 : ci isRootChar ':' = false := by decide
  have f5 : ci isUpper ':' = false := by decide
  have f6 : ci (chr '*') '3' = false := by decide
  have f7 : ci (chr '*') ':' = false := by decide
  refine ⟨?_, ?_, ?_, ?_, ?_⟩ <;>
    simp [Pattern.test, Pattern.exec, types.futures.concrete, types.futures.alias,
      types.futures.options.short, types.futures.options.long,
      types.futures.options.historical, futuresRoot,
      Regex.matchHere, Regex.cat, Regex.rep, Regex.times, Regex.upTo, Regex.opt, Regex.run,
      f1, f2, f3, f4, f5, f6, f7]

theorem platts_not_future (rest : List Char) :
    types.futures.concrete.test ('P' :: 'L' :: 'A' :: 'T' :: 'T' :: 'S' :: ':' :: rest) = false
      ∧ types.futures.alias.test ('P' :: 'L' :: 'A' :: 'T' :: 'T' :: 'S' :: ':' :: rest) = false
      ∧ types.futures.options.short.test
          ('P' :: 'L' :: 'A' :: 'T' :: 'T' :: 'S' :: ':' :: rest) = false
      ∧ types.futures.options.long.test
          ('P' :: 'L' :: 'A' :: 'T' :: 'T' :: 'S' :: ':' :: rest) = false
      ∧ types.futures.options.historical.test
          ('P' :: 'L' :: 'A' :: 'T' :: 'T' :: 'S' :: ':' :: rest) = false
      ∧ types.c3.alias.test ('P' :: 'L' :: 'A' :: 'T' :: 'T' :: 'S' :: ':' :: rest) = false := by
  have f1 : ci isUpper 'P' = true := by decide
  have f2 : ci isUpper 'L' = true := by decide
  have f3 : ci isUpper 'A' = true := by decide
  have f4 : ci isUpper 'T' = true := by decide
  have g2 : ci isRootChar 'L' = true := by decide
  have g3 : ci isRootChar 'A' = true := by decide
  have d2 : isDigit 'L' = false := by decide
  have d3 : isDigit 'A' = false := by decide
  have d4 : isDigit 'T' = false := by decide
  have s2 : ci (chr '*') 'L' = false := by decide
  have s3 : ci (chr '*') 'A' = false := by decide
  have s4 : ci (chr '*') 'T' = false := by decide
  have c1 : ci (chr 'C') 'P' = false := by decide
  refine ⟨?_, ?_, ?_, ?_, ?_, ?_⟩ <;>
    simp [Pattern.test, Pattern.exec, types.futures.concrete, types.futures.alias,
      types.futures.options.short, types.futures.options.long,
      types.futures.options.historical, types.c3.alias, futuresRoot, Regex.text,
      Regex.matchHere, Regex.cat, Regex.rep, Regex.times, Regex.upTo, Regex.opt, Regex.run,
      ci_isDigit, f1, f2, f3, f4, g2, g3, d2, d3, d4, s2, s3, s4, c1]

theorem c3_alias_exec (rest : List Char) (hrest : ∀ c ∈ rest, isDot c = true) :
    types.c3.alias.exec ('C' :: '3' :: ':' :: rest)
      = some ⟨[], [], (Captures.empty.set 1 ['C', '3', ':']).set 2 rest⟩ := by
  have f1 : ci (chr 'C') 'C' = true := by decide
  have f2 : ci (chr '3') '3' = true := by decide
  have f3 : ci (chr ':') ':' = true := by decide
  simp only [Pattern.exec, types.c3.alias, Regex.text, List.map, Regex.matchHere, Regex.cat,
    Regex.run, f1, f2, f3, if_true]
  apply Regex.runMany_all _ _ _ _ _ hrest
  simp only [List.length_cons, List.length_nil, Nat.sub_zero, List.take_length]
  have e : rest.length + 1 + 1 + 1 - rest.length = 3 := by omega
  rw [e]
  rfl

theorem platts_alias_exec (rest : List Char) (hrest : ∀ c ∈ rest, isDot c = true) :
    types.platts.alias.exec ('P' :: 'L' :: 'A' :: 'T' :: 'T' :: 'S' :: ':' :: rest)
      = some ⟨[], [], (Captures.empty.set 1 ['P', 'L', 'A', 'T', 'T', 'S', ':']).set 2 rest⟩ := by
  have f1 : ci (chr 'P') 'P' = true := by decide
  have f2 : ci (chr 'L') 'L' = true := by decide
  have f3 : ci (chr 'A') 'A' = true := by decide
  have f4 : ci (chr 'T') 'T' = true := by decide
  have f5 : ci (chr 'S') 'S' = true := by decide
  have f6 : ci (chr ':') ':' = true := by decide
  simp only [Pattern.exec, types.platts.alias, Regex.text, List.map, Regex.matchHere,
    Regex.cat, Regex.run, f1, f2, f3, f4, f5, f6, if_true]
  apply Regex.runMany_all _ _ _ _ _ hrest
  simp only [List.length_cons, List.length_nil, Nat.sub_zero, List.take_length]
  have e : rest.length + 1 + 1 + 1 + 1 + 1 + 1 + 1 - rest.length = 7 := by omega
  rw [e]
  rfl

/-- C13. For every symbol made of the prefix `C3:` and a text `rest` without line
terminators, `getProducerSymbol` returns `rest` followed by `.C3`, and for every symbol
made of the prefix `PLATTS:` and such a text it returns `rest` followed by `.PT`: the
converters of concrete futures and of futures options (and, for `PLATTS:`, the converter
of `C3:`) return `null` for such a symbol. -/
theorem getProducerSymbol_alias (R : Nat) (rest : List Char)
    (hrest : ∀ c ∈ rest, isDot c = true) :
    getProducerSymbol R (.str ("C3:".toList ++ rest)) = .ok (some (rest ++ ".C3".toList))
      ∧ getProducerSymbol R (.str ("PLATTS:".toList ++ rest))
          = .ok (some (rest ++ ".PT".toList))
      ∧ converters.future ("C3:".toList ++ rest) = .ok none
      ∧ converters.futureOption R ("C3:".toList ++ rest) = .ok none
      ∧ converters.future ("PLATTS:".toList ++ rest) = .ok none
      ∧ converters.futureOption R ("PLATTS:".toList ++ rest) = .ok none
      ∧ converters.c3 ("PLATTS:".toList ++ rest) = .ok none := by
  have e1 : "C3:".toList ++ rest = 'C' :: '3' :: ':' :: rest := rfl
  have e2 : "PLATTS:".toList ++ rest = 'P' :: 'L' :: 'A' :: 'T' :: 'T' :: 'S' :: ':' :: rest :=
    rfl
  obtain ⟨a1, a2, a3, a4, a5⟩ := c3_not_future rest
  obtain ⟨b1, b2, b3, b4, b5, b6⟩ := platts_not_future rest
  have hc := c3_alias_exec rest hrest
  have hp := platts_alias_exec rest hrest
  rw [e1, e2]
  have k1 : converters.future ('C' :: '3' :: ':' :: rest) = .ok none := by
    simp [converters.future, getIsFuture, is.string, JsValue.text, a1, a2]
  have k2 : converters.futureOption R ('C' :: '3' :: ':' :: rest) = .ok none := by
    simp [converters.futureOption, getIsFutureOption, is.string, JsValue.text, a3, a4, a5]
  have k3 : converters.future ('P' :: 'L' :: 'A' :: 'T' :: 'T' :: 'S' :: ':' :: rest)
      = .ok none := by
    simp [converters.future, getIsFuture, is.string, JsValue.text, b1, b2]
  have k4 : converters.futureOption R ('P' :: 'L' :: 'A' :: 'T' :: 'T' :: 'S' :: ':' :: rest)
      = .ok none := by
    simp [converters.futureOption, getIsFutureOption, is.string, JsValue.text, b3, b4, b5]
  have k5 : converters.c3 ('P' :: 'L' :: 'A' :: 'T' :: 'T' :: 'S' :: ':' :: rest)
      = .ok none := by
    simp [converters.c3, b6]
  have k6 : converters.c3 ('C' :: '3' :: ':' :: rest) = .ok (some (rest ++ ".C3".toList)) := by
    simp [converters.c3, replace, Pattern.test, hc, Replacement.expand, Captures.set]
  have k7 : converters.platts ('P' :: 'L' :: 'A' :: 'T' :: 'T' :: 'S' :: ':' :: rest)
      = .ok (some (rest ++ ".PT".toList)) := by
    simp [converters.platts, replace, Pattern.test, hp, Replacement.expand, Captures.set]
  refine ⟨?_, ?_, k1, k2, k3, k4, k5⟩
  · simp only [getProducerSymbol, is.string, JsValue.text, converters, convertLoop, k1, k2, k6]
    simp
  · simp only [getProducerSymbol, is.string, JsValue.text, converters, convertLoop, k3, k4, k5,
      k7]
    simp

/-- Witness of C13: `C3:CRUDE` gives `CRUDE.C3` and `PLATTS:BRENT` gives `BRENT.PT`. -/
theorem getProducerSymbol_alias_witness :
    (∀ c ∈ "CRUDE".toList, isDot c = true)
      ∧ getProducerSymbol 2024 (.str ("C3:".toList ++ "CRUDE".toList))
          = .ok (some ("CRUDE".toList ++ ".C3".toList))
      ∧ getProducerSymbol 2024 (.str "C3:CRUDE".toList) = .ok (some "CRUDE.C3".toList)
      ∧ getProducerSymbol 2024 (.str "PLATTS:BRENT".toList) = .ok (some "BRENT.PT".toList) :=
  ⟨by decide, (getProducerSymbol_alias 2024 "CRUDE".toList (by decide)).1, rfl, rfl⟩

/-! ## The producer symbol is always returned -/

theorem bar_of_chr {c : Char} (h : ci (chr '|') c = true) : c = '|' := by
  rw [ci_chr _ _ (by decide) (by decide)] at h
  simp only [chr, beq_iff_eq] at h
  exact char_eq_of_toNat h

theorem count_bar_of_notBar {l : List Char} (h : ∀ c ∈ l, notBar c = true) :
    l.count '|' = 0 := by
  rw [List.count_eq_zero]
  intro hm
  have := h _ hm
  exact absurd this (by decide)

theorem upper_notBar {c : Char} (h : ci isUpper c = true) : notBar c = true := by
  rw [ci_isUpper_iff] at h
  simp only [notBar, bne_iff_ne, ne_eq]
  omega

theorem rootChar_notBar {c : Char} (h : ci isRootChar c = true) : notBar c = true := by
  rw [ci_isRootChar_iff, ci_isUpper_iff, isDigit_iff] at h
  simp only [notBar, bne_iff_ne, ne_eq]
  omega

theorem digit_notBar {c : Char} (h : isDigit c = true) : notBar c = true := by
  rw [isDigit_iff] at h
  simp only [notBar, bne_iff_ne, ne_eq]
  omega

theorem chr_notBar (x : Char) (hx : x.toNat ≠ 124) (hx1 : x.toNat < 65 ∨ 90 < x.toNat)
    (hx2 : x.toNat < 97 ∨ 122 < x.toNat) {c : Char} (h : ci (chr x) c = true) :
    notBar c = true := by
  rw [ci_chr _ _ hx1 hx2] at h
  simp only [chr, beq_iff_eq] at h
  simp only [notBar, bne_iff_ne, ne_eq]
  omega

theorem letter_of_chr (x : Char) (hx : 65 ≤ x.toNat ∧ x.toNat ≤ 90) {c : Char}
    (h : ci (chr x) c = true) : ci isUpper c = true := by
  rw [ci_isUpper_iff]
  simp only [ci, chr, toNat_canonicalize, beq_iff_eq] at h
  split at h <;> omega

theorem futuresRoot_within : futuresRoot.Within notBar := by
  simp only [futuresRoot, Regex.cat, Regex.Within, Regex.rep, Regex.times, Regex.upTo,
    Regex.opt, and_true, true_and]
  exact ⟨fun c h => upper_notBar h, fun c h => rootChar_notBar h, fun c h => rootChar_notBar h⟩

theorem historical_shape {s : List Char}
    (h : types.futures.options.historical.test s = true) :
    ∃ first last, s.head? = some first ∧ s.getLast? = some last ∧ ci isUpper first = true
      ∧ ci isUpper last = true ∧ s.count '|' = 0 := by
  obtain ⟨rest, hm⟩ := Pattern.test_anchored _ rfl s h
  have hw : types.futures.options.historical.body.Within notBar := by
    simp only [types.futures.options.historical, futuresRoot, Regex.cat, Regex.Within,
      Regex.rep, Regex.times, Regex.upTo, Regex.opt, and_true, true_and, ci_isDigit]
    refine ⟨⟨fun c h => upper_notBar h, fun c h => rootChar_notBar h,
      fun c h => rootChar_notBar h⟩, fun c h => upper_notBar h,
      ⟨fun c h => digit_notBar h, fun c h => digit_notBar h⟩,
      ⟨fun c h => digit_notBar h, fun c h => digit_notBar h, fun c h => digit_notBar h,
        fun c h => digit_notBar h, fun c h => digit_notBar h⟩,
      fun c h => upper_notBar (letter_of_chr _ (by decide) h),
      fun c h => upper_notBar (letter_of_chr _ (by decide) h)⟩
  obtain ⟨pre, hpre, hall⟩ := Regex.Matches.within notBar _ _ _ hw hm
  have hcount : s.count '|' = 0 := by
    apply count_bar_of_notBar
    intro c hc
    rw [hpre] at hc
    have hrest : rest = [] := by
      obtain ⟨m1, -, m2, -, m3, -, m4, -, m5, -, heos⟩ := hm
      exact heos.2
    rw [hrest, List.append_nil] at hc
    exact hall c hc
  obtain ⟨m1, hg1, m2, hg2, m3, hg3, m4, hg4, m5, hg5, heos⟩ := hm
  obtain ⟨m0, ⟨a, ha, rfl⟩, hroot⟩ := hg1
  obtain ⟨rfl, rfl⟩ := heos
  have hl : ∃ l, m4 = [l] ∧ ci isUpper l = true := by
    rcases hg5 with ⟨l, hl, rfl⟩ | ⟨l, hl, rfl⟩
    · exact ⟨l, rfl, letter_of_chr _ (by decide) hl⟩
    · exact ⟨l, rfl, letter_of_chr _ (by decide) hl⟩
  obtain ⟨l, rfl, hlu⟩ := hl
  obtain ⟨q1, rfl⟩ := Regex.Matches.append_rest _ _ _ hroot
  obtain ⟨q2, rfl⟩ := Regex.Matches.append_rest _ _ _ hg2
  obtain ⟨q3, rfl⟩ := Regex.Matches.append_rest _ _ _ hg3
  obtain ⟨q4, rfl⟩ := Regex.Matches.append_rest _ _ _ hg4
  refine ⟨a, l, rfl, ?_, ha, hlu, hcount⟩
  have e : a :: (q1 ++ (q2 ++ (q3 ++ (q4 ++ [l])))) = (a :: (q1 ++ q2 ++ q3 ++ q4)) ++ [l] := by
    simp
  rw [e, List.getLast?_concat]

theorem count_bar_of_within {r : Regex} (hw : r.Within notBar) {s rest : List Char}
    (hm : r.Matches s rest) : s.count '|' = rest.count '|' := by
  obtain ⟨pre, rfl, hall⟩ := Regex.Matches.within notBar _ _ _ hw hm
  rw [List.count_append, count_bar_of_notBar hall, Nat.zero_add]

theorem long_shape {s : List Char} (h : types.futures.options.long.test s = true) :
    ∃ first last, s.head? = some first ∧ s.getLast? = some last ∧ ci isUpper first = true
      ∧ ci isUpper last = true ∧ s.count '|' = 1 := by
  obtain ⟨rest, hm⟩ := Pattern.test_anchored _ rfl s h
  obtain ⟨m1, hg1, m2, hg2, m3, hg3, m4, hbar, m5, hg4, m6, hg5, heos⟩ := hm
  obtain ⟨rfl, rfl⟩ := heos
  have hl : ∃ l, m5 = [l] ∧ ci isUpper l = true := by
    rcases hg5 with ⟨l, hl, rfl⟩ | ⟨l, hl, rfl⟩
    · exact ⟨l, rfl, letter_of_chr _ (by decide) hl⟩
    · exact ⟨l, rfl, letter_of_chr _ (by decide) hl⟩
  obtain ⟨l, rfl, hlu⟩ := hl
  obtain ⟨b, hb, rfl⟩ := hbar
  have hbe := bar_of_chr hb
  subst hbe
  have c1 := count_bar_of_within (r := Regex.group 1 futuresRoot) futuresRoot_within hg1
  have c2 := count_bar_of_within (r := Regex.group 2 (.cls (ci isUpper)))
    (fun c h => upper_notBar h) hg2
  have c3 := count_bar_of_within (r := Regex.group 3 (.rep (.cls (ci isDigit)) 1 4)) (by
    simp only [Regex.Within, Regex.rep, Regex.times, Regex.upTo, Regex.opt, and_true,
      true_and, ci_isDigit]
    exact ⟨fun c h => digit_notBar h, fun c h => digit_notBar h, fun c h => digit_notBar h,
      fun c h => digit_notBar h⟩) hg3
  have c4 := count_bar_of_within (r := Regex.group 4 (.cat [.opt (.cls (ci (chr '-'))),
      .rep (.cls (ci isDigit)) 1 5])) (by
    simp only [Regex.Within, Regex.cat, Regex.rep, Regex.times, Regex.upTo, Regex.opt,
      and_true, true_and, ci_isDigit]
    exact ⟨fun c h => chr_notBar _ (by decide) (by decide) (by decide) h,
      fun c h => digit_notBar h, fun c h => digit_notBar h, fun c h => digit_notBar h,
      fun c h => digit_notBar h, fun c h => digit_notBar h⟩) hg4
  have hcount : s.count '|' = 1 := by
    rw [c1, c2, c3, List.count_cons_self, c4]
    have : List.count '|' [l] = 0 := count_bar_of_notBar (by simpa using upper_notBar hlu)
    rw [this]
  obtain ⟨m0, ⟨a, ha, rfl⟩, hroot⟩ := hg1
  obtain ⟨q1, rfl⟩ := Regex.Matches.append_rest _ _ _ hroot
  obtain ⟨q2, rfl⟩ := Regex.Matches.append_rest _ _ _ hg2
  obtain ⟨q3, rfl⟩ := Regex.Matches.append_rest _ _ _ hg3
  obtain ⟨q4, rfl⟩ := Regex.Matches.append_rest _ _ _ hg4
  refine ⟨a, l, rfl, ?_, ha, hlu, hcount⟩
  have e : a :: (q1 ++ (q2 ++ (q3 ++ '|' :: (q4 ++ [l]))))
      = (a :: (q1 ++ q2 ++ q3 ++ '|' :: q4)) ++ [l] := by
    simp
  rw [e, List.getLast?_concat]

theorem equityOption_bars {s : List Char} (h : types.equities.options.test s = true) :
    2 ≤ s.count '|' := by
  obtain ⟨rest, hm⟩ := Pattern.test_anchored _ rfl s h
  obtain ⟨m1, hg1, m2, hg3, m3, hg4, m4, hbar1, m5, hg5, m6, hg6, m7, hg7, m8, hbar2, -⟩ := hm
  obtain ⟨b1, hb1, rfl⟩ := hbar1
  obtain ⟨b2, hb2, rfl⟩ := hbar2
  have e1 := bar_of_chr hb1
  have e2 := bar_of_chr hb2
  subst e1 e2
  obtain ⟨q1, rfl⟩ := Regex.Matches.append_rest _ _ _ hg1
  obtain ⟨q2, rfl⟩ := Regex.Matches.append_rest _ _ _ hg3
  obtain ⟨q3, rfl⟩ := Regex.Matches.append_rest _ _ _ hg4
  obtain ⟨q5, rfl⟩ := Regex.Matches.append_rest _ _ _ hg5
  obtain ⟨q6, rfl⟩ := Regex.Matches.append_rest _ _ _ hg6
  obtain ⟨q7, rfl⟩ := Regex.Matches.append_rest _ _ _ hg7
  simp only [List.count_append, List.count_cons_self]
  omega

/-- A symbol accepted by the long or by the historical pattern of futures options is
rejected by the seven patterns that come before the short pattern. -/
theorem long_excludes {s : List Char}
    (h : types.futures.options.long.test s = true
      ∨ types.futures.options.historical.test s = true) :
    types.futures.spread.test s = false ∧ types.futures.concrete.test s = false
      ∧ types.futures.alias.test s = false ∧ types.forex.test s = false
      ∧ types.equities.options.test s = false ∧ types.indicies.external.test s = false
      ∧ types.indicies.sector.test s = false := by
  have hshape : ∃ first last, s.head? = some first ∧ s.getLast? = some last
      ∧ ci isUpper first = true ∧ ci isUpper last = true ∧ s.count '|' ≤ 1 := by
    rcases h with h | h
    · obtain ⟨a, l, h1, h2, h3, h4, h5⟩ := long_shape h
      exact ⟨a, l, h1, h2, h3, h4, by omega⟩
    · obtain ⟨a, l, h1, h2, h3, h4, h5⟩ := historical_shape h
      exact ⟨a, l, h1, h2, h3, h4, by omega⟩
  obtain ⟨a, l, hhead, hlast, ha, hl, hcount⟩ := hshape
  have hau := upper_toNat ha
  have hld := upper_not_digit hl
  refine ⟨?_, ?_, ?_, ?_, ?_, ?_, ?_⟩ <;> rw [Bool.eq_false_iff] <;> intro h2
  · obtain ⟨c2, cs2, rfl, hc2⟩ := spread_first h2
    cases hhead; omega
  · obtain ⟨a2, l2, -, hlast2, -, hd⟩ := concrete_shape h2
    rw [hlast] at hlast2; cases hlast2
    rw [hd] at hld; exact absurd hld (by simp)
  · obtain ⟨a2, l2, -, hlast2, -, hd⟩ := alias_shape h2
    rw [hlast] at hlast2; cases hlast2
    rw [hd] at hld; exact absurd hld (by simp)
  · obtain ⟨c2, cs2, rfl, hc2⟩ := forex_first h2
    cases hhead; omega
  · have := equityOption_bars h2; omega
  · obtain ⟨c2, cs2, rfl, hc2⟩ := index_first h2
    cases hhead; omega
  · obtain ⟨c2, cs2, rfl, hc2⟩ := sector_first h2
    cases hhead; omega

/-- A symbol accepted by the long or by the historical pattern of futures options, and not
by the short one, is parsed by the parser of the long and historical formats. -/
theorem parse_of_long (R : Nat) {s : List Char}
    (hs : types.futures.options.short.test s = false)
    (h : types.futures.options.long.test s = true
      ∨ types.futures.options.historical.test s = true) :
    parseInstrumentType R (.str s) = parsers.futureOptionLong R s := by
  obtain ⟨h1, h2, h3, h4, h5, h6, h7⟩ := long_excludes h
  rw [parseInstrumentType_eq_find]
  rcases h with h | h
  · simp [extractors, List.find?, h1, h2, h3, h4, h5, h6, h7, hs, h]
  · simp [extractors, List.find?, h1, h2, h3, h4, h5, h6, h7, hs, h]

/-- The first group of a match is set when the pattern starts with that group and no
later part of the pattern contains it. -/
theorem first_group_capture (a b : Regex) (hb : 1 ∉ b.groups) (s : List Char)
    (rest : List Char) (caps1 : Captures)
    (h : (Regex.seq (.group 1 a) b).MatchesWith s Captures.empty rest caps1) :
    ∃ r, caps1 1 = some r := by
  obtain ⟨mid, capsMid, hg, hrest⟩ := h
  obtain ⟨pre, -, hcap, -⟩ := Regex.MatchesWith.group_capture _ _ _ _ _ _ hg
  exact ⟨pre, by rw [Regex.MatchesWith.frame _ _ _ _ _ hrest 1 hb, hcap]⟩

theorem long_fields {R : Nat} {s : List Char} {d : Definition}
    (h : parsers.futureOptionLong R s = some d) :
    d.type = .future_option ∧ (∃ r, d.root = some r)
      ∧ (d.option_type = some .call ∨ d.option_type = some .put)
      ∧ (∃ y, d.year = some y) := by
  unfold parsers.futureOptionLong at h
  cases hl : types.futures.options.long.exec s with
  | some m =>
    rw [hl] at h
    simp only [Option.some.injEq] at h
    subst h
    obtain ⟨-, hw⟩ := Pattern.exec_anchored _ rfl s m hl
    obtain ⟨r, hr⟩ := first_group_capture _ _ (by decide) _ _ _ hw
    refine ⟨rfl, ⟨r, hr⟩, ?_, ⟨_, rfl⟩⟩
    show (some _ = some OptionType.call) ∨ (some _ = some OptionType.put)
    split <;> simp
  | none =>
    rw [hl] at h
    cases hh : types.futures.options.historical.exec s with
    | none => rw [hh] at h; exact absurd h (by simp)
    | some m =>
      rw [hh] at h
      simp only [Option.some.injEq] at h
      subst h
      obtain ⟨-, hw⟩ := Pattern.exec_anchored _ rfl s m hh
      obtain ⟨r, hr⟩ := first_group_capture _ _ (by decide) _ _ _ hw
      refine ⟨rfl, ⟨r, hr⟩, ?_, ⟨_, rfl⟩⟩
      show (some _ = some OptionType.call) ∨ (some _ = some OptionType.put)
      split <;> simp

/-- The definition of a symbol accepted by `getIsFutureOption`. -/
theorem futureOption_definition (R : Nat) (s : List Char)
    (h : getIsFutureOption (.str s) = true) :
    ∃ d, parseInstrumentType R (.str s) = some d ∧ d.type = .future_option
      ∧ (∃ r, d.root = some r)
      ∧ (d.option_type = some .call ∨ d.option_type = some .put)
      ∧ (∃ y, d.year = some y) := by
  simp only [getIsFutureOption, is.string, JsValue.text, Bool.true_and, Bool.or_eq_true] at h
  cases hs : types.futures.options.short.test s with
  | true =>
    obtain ⟨a, rest, m, digits, l, rfl, ha, hrest, hrc, hm, hd, hd1, hd4, hl⟩ :=
      short_full_shape hs
    obtain ⟨-, hparse⟩ := short_definition R a rest m digits l ha hrest hrc hm hd hd1 hd4 hl
    refine ⟨_, hparse, rfl, ⟨_, rfl⟩, ?_, ⟨_, rfl⟩⟩
    show (some _ = some OptionType.call) ∨ (some _ = some OptionType.put)
    split <;> simp
  | false =>
    have hlh : types.futures.options.long.test s = true
        ∨ types.futures.options.historical.test s = true := by
      rcases h with (h | h) | h
      · rw [hs] at h; exact absurd h (by simp)
      · exact Or.inl h
      · exact Or.inr h
    have hp := parse_of_long R hs hlh
    have hsome : (parsers.futureOptionLong R s).isSome = true := by
      have := (extractors_sound R s ⟨.future_option,
        fun s => types.futures.options.long.test s || types.futures.options.historical.test s,
        parsers.futureOptionLong R⟩ (by simp [extractors])).1
      apply this.mp
      simp only [Bool.or_eq_true]
      exact hlh
    obtain ⟨d, hd⟩ := Option.isSome_iff_exists.mp hsome
    obtain ⟨f1, f2, f3, f4⟩ := long_fields hd
    exact ⟨d, by rw [hp, hd], f1, f2, f3, f4⟩

theorem converters_futureOption_ok (R : Nat) (s : List Char) :
    (∃ r, converters.futureOption R s = .ok r)
      ∧ (getIsFutureOption (.str s) = true → ∃ t, converters.futureOption R s = .ok (some t)) := by
  cases h : getIsFutureOption (.str s) with
  | false =>
    refine ⟨⟨none, ?_⟩, fun hf => absurd hf (by simp)⟩
    simp [converters.futureOption, h]
  | true =>
    obtain ⟨d, hparse, -, ⟨r, hr⟩, hot, ⟨y, hy⟩⟩ := futureOption_definition R s h
    have key : ∃ t, converters.futureOption R s = .ok (some t) := by
      simp only [converters.futureOption, h, if_true, hparse, hr, hy, yearDigits]
      by_cases hlen : r.length < 3
      · rcases hot with hot | hot <;>
          simp only [hlen, if_true, hot, getPutCallCharacter] <;> exact ⟨_, rfl⟩
      · simp only [hlen, if_false]
        exact ⟨_, rfl⟩
    obtain ⟨t, ht⟩ := key
    exact ⟨⟨some t, ht⟩, fun _ => ⟨t, ht⟩⟩

/-- C11. For every string symbol and every reference year, `getProducerSymbol` returns a
string: no converter throws, and the last converter returns the symbol itself when
the others return `null`. In particular, whenever `getIsFutureOption` accepts the symbol,
`parseInstrumentType` yields a `future_option` definition with a root, a year and an
option type that is call or put, and the converter of futures options returns a
string. -/
theorem getProducerSymbol_total (R : Nat) (s : List Char) :
    (∃ t, getProducerSymbol R (.str s) = .ok (some t))
      ∧ (∀ converter ∈ converters R, ∃ r, converter s = .ok r)
      ∧ (getIsFutureOption (.str s) = true →
          (∃ d, parseInstrumentType R (.str s) = some d ∧ d.type = .future_option
            ∧ (∃ r, d.root = some r)
            ∧ (d.option_type = some .call ∨ d.option_type = some .put)
            ∧ (∃ c, getPutCallCharacter d.option_type = some c)
            ∧ (∃ y, d.year = some y))
          ∧ ∃ t, converters.futureOption R s = .ok (some t)) := by
  have h0 : ∃ r, converters.future s = .ok r := by
    unfold converters.future
    split
    · exact ⟨_, rfl⟩
    · exact ⟨_, rfl⟩
  obtain ⟨h1, h1b⟩ := converters_futureOption_ok R s
  have h2 : ∃ r, converters.c3 s = .ok r := by
    unfold converters.c3
    split
    · exact ⟨_, rfl⟩
    · exact ⟨_, rfl⟩
  have h3 : ∃ r, converters.platts s = .ok r := by
    unfold converters.platts
    split
    · exact ⟨_, rfl⟩
    · exact ⟨_, rfl⟩
  refine ⟨?_, ?_, ?_⟩
  · obtain ⟨r0, e0⟩ := h0
    obtain ⟨r1, e1⟩ := h1
    obtain ⟨r2, e2⟩ := h2
    obtain ⟨r3, e3⟩ := h3
    simp only [getProducerSymbol, is.string, JsValue.text, converters, convertLoop, e0, e1, e2,
      e3, converters.identity]
    cases r0 <;> cases r1 <;> cases r2 <;> cases r3 <;> exact ⟨_, rfl⟩
  · intro converter hc
    simp only [converters, List.mem_cons, List.mem_singleton, List.not_mem_nil, or_false] at hc
    rcases hc with rfl | rfl | rfl | rfl | rfl
    · exact h0
    · exact h1
    · exact h2
    · exact h3
    · exact ⟨_, rfl⟩
  · intro hf
    obtain ⟨d, hparse, ht, hr, hot, hy⟩ := futureOption_definition R s hf
    refine ⟨⟨d, hparse, ht, hr, hot, ?_, hy⟩, h1b hf⟩
    rcases hot with hot | hot <;> rw [hot] <;> exact ⟨_, rfl⟩

/-- Witness of C11: the futures options `ZCZ500C` (short), `ZCZ4|500P` (long) and
`ZCZ24500C` (historical) and the plain symbol `XYZ`. -/
theorem getProducerSymbol_total_witness :
    getIsFutureOption (.str "ZCZ4|500P".toList) = true
      ∧ (∃ t, converters.futureOption 2024 "ZCZ4|500P".toList = .ok (some t))
      ∧ getProducerSymbol 2024 (.str "ZCZ4|500P".toList) = .ok (some "ZCZ500P".toList)
      ∧ getProducerSymbol 2024 (.str "ZCZ500C".toList) = .ok (some "ZCZ500C".toList)
      ∧ getProducerSymbol 2024 (.str "ZCZ24500C".toList) = .ok (some "ZCZ500C".toList)
      ∧ getProducerSymbol 2024 (.str "CORN4|500P".toList) = .ok (some "CORN4|500P".toList)
      ∧ getProducerSymbol 2024 (.str "XYZ".toList) = .ok (some "XYZ".toList) :=
  ⟨by decide, ((getProducerSymbol_total 2024 "ZCZ4|500P".toList).2.2 (by decide)).2,
    rfl, rfl, rfl, rfl, rfl⟩

/-! ## The producer symbol of a futures option with a short root -/

theorem toNat_fromCharCode (code : Int) (h0 : 0 ≤ code) (h1 : code < 55296) :
    ((fromCharCode (.int code)).toNat : Int) = code := by
  have hv : (code.toNat).isValidChar := by
    left; omega
  have e : Int.emod (Int.tdiv code (10 ^ 0)) 65536 = code := by
    simp only [pow_zero, Int.tdiv_one]
    exact Int.emod_eq_of_lt h0 (by omega)
  simp only [fromCharCode, JsNumber.parts, e]
  show ((Char.ofNat code.toNat).toNat : Int) = code
  rw [Char.ofNat, dif_pos hv]
  show ((code.toNat : Nat) : Int) = code
  omega

/-- The converter of concrete futures returns `null` for a futures option. -/
theorem converters_future_of_option {s : List Char} (h : getIsFutureOption (.str s) = true) :
    converters.future s = .ok none := by
  simp only [getIsFutureOption, is.string, JsValue.text, Bool.true_and, Bool.or_eq_true] at h
  have hex : types.futures.concrete.test s = false ∧ types.futures.alias.test s = false := by
    rcases h with (h | h) | h
    · obtain ⟨-, h2, h3, -⟩ := short_excludes h
      exact ⟨h2, h3⟩
    · obtain ⟨-, h2, h3, -⟩ := long_excludes (Or.inl h)
      exact ⟨h2, h3⟩
    · obtain ⟨-, h2, h3, -⟩ := long_excludes (Or.inr h)
      exact ⟨h2, h3⟩
  simp [converters.future, getIsFuture, is.string, JsValue.text, hex.1, hex.2]

/-- The producer symbol of a futures option with a root of fewer than three characters. -/
theorem producer_short_root (R : Nat) (s : List Char) (d : Definition) (root : List Char)
    (y : Int) (ot : OptionType) (hf : getIsFutureOption (.str s) = true)
    (hd : parseInstrumentType R (.str s) = some d) (hroot : d.root = some root)
    (hlen : root.length < 3) (hy : d.year = some (.int y)) (hot : d.option_type = some ot) :
    getProducerSymbol R (.str s)
      = .ok (some (root ++ d.month.text ++ (JsValue.ofNumber d.strike).text
          ++ [fromCharCode (.int (letterCode ot + y - R))])) := by
  have h0 := converters_future_of_option hf
  have h1 : converters.futureOption R s
      = .ok (some (root ++ d.month.text ++ (JsValue.ofNumber d.strike).text
          ++ [fromCharCode (.int (letterCode ot + y - R))])) := by
    simp only [converters.futureOption, hf, if_true, hd, hroot, hlen, hy, hot, toNumber,
      Option.getD_some, JsNumber.add_int, JsNumber.sub_int]
    cases ot <;> rfl
  simp only [getProducerSymbol, is.string, JsValue.text, converters, convertLoop, h0, h1]
  simp

/-- C12 as stated fails: for the long-format call `ZCZ2050|500C` (root `ZC`, year 2050)
and the reference year 2024 the producer symbol is `ZCZ500]`, whose trailing character
has the code 67 + 26 = 93 and decodes as a put of 2037; for the put `ZCZ23|500P` (year
2023) it is `ZCZ500O`, which decodes as a call of 2036. -/
theorem getProducerSymbol_short_root_counterexample :
    getIsFutureOption (.str "ZCZ2050|500C".toList) = true
      ∧ (parseInstrumentType 2024 (.str "ZCZ2050|500C".toList)).map
          (fun d => (d.root, d.option_type, d.year))
          = some (some "ZC".toList, some .call, some (.int 2050))
      ∧ getProducerSymbol 2024 (.str "ZCZ2050|500C".toList) = .ok (some "ZCZ500]".toList)
      ∧ decodeShortLetter 2024 ']' = (.put, 2037)
      ∧ getIsFutureOption (.str "ZCZ23|500P".toList) = true
      ∧ (parseInstrumentType 2024 (.str "ZCZ23|500P".toList)).map
          (fun d => (d.root, d.option_type, d.year))
          = some (some "ZC".toList, some .put, some (.int 2023))
      ∧ getProducerSymbol 2024 (.str "ZCZ23|500P".toList) = .ok (some "ZCZ500O".toList)
      ∧ decodeShortLetter 2024 'O' = (.call, 2036) :=
  ⟨by decide, rfl, rfl, by decide, by decide, rfl, rfl, by decide⟩

/-- C12, amended. For every symbol classified as a future option whose parsed root has
fewer than three characters, and every reference year `R`, `getProducerSymbol` returns
the root, the month, the strike and one trailing character, whose code is the code of
`C` (for a call) or of `P` (for a put) plus the distance from `R` to the parsed year `y`.
Decoding that character by the short scheme with the same `R` gives the option type and
the year of the parsed definition whenever that code is a character code on the side of
the code of `P` that the option type requires (from 0 to 79 for a call, from 80 to 55295
for a put). This is the case for every symbol of the short form, whose producer symbol
ends in the trailing letter of the symbol itself. -/
theorem getProducerSymbol_short_root (R : Nat) (s : List Char) (d : Definition)
    (root : List Char) (y : Int) (ot : OptionType)
    (hf : getIsFutureOption (.str s) = true)
    (hd : parseInstrumentType R (.str s) = some d) (hroot : d.root = some root)
    (hlen : root.length < 3) (hy : d.year = some (.int y)) (hot : d.option_type = some ot) :
    (∃ ch, getProducerSymbol R (.str s)
          = .ok (some (root ++ d.month.text ++ (JsValue.ofNumber d.strike).text ++ [ch]))
        ∧ ch = fromCharCode (.int (letterCode ot + y - R))
        ∧ ((ot = .call → 0 ≤ letterCode ot + y - R ∧ letterCode ot + y - R < 80) →
            (ot = .put → 80 ≤ letterCode ot + y - R ∧ letterCode ot + y - R < 55296) →
            decodeShortLetter R ch = (ot, y)))
      ∧ (∀ (a : Char) (rest : List Char) (m : Char) (digits : List Char) (l : Char),
          ci isUpper a = true → rest.length ≤ 1 → (∀ c ∈ rest, ci isRootChar c = true) →
          ci isUpper m = true → (∀ c ∈ digits, isDigit c = true) → 1 ≤ digits.length →
          digits.length ≤ 4 → ci isUpper l = true →
          ∃ d2 ot2 y2, parseInstrumentType R (.str (a :: rest ++ m :: digits ++ [l])) = some d2
            ∧ d2.option_type = some ot2 ∧ d2.year = some (.int y2)
            ∧ getProducerSymbol R (.str (a :: rest ++ m :: digits ++ [l]))
              = .ok (some (a :: rest ++ [m] ++ (JsValue.ofNumber d2.strike).text ++ [l]))
            ∧ decodeShortLetter R l = (ot2, y2)) := by
  have hprod := producer_short_root R s d root y ot hf hd hroot hlen hy hot
  refine ⟨⟨_, hprod, rfl, ?_⟩, ?_⟩
  · intro hcall hput
    have hwin : 0 ≤ letterCode ot + y - R ∧ letterCode ot + y - R < 55296 := by
      cases ot
      · have := hcall rfl; omega
      · have := hput rfl; omega
    have hn := toNat_fromCharCode _ hwin.1 hwin.2
    have eP : ('P' : Char).toNat = 80 := rfl
    have eC : ('C' : Char).toNat = 67 := rfl
    simp only [decodeShortLetter, eP, eC]
    cases ot
    · have hc := hcall rfl
      simp only [letterCode] at hc hn
      have hlt : (fromCharCode (.int (letterCode .call + y - R))).toNat < 80 := by
        simp only [letterCode]; omega
      rw [if_pos hlt]
      simp only [letterCode, Prod.mk.injEq, true_and]
      omega
    · have hp := hput rfl
      simp only [letterCode] at hp hn
      have hlt : ¬ (fromCharCode (.int (letterCode .put + y - R))).toNat < 80 := by
        simp only [letterCode]; omega
      rw [if_neg hlt]
      simp only [letterCode, Prod.mk.injEq, true_and]
      omega
  · intro a rest m digits l ha hrest hrc hm hdg hd1 hd4 hl
    obtain ⟨htest, hparse⟩ := short_definition R a rest m digits l ha hrest hrc hm hdg hd1 hd4 hl
    have hfo : getIsFutureOption (.str (a :: rest ++ m :: digits ++ [l])) = true := by
      simp only [getIsFutureOption, is.string, JsValue.text, htest, Bool.true_or, Bool.and_self]
    have hl2 := (ci_isUpper_iff l).mp hl
    have eP : ('P' : Char).toNat = 80 := rfl
    have eC : ('C' : Char).toNat = 67 := rfl
    by_cases hlt : l.toNat < 80
    · have hp := producer_short_root R _ _ (a :: rest)
        ((R : Int) + ((l.toNat : Int) - 67)) .call hfo hparse rfl
        (by simp only [List.length_cons]; omega) (by simp [hlt]) (by simp [hlt])
      have hch : fromCharCode (.int (letterCode .call + ((R : Int) + ((l.toNat : Int) - 67)) - R))
          = l := by
        apply char_eq_of_toNat
        have e : letterCode .call + ((R : Int) + ((l.toNat : Int) - 67)) - R = (l.toNat : Int) := by
          simp only [letterCode]; omega
        rw [e]
        have := toNat_fromCharCode (l.toNat : Int) (by omega) (by omega)
        omega
      rw [hch] at hp
      refine ⟨_, .call, (R : Int) + ((l.toNat : Int) - 67), hparse, by simp [hlt],
        by simp [hlt], ?_, ?_⟩
      · rw [hp]; simp [JsValue.text]
      · simp only [decodeShortLetter, eP, eC, hlt, if_true]
        rfl
    · have hp := producer_short_root R _ _ (a :: rest)
        ((R : Int) + ((l.toNat : Int) - 80)) .put hfo hparse rfl
        (by simp only [List.length_cons]; omega) (by simp [hlt]) (by simp [hlt])
      have hch : fromCharCode (.int (letterCode .put + ((R : Int) + ((l.toNat : Int) - 80)) - R))
          = l := by
        apply char_eq_of_toNat
        have e : letterCode .put + ((R : Int) + ((l.toNat : Int) - 80)) - R = (l.toNat : Int) := by
          simp only [letterCode]; omega
        rw [e]
        have := toNat_fromCharCode (l.toNat : Int) (by omega) (by omega)
        omega
      rw [hch] at hp
      refine ⟨_, .put, (R : Int) + ((l.toNat : Int) - 80), hparse, by simp [hlt],
        by simp [hlt], ?_, ?_⟩
      · rw [hp]; simp [JsValue.text]
      · simp only [decodeShortLetter, eP, eC, hlt, if_false]
        rfl

/-- Witness of C12 (amended): the long-format put `ZCZ4|500P` of the reference year 2024
gives `ZCZ500P`, whose trailing letter decodes as a put of 2024. -/
theorem getProducerSymbol_short_root_witness :
    getIsFutureOption (.str "ZCZ4|500P".toList) = true
      ∧ (parseInstrumentType 2024 (.str "ZCZ4|500P".toList)).map
          (fun d => (d.root, d.option_type, d.year))
          = some (some "ZC".toList, some .put, some (.int 2024))
      ∧ (∃ ch, getProducerSymbol 2024 (.str "ZCZ4|500P".toList)
            = .ok (some ("ZC".toList ++ "Z".toList ++ "500".toList ++ [ch]))
          ∧ decodeShortLetter 2024 ch = (.put, 2024))
      ∧ getProducerSymbol 2024 (.str "ZCZ4|500P".toList) = .ok (some "ZCZ500P".toList) := by
  refine ⟨by decide, rfl, ?_, rfl⟩
  obtain ⟨ch, h1, -, h3⟩ := (getProducerSymbol_short_root 2024 "ZCZ4|500P".toList _
    "ZC".toList 2024 .put (by decide) rfl rfl (by decide) rfl rfl).1
  exact ⟨ch, h1, h3 (fun h => absurd h (by decide)) (fun _ => by decide)⟩

/-! ## The explicit format of a concrete future -/

theorem concrete_exec_shape (a : Char) (rest : List Char) (month : Char)
    (digits : List Char) (last : Char)
    (ha : ci isUpper a = true) (hrest : rest.length ≤ 2)
    (hrc : ∀ c ∈ rest, ci isRootChar c = true) (hm : ci isUpper month = true)
    (hd : ∀ c ∈ digits, isDigit c = true) (hl : isDigit last = true)
    (hlen : digits.length = 0 ∨ digits.length = 1 ∨ digits.length = 3) :
    ∃ mr, types.futures.concrete.exec (a :: rest ++ month :: digits ++ [last]) = some mr
      ∧ mr.captures 1 = some (a :: rest) ∧ mr.captures 2 = some [month]
      ∧ mr.captures 3 = some (digits ++ [last]) := by
  have hma := upper_isRootChar hm
  have hmd := upper_not_digit hm
  have hlu := digit_not_upper hl
  have hlr := digit_isRootChar hl
  rcases rest with _ | ⟨b, _ | ⟨c, _ | ⟨e, r⟩⟩⟩ <;>
    rcases digits with _ | ⟨x, _ | ⟨y, _ | ⟨z, _ | ⟨w, r2⟩⟩⟩⟩ <;>
    simp only [List.length_cons, List.length_nil, List.mem_cons, List.not_mem_nil,
      forall_eq_or_imp, or_false, false_or, IsEmpty.forall_iff, implies_true, and_true,
      Nat.reduceAdd, Nat.reduceLeDiff, Nat.reduceEqDiff, OfNat.ofNat_ne_zero,
      OfNat.zero_ne_ofNat, OfNat.ofNat_ne_one, Nat.succ_ne_self, or_self,
      Nat.le_refl, Nat.zero_le] at hrest hrc hd hlen <;>
    simp [*, Captures.set, Captures.empty, Pattern.exec, types.futures.concrete,
      Regex.matchHere, Regex.cat, futuresRoot, Regex.rep, Regex.times, Regex.upTo, Regex.opt,
      Regex.run, ci_isDigit, digit_not_upper, digit_isRootChar]

/-- A symbol accepted by the pattern of concrete futures is parsed by the parser of
concrete futures. -/
theorem parse_of_concrete (R : Nat) {s : List Char}
    (h : types.futures.concrete.test s = true) :
    parseInstrumentType R (.str s) = parsers.futureConcrete R s := by
  have h1 : types.futures.spread.test s = false := by
    rw [Bool.eq_false_iff]
    intro h2
    obtain ⟨c2, cs2, rfl, hc2⟩ := spread_first h2
    obtain ⟨a, l, e, -, ha, -⟩ := concrete_shape h
    cases e
    have := upper_toNat ha; omega
  rw [parseInstrumentType_eq_find]
  simp [extractors, List.find?, h1, h]

/-- The definition that the parser of concrete futures builds. -/
theorem concrete_definition (R : Nat) (a : Char) (rest : List Char) (month : Char)
    (digits : List Char) (last : Char)
    (ha : ci isUpper a = true) (hrest : rest.length ≤ 2)
    (hrc : ∀ c ∈ rest, ci isRootChar c = true) (hm : ci isUpper month = true)
    (hd : ∀ c ∈ digits, isDigit c = true) (hl : isDigit last = true)
    (hlen : digits.length = 0 ∨ digits.length = 1 ∨ digits.length = 3) :
    types.futures.concrete.test (a :: rest ++ month :: digits ++ [last]) = true
      ∧ parseInstrumentType R (.str (a :: rest ++ month :: digits ++ [last]))
        = some { symbol := a :: rest ++ month :: digits ++ [last], type := .future,
                 asset := some .FUTURE, dynamic := some false, root := some (a :: rest),
                 month := .str [month],
                 year := some (getFuturesYear R (digits ++ [last]) (.str [month])) } := by
  obtain ⟨mr, hexec, c1, c2, c3⟩ :=
    concrete_exec_shape a rest month digits last ha hrest hrc hm hd hl hlen
  have htest : types.futures.concrete.test (a :: rest ++ month :: digits ++ [last]) = true := by
    unfold Pattern.test; rw [hexec]; rfl
  refine ⟨htest, ?_⟩
  rw [parse_of_concrete R htest]
  simp only [parsers.futureConcrete, hexec, MatchResult.group, c1, c2, c3, Option.getD_some,
    JsValue.ofText]

theorem padLeft_twoDigits (n : Nat) (h : n < 100) :
    padLeft (JsNumber.int (n : Int)).toString 2 '0' = twoDigits n := by
  interval_cases n <;> rfl

theorem getFuturesYear_int (R : Nat) (ds : List Char) (hne : ds ≠ [])
    (hd : ∀ c ∈ ds, isDigit c = true) (monthCode : JsValue) :
    ∃ y : Int, getFuturesYear R ds monthCode = .int y
      ∧ (100 ≤ R ∨ 100 ≤ fromDigits 10 (ds.map (fun c => c.toNat - 48)) → 0 ≤ y) := by
  have hp := parseInt_of_digits ds hne hd
  generalize fromDigits 10 (ds.map (fun c => c.toNat - 48)) = v at hp
  simp only [getFuturesYear, hp]
  split_ifs <;> exact ⟨_, rfl, by omega⟩

theorem getFuturesYear_two (R : Nat) (c1 c2 : Char) (monthCode : JsValue)
    (h1 : isDigit c1 = true) (h2 : isDigit c2 = true) (hY : monthCode ≠ .str ['Y']) :
    getFuturesYear R [c1, c2] monthCode
      = .int (if R / 100 * 100 + (10 * (c1.toNat - 48) + (c2.toNat - 48)) ≤ R + 25
          then ((R / 100 * 100 + (10 * (c1.toNat - 48) + (c2.toNat - 48)) : Nat) : Int)
          else ((R / 100 * 100 + (10 * (c1.toNat - 48) + (c2.toNat - 48)) : Nat) : Int) - 100) := by
  have hp := parseInt_of_digits [c1, c2] (by simp) (by
    intro c hc
    simp only [List.mem_cons, List.mem_singleton, List.not_mem_nil, or_false] at hc
    rcases hc with rfl | rfl <;> assumption)
  have hd1 := digit_lt_ten h1
  have hd2 := digit_lt_ten h2
  simp only [List.map_cons, List.map_nil, fromDigits, List.foldl_cons, List.foldl_nil,
    Nat.zero_mul, Nat.zero_add] at hp
  have hlen : ¬ ([c1, c2].length = 1) := by simp
  have h100 : (((c1.toNat - 48) * 10 + (c2.toNat - 48) : Nat) : Int) < 100 := by omega
  simp only [getFuturesYear, hp, hY, and_false, if_false, hlen, h100, if_true]
  by_cases hb : R / 100 * 100 + (10 * (c1.toNat - 48) + (c2.toNat - 48)) ≤ R + 25
  · have hb2 : ¬ ((R : Int) + 25 < ((R / 100 * 100 : Nat) : Int)
        + (((c1.toNat - 48) * 10 + (c2.toNat - 48) : Nat) : Int)) := by omega
    simp only [hb, hb2, if_false, if_true]
    congr 1
    omega
  · have hb2 : ((R : Int) + 25 < ((R / 100 * 100 : Nat) : Int)
        + (((c1.toNat - 48) * 10 + (c2.toNat - 48) : Nat) : Int)) := by omega
    simp only [hb, hb2, if_false, if_true]
    congr 1
    omega

theorem isDigit_digitChar (k : Nat) (h : k < 10) :
    isDigit (Nat.digitChar k) = true ∧ (Nat.digitChar k).toNat - 48 = k := by
  interval_cases k <;> exact ⟨by decide, by decide⟩

/-- The explicit format of a concrete future whose parsed year is a non-negative
integer. -/
theorem explicit_format_shape (R : Nat) (a : Char) (rest : List Char) (month : Char)
    (digits : List Char) (last : Char)
    (ha : ci isUpper a = true) (hrest : rest.length ≤ 2)
    (hrc : ∀ c ∈ rest, ci isRootChar c = true) (hm : ci isUpper month = true)
    (hd : ∀ c ∈ digits, isDigit c = true) (hl : isDigit last = true)
    (hlen : digits.length = 0 ∨ digits.length = 1 ∨ digits.length = 3)
    (y : Int) (hy : getFuturesYear R (digits ++ [last]) (.str [month]) = .int y)
    (hy0 : 0 ≤ y) :
    getFuturesExplicitFormat R (.str (a :: rest ++ month :: digits ++ [last]))
      = .ok (some (a :: rest ++ month :: twoDigits (y % 100).toNat)) := by
  obtain ⟨htest, hparse⟩ := concrete_definition R a rest month digits last ha hrest hrc hm hd
    hl hlen
  obtain ⟨-, halias, -⟩ := converters_future_concrete a rest month digits last ha hrest hrc hm
    hd hl hlen
  have hrem : (JsNumber.int y).floorRem 100 = .int (((y % 100).toNat : Nat) : Int) := by
    simp only [JsNumber.floorRem, JsNumber.parts, pow_zero, mul_one]
    congr 1
    have e1 : Int.tmod y 100 = y % 100 := by
      rw [Int.tmod_eq_emod hy0 (by norm_num)]
    rw [e1]
    have e2 : (0 : Int) ≤ y % 100 := Int.emod_nonneg _ (by norm_num)
    have e3 : Int.fdiv (y % 100) 1 = y % 100 := by simp
    rw [e3]
    omega
  have hlt : (y % 100).toNat < 100 := by omega
  simp only [getFuturesExplicitFormat, getIsFuture, getIsConcrete, getIsReference, is.string,
    JsValue.text, htest, halias, hparse, hy, toNumber, Option.getD_some, hrem,
    padLeft_twoDigits _ hlt, JsValue.ofText, Bool.true_or, Bool.not_false, Bool.and_self,
    if_true]
  simp

/-- C14. For every concrete future symbol with a four-digit year and a month letter
other than `Y`, and every reference year `R`, the parsed year is an integer `y`, which
is not negative when `R` is at least 100 or the value of the four digits is at least
100; when `y` is not negative, `getFuturesExplicitFormat` returns the root, the month
letter and `y` modulo 100 written as two digits; and when `y` lies in the century of
`R` and is at most `R + 25`, parsing that explicit form yields the year `y` again. -/
theorem getFuturesExplicitFormat_four_digits (R : Nat) (a : Char) (rest : List Char)
    (m d1 d2 d3 d4 : Char)
    (ha : ci isUpper a = true) (hrest : rest.length ≤ 2)
    (hrc : ∀ c ∈ rest, ci isRootChar c = true) (hm : ci isUpper m = true)
    (h1 : isDigit d1 = true) (h2 : isDigit d2 = true) (h3 : isDigit d3 = true)
    (h4 : isDigit d4 = true) (hY : m ≠ 'Y') :
    ∃ y : Int,
      (parseInstrumentType R (.str (a :: rest ++ m :: [d1, d2, d3] ++ [d4]))).map
          Definition.year = some (some (.int y))
        ∧ (100 ≤ R ∨ 100 ≤ 1000 * (d1.toNat - 48) + 100 * (d2.toNat - 48)
              + 10 * (d3.toNat - 48) + (d4.toNat - 48) → 0 ≤ y)
        ∧ (0 ≤ y → getFuturesExplicitFormat R (.str (a :: rest ++ m :: [d1, d2, d3] ++ [d4]))
            = .ok (some (a :: rest ++ m :: twoDigits (y % 100).toNat)))
        ∧ (y / 100 = ((R / 100 : Nat) : Int) → y ≤ (R : Int) + 25 →
            (parseInstrumentType R (.str (a :: rest ++ m :: twoDigits (y % 100).toNat))).map
              Definition.year = some (some (.int y))) := by
  have hd : ∀ c ∈ [d1, d2, d3], isDigit c = true := by
    intro c hc
    simp only [List.mem_cons, List.mem_singleton, List.not_mem_nil, or_false] at hc
    rcases hc with rfl | rfl | rfl <;> assumption
  have hd4 : ∀ c ∈ [d1, d2, d3] ++ [d4], isDigit c = true := by
    intro c hc
    simp only [List.cons_append, List.nil_append, List.mem_cons, List.mem_singleton,
      List.not_mem_nil, or_false] at hc
    rcases hc with rfl | rfl | rfl | rfl <;> assumption
  obtain ⟨y, hy, hpos⟩ := getFuturesYear_int R ([d1, d2, d3] ++ [d4]) (by simp) hd4 (.str [m])
  obtain ⟨-, hparse⟩ := concrete_definition R a rest m [d1, d2, d3] d4 ha hrest hrc hm hd h4
    (by simp)
  refine ⟨y, ?_, ?_, ?_, ?_⟩
  · rw [hparse, hy]; rfl
  · intro h
    apply hpos
    rcases h with h | h
    · exact Or.inl h
    · right
      simp only [List.cons_append, List.nil_append, List.map_cons, List.map_nil, fromDigits,
        List.foldl_cons, List.foldl_nil, Nat.zero_mul, Nat.zero_add]
      omega
  · intro hy0
    exact explicit_format_shape R a rest m [d1, d2, d3] d4 ha hrest hrc hm hd h4 (by simp) y hy
      hy0
  · intro hcent hle
    have hy0 : 0 ≤ y := by omega
    have hlt : (y % 100).toNat < 100 := by omega
    obtain ⟨g1, v1⟩ := isDigit_digitChar ((y % 100).toNat / 10) (by omega)
    obtain ⟨g2, v2⟩ := isDigit_digitChar ((y % 100).toNat % 10) (by omega)
    obtain ⟨-, hparse2⟩ := concrete_definition R a rest m [Nat.digitChar ((y % 100).toNat / 10)]
      (Nat.digitChar ((y % 100).toNat % 10)) ha hrest hrc hm (by simpa using g1) g2 (by simp)
    have hmc : JsValue.str [m] ≠ .str ['Y'] := by
      intro e
      simp only [JsValue.str.injEq, List.cons.injEq, and_true] at e
      exact hY e
    have hyear := getFuturesYear_two R _ _ (.str [m]) g1 g2 hmc
    have e : a :: rest ++ m :: twoDigits (y % 100).toNat
        = a :: rest ++ m :: [Nat.digitChar ((y % 100).toNat / 10)]
          ++ [Nat.digitChar ((y % 100).toNat % 10)] := by
      simp [twoDigits]
    rw [e, hparse2]
    simp only [Option.map_some', List.singleton_append, hyear, v1, v2, Option.some.injEq,
      JsNumber.int.injEq]
    split_ifs <;> omega

/-- Witness of C14: `ZCZ2024` has the explicit form `ZCZ24`, which is parsed with the
year 2024 when the reference year is 2024. -/
theorem getFuturesExplicitFormat_four_digits_witness :
    (ci isUpper 'Z' = true ∧ ['C'].length ≤ 2 ∧ (∀ c ∈ ['C'], ci isRootChar c = true)
        ∧ isDigit '2' = true ∧ isDigit '0' = true ∧ isDigit '4' = true ∧ 'Z' ≠ 'Y')
      ∧ (∃ y : Int,
          (parseInstrumentType 2024 (.str ('Z' :: ['C'] ++ 'Z' :: ['2', '0', '2'] ++ ['4']))).map
              Definition.year = some (some (.int y))
            ∧ (100 ≤ 2024 ∨ 100 ≤ 1000 * (('2' : Char).toNat - 48)
                  + 100 * (('0' : Char).toNat - 48)
                  + 10 * (('2' : Char).toNat - 48) + (('4' : Char).toNat - 48) → 0 ≤ y)
            ∧ (0 ≤ y → getFuturesExplicitFormat 2024
                  (.str ('Z' :: ['C'] ++ 'Z' :: ['2', '0', '2'] ++ ['4']))
                = .ok (some ('Z' :: ['C'] ++ 'Z' :: twoDigits (y % 100).toNat)))
            ∧ (y / 100 = ((2024 / 100 : Nat) : Int) → y ≤ ((2024 : Nat) : Int) + 25 →
                (parseInstrumentType 2024
                    (.str ('Z' :: ['C'] ++ 'Z' :: twoDigits (y % 100).toNat))).map
                  Definition.year = some (some (.int y))))
      ∧ getFuturesExplicitFormat 2024 (.str "ZCZ2024".toList) = .ok (some "ZCZ24".toList)
      ∧ (parseInstrumentType 2024 (.str "ZCZ2024".toList)).map Definition.year
          = some (some (.int 2024))
      ∧ (parseInstrumentType 2024 (.str "ZCZ24".toList)).map Definition.year
          = some (some (.int 2024)) :=
  ⟨⟨by decide, by decide, by decide, by decide, by decide, by decide, by decide⟩,
    getFuturesExplicitFormat_four_digits 2024 'Z' ['C'] 'Z' '2' '0' '2' '4' (by decide)
      (by decide) (by decide) (by decide) (by decide) (by decide) (by decide) (by decide)
      (by decide),
    rfl, rfl, rfl⟩

/-! ## Equity options -/

/-- A greedy repetition takes a whole run of characters of its class when the character
after the run is outside the class and the rest of the pattern matches there. -/
theorem Regex.runMany_append {α : Type} (p : Char → Bool) (pre rest : List Char)
    (caps : Captures) (k : List Char → Captures → Option α) (x : α)
    (hpre : ∀ c ∈ pre, p c = true) (hhead : ∀ c, rest.head? = some c → p c = false)
    (hk : k rest caps = some x) : Regex.runMany p (pre ++ rest) caps k = some x := by
  induction pre with
  | nil =>
    cases rest with
    | nil => exact hk
    | cons c cs =>
      have hc : p c = false := hhead c rfl
      simp [Regex.runMany, hc, hk]
  | cons d ds ih =>
    have hd : p d = true := hpre d (by simp)
    have := ih (fun c hc => hpre c (by simp [hc]))
    simp [Regex.runMany, hd, this]

theorem take_length_sub (pre rest : List Char) :
    (pre ++ rest).take ((pre ++ rest).length - rest.length) = pre := by
  simp

/-- The end of the equity-option pattern, `[P|W]?(C|P)`, on the letter `C` or `P`. -/
theorem equity_tail (cp : Char) (hcp : cp = 'C' ∨ cp = 'P') (caps : Captures) :
    (Regex.cat [.opt (.cls (ci (fun c => chr 'P' c || chr '|' c || chr 'W' c))),
        .group 9 (.alt (.cls (ci (chr 'C'))) (.cls (ci (chr 'P'))))]).run [cp] caps
      (fun rest caps1 => some (MatchResult.mk [] rest caps1))
      = some ⟨[], [], caps.set 9 [cp]⟩ := by
  rcases hcp with rfl | rfl
  · have f1 : ci (fun c => chr 'P' c || chr '|' c || chr 'W' c) 'C' = false := by decide
    have f2 : ci (chr 'C') 'C' = true := by decide
    simp [Regex.cat, Regex.opt, Regex.run, f1, f2]
  · have f1 : ci (fun c => chr 'P' c || chr '|' c || chr 'W' c) 'P' = true := by decide
    have f2 : ci (chr 'C') 'P' = false := by decide
    have f3 : ci (chr 'P') 'P' = true := by decide
    simp [Regex.cat, Regex.opt, Regex.run, f1, f2, f3]

theorem equity_strike (i0 : Char) (itail : List Char) (f0 : Char) (ftail : List Char)
    (cp : Char) (caps : Captures)
    (hi0 : isDigit i0 = true) (hi : ∀ c ∈ itail, isDigit c = true)
    (hf0 : isDigit f0 = true) (hf : ∀ c ∈ ftail, isDigit c = true)
    (hcp : cp = 'C' ∨ cp = 'P') :
    (Regex.cat [
        .group 8 (.cat [.plus (ci isDigit), .cls (ci (chr '.')), .plus (ci isDigit)]),
        .opt (.cls (ci (fun c => chr 'P' c || chr '|' c || chr 'W' c))),
        .group 9 (.alt (.cls (ci (chr 'C'))) (.cls (ci (chr 'P'))))]).run
      (i0 :: (itail ++ '.' :: f0 :: (ftail ++ [cp]))) caps
      (fun rest caps1 => some (MatchResult.mk [] rest caps1))
      = some ⟨[], [], (caps.set 8 (i0 :: (itail ++ '.' :: f0 :: ftail))).set 9 [cp]⟩ := by
  have hcpd : ci isDigit cp = false := by rcases hcp with rfl | rfl <;> decide
  have hdot : ci isDigit '.' = false := by decide
  have hdot2 : ci (chr '.') '.' = true := by decide
  have tail := equity_tail cp hcp
  simp only [Regex.cat] at tail
  simp only [Regex.cat, Regex.plus]
  rw [Regex.run, Regex.run, Regex.run, Regex.run]
  simp only [Regex.run, ci_isDigit, hi0, if_true]
  refine Regex.runMany_append _ itail _ _ _ _ (fun c hc => by rw [ci_isDigit]; exact hi c hc)
    (fun c hc => by cases hc; exact hdot) ?_
  simp only [Regex.run, hdot2, hf0, if_true]
  refine Regex.runMany_append _ ftail _ _ _ _ (fun c hc => by rw [ci_isDigit]; exact hf c hc)
    (fun c hc => by cases hc; exact hcpd) ?_
  have e : (i0 :: (itail ++ '.' :: f0 :: (ftail ++ [cp]))).take
      ((i0 :: (itail ++ '.' :: f0 :: (ftail ++ [cp]))).length - [cp].length)
      = i0 :: (itail ++ '.' :: f0 :: ftail) := by
    have e0 : i0 :: (itail ++ '.' :: f0 :: (ftail ++ [cp]))
        = (i0 :: (itail ++ '.' :: f0 :: ftail)) ++ [cp] := by simp
    rw [e0]
    exact take_length_sub _ _
  rw [e]
  exact tail _

/-- The match of the equity-option pattern on a symbol `ROOT|YYYYMMDD|STRIKE` followed by
`C` or `P`: the whole symbol is matched, groups 2 and 4 take no part and group 3 is
empty. -/
theorem equity_exec (r0 : Char) (rtail : List Char) (y1 y2 y3 y4 m1 m2 d1 d2 : Char)
    (i0 : Char) (itail : List Char) (f0 : Char) (ftail : List Char) (cp : Char)
    (hr0 : ci isUpper r0 = true)
    (hr : ∀ c ∈ rtail, ci (fun c => isUpper c || chr '-' c) c = true)
    (hy1 : isDigit y1 = true) (hy2 : isDigit y2 = true) (hy3 : isDigit y3 = true)
    (hy4 : isDigit y4 = true) (hm1 : isDigit m1 = true) (hm2 : isDigit m2 = true)
    (hd1 : isDigit d1 = true) (hd2 : isDigit d2 = true)
    (hi0 : isDigit i0 = true) (hi : ∀ c ∈ itail, isDigit c = true)
    (hf0 : isDigit f0 = true) (hf : ∀ c ∈ ftail, isDigit c = true)
    (hcp : cp = 'C' ∨ cp = 'P') :
    types.equities.options.exec
      (r0 :: (rtail ++ '|' :: y1 :: y2 :: y3 :: y4 :: m1 :: m2 :: d1 :: d2 :: '|'
        :: i0 :: (itail ++ '.' :: f0 :: (ftail ++ [cp]))))
      = some ⟨[], [], ((((((Captures.empty.set 1 (r0 :: rtail)).set 3 []).set 5
          [y1, y2, y3, y4]).set 6 [m1, m2]).set 7 [d1, d2]).set 8
          (i0 :: (itail ++ '.' :: f0 :: ftail))).set 9 [cp]⟩ := by
  have c1 : ci (fun c => isUpper c || chr '$' c) r0 = true := by
    have : ci isUpper r0 = isUpper (canonicalize r0) := rfl
    rw [this] at hr0
    show (isUpper (canonicalize r0) || chr '$' (canonicalize r0)) = true
    rw [hr0]; rfl
  have cd : ∀ c, isDigit c = true → ci (fun c => chr '[' c || isDigit c) c = true := by
    intro c hc
    have h1 : ci isDigit c = true := by rw [ci_isDigit]; exact hc
    have : ci isDigit c = isDigit (canonicalize c) := rfl
    rw [this] at h1
    show (chr '[' (canonicalize c) || isDigit (canonicalize c)) = true
    rw [h1]; simp
  have b1 : ci (fun c => isUpper c || chr '-' c) '|' = false := by decide
  have b2 : ci (chr '.') '|' = false := by decide
  have b3 : ci isDigit '|' = false := by decide
  have b4 : ci (chr '|') '|' = true := by decide
  have strike := equity_strike i0 itail f0 ftail cp
  obtain ⟨T, hT⟩ : ∃ T : Regex, T = Regex.cat [
      .group 8 (.cat [.plus (ci isDigit), .cls (ci (chr '.')), .plus (ci isDigit)]),
      .opt (.cls (ci (fun c => chr 'P' c || chr '|' c || chr 'W' c))),
      .group 9 (.alt (.cls (ci (chr 'C'))) (.cls (ci (chr 'P'))))] := ⟨_, rfl⟩
  rw [← hT] at strike
  simp only [Regex.cat, Regex.opt] at hT
  unfold Pattern.exec Regex.matchHere
  simp only [types.equities.options, Regex.cat, Regex.opt, Regex.times, if_true]
  rw [← hT]
  simp only [Regex.run, c1, if_true]
  refine Regex.runMany_append _ rtail _ _ _ _ hr (fun c hc => by cases hc; exact b1) ?_
  simp only [Regex.run, b2, b3, b4, cd y1 hy1, cd y2 hy2, cd y3 hy3, cd y4 hy4, cd m1 hm1,
    cd m2 hm2, cd d1 hd1, cd d2 hd2, if_true, Bool.false_eq_true, if_false]
  rw [strike _ hi0 hi hf0 hf hcp]
  have e1 : ∀ R : List Char,
      (r0 :: (rtail ++ R)).take ((r0 :: (rtail ++ R)).length - R.length) = r0 :: rtail :=
    fun R => take_length_sub (r0 :: rtail) R
  have e3 : ∀ R : List Char, R.take (R.length - R.length) = [] := by simp
  have e4 : ∀ (a b c d : Char) (R : List Char),
      (a :: b :: c :: d :: R).take ((a :: b :: c :: d :: R).length - R.length)
        = [a, b, c, d] :=
    fun a b c d R => take_length_sub [a, b, c, d] R
  have e2 : ∀ (a b : Char) (R : List Char),
      (a :: b :: R).take ((a :: b :: R).length - R.length) = [a, b] :=
    fun a b R => take_length_sub [a, b] R
  simp only [e1, e3, e4, e2]

theorem JsNumber.ofDecimal_toRat (m : Int) (s : Nat) :
    (JsNumber.ofDecimal m s).toRat = some ((m : ℚ) / 10 ^ s) := by
  induction s generalizing m with
  | zero => simp [JsNumber.ofDecimal, JsNumber.toRat]
  | succ s ih =>
    unfold JsNumber.ofDecimal
    split
    · rename_i h
      rw [ih]
      have hm : m = 10 * (m / 10) := by omega
      have hq : (m : ℚ) = 10 * ((m / 10 : Int) : ℚ) := by
        conv_lhs => rw [hm]
        push_cast
        ring
      rw [hq, pow_succ]
      congr 1
      field_simp
      ring
    · rfl

theorem foldl_digits (radix : Nat) (b : List Nat) (x : Nat) :
    b.foldl (fun acc d => acc * radix + d) x = x * radix ^ b.length + fromDigits radix b := by
  induction b generalizing x with
  | nil => simp [fromDigits]
  | cons d ds ih =>
    simp only [List.foldl_cons, List.length_cons, fromDigits]
    rw [ih, ih (0 * radix + d)]
    ring

theorem fromDigits_append (radix : Nat) (a b : List Nat) :
    fromDigits radix (a ++ b) = fromDigits radix a * radix ^ b.length + fromDigits radix b := by
  unfold fromDigits
  rw [List.foldl_append, foldl_digits]
  rfl

theorem leadingDigits_stop (pre : List Char) (c : Char) (rest : List Char)
    (h : ∀ x ∈ pre, isDigit x = true) (hc : digitValue 10 c = none) :
    leadingDigits 10 (pre ++ c :: rest) = pre.map (fun c => c.toNat - 48) := by
  induction pre with
  | nil => simp [leadingDigits, hc]
  | cons d ds ih =>
    have hd := digitValue_ten_of_isDigit (h d (by simp))
    rw [List.cons_append]
    simp only [leadingDigits, hd, List.map_cons]
    exact congrArg _ (ih (fun x hx => h x (by simp [hx])))

/-- The value read by `parseFloat` from digits, a point and digits. -/
theorem parseFloat_of_decimal (i0 : Char) (itail fracs : List Char)
    (hi0 : isDigit i0 = true) (hi : ∀ c ∈ itail, isDigit c = true)
    (hf : ∀ c ∈ fracs, isDigit c = true) :
    parseFloat (i0 :: (itail ++ '.' :: fracs))
      = .ofDecimal (Int.ofNat (fromDigits 10 (digitValues (i0 :: itail) ++ digitValues fracs)))
          fracs.length := by
  have hminus : i0 ≠ '-' := by
    intro e; rw [e] at hi0; exact absurd hi0 (by decide)
  have hplus : i0 ≠ '+' := by
    intro e; rw [e] at hi0; exact absurd hi0 (by decide)
  have hsplit : (match i0 :: (itail ++ '.' :: fracs) with
      | '-' :: rest => (true, rest)
      | '+' :: rest => (false, rest)
      | rest => (false, rest)) = ((false, i0 :: (itail ++ '.' :: fracs)) : Bool × List Char) := by
    split
    · rename_i rest heq
      exact absurd (List.cons.inj heq).1 hminus
    · rename_i rest heq
      exact absurd (List.cons.inj heq).1 hplus
    · rfl
  have hall : ∀ c ∈ i0 :: itail, isDigit c = true := by
    intro c hc
    rcases List.mem_cons.1 hc with rfl | hc
    · exact hi0
    · exact hi c hc
  have hw : leadingDigits 10 (i0 :: (itail ++ '.' :: fracs)) = digitValues (i0 :: itail) :=
    leadingDigits_stop (i0 :: itail) '.' fracs hall (by decide)
  have hdrop : (i0 :: (itail ++ '.' :: fracs)).drop (digitValues (i0 :: itail)).length
      = '.' :: fracs := by
    simp [digitValues]
  have hfr : leadingDigits 10 fracs = digitValues fracs := leadingDigits_of_digits fracs hf
  unfold parseFloat
  rw [trimStart_of_digit _ hi0]
  simp only [hsplit, hw, hdrop, hfr]
  simp [digitValues]

theorem list_of_length_two {l : List Char} (h : l.length = 2) : ∃ a b, l = [a, b] := by
  match l, h with
  | [a, b], _ => exact ⟨a, b, rfl⟩

theorem list_of_length_four {l : List Char} (h : l.length = 4) :
    ∃ a b c d, l = [a, b, c, d] := by
  match l, h with
  | [a, b, c, d], _ => exact ⟨a, b, c, d, rfl⟩

/-- A symbol that starts with a letter and ends with `C` or `P`, and that the pattern of
equity options accepts, is parsed by the parser of equity options. -/
theorem parse_of_equity (R : Nat) (r0 : Char) (body : List Char) (cp : Char)
    (hr0 : ci isUpper r0 = true) (hcp : cp = 'C' ∨ cp = 'P')
    (h : types.equities.options.test (r0 :: (body ++ [cp])) = true) :
    parseInstrumentType R (.str (r0 :: (body ++ [cp])))
      = parsers.equityOption (r0 :: (body ++ [cp])) := by
  have hau := upper_toNat hr0
  have hlast : (r0 :: (body ++ [cp])).getLast? = some cp := by
    rw [← List.cons_append, List.getLast?_concat]
  have hcpd : isDigit cp = false := by rcases hcp with rfl | rfl <;> decide
  have h1 : types.futures.spread.test (r0 :: (body ++ [cp])) = false := by
    rw [Bool.eq_false_iff]; intro h2
    obtain ⟨c2, cs2, he, hc2⟩ := spread_first h2
    cases he; omega
  have h2 : types.futures.concrete.test (r0 :: (body ++ [cp])) = false := by
    rw [Bool.eq_false_iff]; intro h2
    obtain ⟨a2, l2, -, hlast2, -, hd⟩ := concrete_shape h2
    rw [hlast] at hlast2; cases hlast2
    rw [hd] at hcpd; exact absurd hcpd (by simp)
  have h3 : types.futures.alias.test (r0 :: (body ++ [cp])) = false := by
    rw [Bool.eq_false_iff]; intro h2
    obtain ⟨a2, l2, -, hlast2, -, hd⟩ := alias_shape h2
    rw [hlast] at hlast2; cases hlast2
    rw [hd] at hcpd; exact absurd hcpd (by simp)
  have h4 : types.forex.test (r0 :: (body ++ [cp])) = false := by
    rw [Bool.eq_false_iff]; intro h2
    obtain ⟨c2, cs2, he, hc2⟩ := forex_first h2
    cases he; omega
  rw [parseInstrumentType_eq_find]
  simp [extractors, List.find?, h1, h2, h3, h4, h]

/-- C15. For every symbol `ROOT|YYYYMMDD|STRIKE` followed by `C` or `P`, where ROOT is a
letter followed by letters or hyphens, YYYY, MM and DD are four, two and two decimal
digits and STRIKE is digits, a point and digits, `parseInstrumentType` gives a definition
of type equity_option whose root is ROOT, whose year, month and day are the numbers
written by YYYY, MM and DD, whose strike is the number written by STRIKE (its integer
part plus its fraction), whose option type is call for `C` and put for `P`, and which is
not adjusted. The strike is the exact decimal number: the rounding of `parseFloat` to a
floating-point number is not part of the model. -/
theorem parseInstrumentType_equity_option (R : Nat) (r0 : Char)
    (rtail yyyy mm dd ints fracs : List Char) (cp : Char)
    (hr0 : ci isUpper r0 = true)
    (hr : ∀ c ∈ rtail, ci isUpper c = true ∨ c = '-')
    (hyyyy : yyyy.length = 4 ∧ ∀ c ∈ yyyy, isDigit c = true)
    (hmm : mm.length = 2 ∧ ∀ c ∈ mm, isDigit c = true)
    (hdd : dd.length = 2 ∧ ∀ c ∈ dd, isDigit c = true)
    (hints : ints ≠ [] ∧ ∀ c ∈ ints, isDigit c = true)
    (hfracs : fracs ≠ [] ∧ ∀ c ∈ fracs, isDigit c = true)
    (hcp : cp = 'C' ∨ cp = 'P') :
    ∃ d strike,
      parseInstrumentType R
          (.str (r0 :: rtail ++ '|' :: (yyyy ++ mm ++ dd) ++ '|' :: ints ++ '.' :: fracs
            ++ [cp])) = some d
        ∧ d.type = .equity_option
        ∧ d.root = some (r0 :: rtail)
        ∧ d.year = some (.int (fromDigits 10 (digitValues yyyy) : Nat))
        ∧ d.month = .num (.int (fromDigits 10 (digitValues mm) : Nat))
        ∧ d.day = some (.int (fromDigits 10 (digitValues dd) : Nat))
        ∧ d.strike = some strike
        ∧ strike.toRat = some ((fromDigits 10 (digitValues ints) : ℚ)
            + (fromDigits 10 (digitValues fracs) : ℚ) / 10 ^ fracs.length)
        ∧ d.option_type = some (if cp = 'C' then .call else .put)
        ∧ d.adjusted = some false := by
  obtain ⟨hylen, hy⟩ := hyyyy
  obtain ⟨hmlen, hm⟩ := hmm
  obtain ⟨hdlen, hd⟩ := hdd
  obtain ⟨hine, hi⟩ := hints
  obtain ⟨hfne, hf⟩ := hfracs
  obtain ⟨y1, y2, y3, y4, rfl⟩ := list_of_length_four hylen
  obtain ⟨m1, m2, rfl⟩ := list_of_length_two hmlen
  obtain ⟨d1, d2, rfl⟩ := list_of_length_two hdlen
  obtain ⟨i0, itail, rfl⟩ := List.exists_cons_of_ne_nil hine
  obtain ⟨f0, ftail, rfl⟩ := List.exists_cons_of_ne_nil hfne
  have hs : r0 :: rtail ++ '|' :: ([y1, y2, y3, y4] ++ [m1, m2] ++ [d1, d2])
      ++ '|' :: (i0 :: itail) ++ '.' :: (f0 :: ftail) ++ [cp]
      = r0 :: (rtail ++ '|' :: y1 :: y2 :: y3 :: y4 :: m1 :: m2 :: d1 :: d2 :: '|'
        :: i0 :: (itail ++ '.' :: f0 :: (ftail ++ [cp]))) := by simp
  have hs2 : r0 :: (rtail ++ '|' :: y1 :: y2 :: y3 :: y4 :: m1 :: m2 :: d1 :: d2 :: '|'
        :: i0 :: (itail ++ '.' :: f0 :: (ftail ++ [cp])))
      = r0 :: ((rtail ++ '|' :: y1 :: y2 :: y3 :: y4 :: m1 :: m2 :: d1 :: d2 :: '|'
        :: i0 :: (itail ++ '.' :: f0 :: ftail)) ++ [cp]) := by simp
  have hr2 : ∀ c ∈ rtail, ci (fun c => isUpper c || chr '-' c) c = true := by
    intro c hc
    rcases hr c hc with h | rfl
    · have : ci isUpper c = isUpper (canonicalize c) := rfl
      rw [this] at h
      show (isUpper (canonicalize c) || chr '-' (canonicalize c)) = true
      rw [h]; rfl
    · decide
  have hexec := equity_exec r0 rtail y1 y2 y3 y4 m1 m2 d1 d2 i0 itail f0 ftail cp hr0 hr2
    (hy y1 (by simp)) (hy y2 (by simp)) (hy y3 (by simp)) (hy y4 (by simp))
    (hm m1 (by simp)) (hm m2 (by simp)) (hd d1 (by simp)) (hd d2 (by simp))
    (hi i0 (by simp)) (fun c hc => hi c (by simp [hc]))
    (hf f0 (by simp)) (fun c hc => hf c (by simp [hc])) hcp
  have htest : types.equities.options.test
      (r0 :: (rtail ++ '|' :: y1 :: y2 :: y3 :: y4 :: m1 :: m2 :: d1 :: d2 :: '|'
        :: i0 :: (itail ++ '.' :: f0 :: (ftail ++ [cp])))) = true := by
    unfold Pattern.test; rw [hexec]; rfl
  have hparse := parse_of_equity R r0 _ cp hr0 hcp (hs2 ▸ htest)
  rw [← hs2] at hparse
  rw [hs, hparse]
  unfold parsers.equityOption
  rw [hexec]
  have hfloat := parseFloat_of_decimal i0 itail (f0 :: ftail) (hi i0 (by simp))
    (fun c hc => hi c (by simp [hc])) hf
  refine ⟨_, parseFloat (i0 :: (itail ++ '.' :: f0 :: ftail)), rfl, rfl, ?_, ?_, ?_, ?_, ?_,
    ?_, ?_, ?_⟩
  · simp [Captures.set, Captures.empty, JsValue.ofText, JsValue.text]
  · simp only [MatchResult.group, Captures.set]
    simp only [if_neg (by decide : ¬ (5 : Nat) = 9), if_neg (by decide : ¬ (5 : Nat) = 8),
      if_neg (by decide : ¬ (5 : Nat) = 7), if_neg (by decide : ¬ (5 : Nat) = 6), if_true,
      Option.getD_some]
    rw [parseInt_of_digits _ (by simp) hy]
    rfl
  · simp only [MatchResult.group, Captures.set]
    simp only [if_neg (by decide : ¬ (6 : Nat) = 9), if_neg (by decide : ¬ (6 : Nat) = 8),
      if_neg (by decide : ¬ (6 : Nat) = 7), if_true, Option.getD_some]
    rw [parseInt_of_digits _ (by simp) hm]
    rfl
  · simp only [MatchResult.group, Captures.set]
    simp only [if_neg (by decide : ¬ (7 : Nat) = 9), if_neg (by decide : ¬ (7 : Nat) = 8),
      if_true, Option.getD_some]
    rw [parseInt_of_digits _ (by simp) hd]
    rfl
  · simp [MatchResult.group, Captures.set]
  · rw [hfloat, JsNumber.ofDecimal_toRat]
    have hlen : (digitValues (f0 :: ftail)).length = (f0 :: ftail).length := by
      simp [digitValues]
    rw [fromDigits_append, hlen]
    have h10 : ((10 : ℚ) ^ (f0 :: ftail).length) ≠ 0 := by positivity
    simp only [Int.ofNat_eq_coe, Int.cast_natCast]
    push_cast
    field_simp
  · rcases hcp with rfl | rfl <;> simp [Captures.set]
  · simp [Captures.set]

/-- Witness of C15: `AAPL|20240119|150.00C` is an equity option on `AAPL`, a call with
strike 150 for 19 January 2024, not adjusted. -/
theorem parseInstrumentType_equity_option_witness :
    (ci isUpper 'A' = true ∧ (∀ c ∈ ['A', 'P', 'L'], ci isUpper c = true ∨ c = '-')
        ∧ (['2', '0', '2', '4'].length = 4 ∧ ∀ c ∈ ['2', '0', '2', '4'], isDigit c = true)
        ∧ (['0', '1'].length = 2 ∧ ∀ c ∈ ['0', '1'], isDigit c = true)
        ∧ (['1', '9'].length = 2 ∧ ∀ c ∈ ['1', '9'], isDigit c = true)
        ∧ (['1', '5', '0'] ≠ [] ∧ ∀ c ∈ ['1', '5', '0'], isDigit c = true)
        ∧ (['0', '0'] ≠ [] ∧ ∀ c ∈ ['0', '0'], isDigit c = true)
        ∧ ('C' = 'C' ∨ 'C' = 'P'))
      ∧ (∃ d strike,
          parseInstrumentType 2024
              (.str ('A' :: ['A', 'P', 'L'] ++ '|' :: (['2', '0', '2', '4'] ++ ['0', '1']
                ++ ['1', '9']) ++ '|' :: ['1', '5', '0'] ++ '.' :: ['0', '0'] ++ ['C']))
              = some d
            ∧ d.type = .equity_option
            ∧ d.root = some ('A' :: ['A', 'P', 'L'])
            ∧ d.year = some (.int (fromDigits 10 (digitValues ['2', '0', '2', '4']) : Nat))
            ∧ d.month = .num (.int (fromDigits 10 (digitValues ['0', '1']) : Nat))
            ∧ d.day = some (.int (fromDigits 10 (digitValues ['1', '9']) : Nat))
            ∧ d.strike = some strike
            ∧ strike.toRat = some ((fromDigits 10 (digitValues ['1', '5', '0']) : ℚ)
                + (fromDigits 10 (digitValues ['0', '0']) : ℚ) / 10 ^ ['0', '0'].length)
            ∧ d.option_type = some (if 'C' = 'C' then .call else .put)
            ∧ d.adjusted = some false)
      ∧ parseInstrumentType 2024 (.str "AAPL|20240119|150.00C".toList)
          = some { symbol := "AAPL|20240119|150.00C".toList, type := .equity_option,
                   asset := some .STOCK_OPTION, root := some "AAPL".toList,
                   month := .num (.int 1), day := some (.int 19), year := some (.int 2024),
                   option_type := some .call, strike := some (.int 150),
                   adjusted := some false }
      ∧ parseInstrumentType 2024 (.str "AAPL|20240119|150.25P".toList)
          = some { symbol := "AAPL|20240119|150.25P".toList, type := .equity_option,
                   asset := some .STOCK_OPTION, root := some "AAPL".toList,
                   month := .num (.int 1), day := some (.int 19), year := some (.int 2024),
                   option_type := some .put, strike := some (.dec 15025 2),
                   adjusted := some false } :=
  ⟨⟨by decide, by decide, by decide, by decide, by decide, by decide, by decide,
      by decide⟩,
    parseInstrumentType_equity_option 2024 'A' ['A', 'P', 'L'] ['2', '0', '2', '4']
      ['0', '1'] ['1', '9'] ['1', '5', '0'] ['0', '0'] 'C' (by decide) (by decide)
      (by decide) (by decide) (by decide) (by decide) (by decide) (by decide),
    rfl, rfl⟩

/-! ## Letter case -/

/-- C16. The comparisons of the call/put letter are case-sensitive although every pattern
carries the flag `i`: for every reference year, the lower-case symbols
`AAPL|20240119|150.00c`, `ZCZ24|500c` and `ZCZ500c` are accepted with the same type as
their upper-case forms, but they are read as puts where the upper-case forms are calls,
and `ZCZ500c` also gets another year (19 years after the reference year instead of the
reference year itself). The upper-case form of a symbol is taken letter by letter with
`canonicalize`. -/
theorem parseInstrumentType_letter_case (R : Nat) :
    ("AAPL|20240119|150.00c".toList.map canonicalize = "AAPL|20240119|150.00C".toList
        ∧ (parseInstrumentType R (.str "AAPL|20240119|150.00c".toList)).map
            (fun d => (d.type, d.option_type, d.strike, d.year))
          = some (.equity_option, some .put, some (.int 150), some (.int 2024))
        ∧ (parseInstrumentType R (.str "AAPL|20240119|150.00C".toList)).map
            (fun d => (d.type, d.option_type, d.strike, d.year))
          = some (.equity_option, some .call, some (.int 150), some (.int 2024)))
      ∧ ("ZCZ24|500c".toList.map canonicalize = "ZCZ24|500C".toList
        ∧ (parseInstrumentType R (.str "ZCZ24|500c".toList)).map
            (fun d => (d.type, d.option_type, d.strike))
          = some (.future_option, some .put, some (.int 500))
        ∧ (parseInstrumentType R (.str "ZCZ24|500C".toList)).map
            (fun d => (d.type, d.option_type, d.strike))
          = some (.future_option, some .call, some (.int 500)))
      ∧ ("ZCZ500c".toList.map canonicalize = "ZCZ500C".toList
        ∧ (parseInstrumentType R (.str "ZCZ500c".toList)).map
            (fun d => (d.type, d.option_type, d.strike, d.year))
          = some (.future_option, some .put, some (.int 500), some (.int ((R : Int) + 19)))
        ∧ (parseInstrumentType R (.str "ZCZ500C".toList)).map
            (fun d => (d.type, d.option_type, d.strike, d.year))
          = some (.future_option, some .call, some (.int 500), some (.int (R : Int)))) := by
  have e1 : ('c' : Char).toNat = 99 := rfl
  have e2 : ('C' : Char).toNat = 67 := rfl
  have hv : fromDigits 10 (List.map (fun c => c.toNat - 48) ['5', '0', '0']) = 500 := rfl
  have hlow := (short_definition R 'Z' ['C'] 'Z' ['5', '0', '0'] 'c' (by decide) (by decide)
    (by decide) (by decide) (by decide) (by decide) (by decide) (by decide)).2
  have hup := (short_definition R 'Z' ['C'] 'Z' ['5', '0', '0'] 'C' (by decide) (by decide)
    (by decide) (by decide) (by decide) (by decide) (by decide) (by decide)).2
  refine ⟨⟨by decide, rfl, rfl⟩, ⟨by decide, rfl, rfl⟩, ⟨by decide, ?_, ?_⟩⟩
  · have hs : "ZCZ500c".toList = 'Z' :: ['C'] ++ 'Z' :: ['5', '0', '0'] ++ ['c'] := rfl
    rw [hs, hlow, e1, hv]
    simp
  · have hs : "ZCZ500C".toList = 'Z' :: ['C'] ++ 'Z' :: ['5', '0', '0'] ++ ['C'] := rfl
    rw [hs, hup, e2, hv]
    simp

/-! ## The producer symbol of the explicit format -/

/-- A decimal digit is the digit character of its value. -/
theorem digitChar_of_isDigit {c : Char} (h : isDigit c = true) :
    Nat.digitChar (c.toNat - 48) = c := by
  have hlt := digit_lt_ten h
  obtain ⟨g, v⟩ := isDigit_digitChar (c.toNat - 48) hlt
  rw [isDigit_iff] at h g
  exact char_eq_of_toNat (by omega)

/-- The number written by digits followed by one more digit. -/
theorem fromDigits_concat (ds : List Nat) (d : Nat) :
    fromDigits 10 (ds ++ [d]) = fromDigits 10 ds * 10 + d := by
  simp [fromDigits, List.foldl_append]

/-- The year of a concrete future is an integer that ends in the last digit of the year
text, whatever the branch of `getFuturesYear`; it is not negative when the reference
year is at least 100. -/
theorem getFuturesYear_last_digit (R : Nat) (digits : List Char) (last : Char)
    (hd : ∀ c ∈ digits, isDigit c = true) (hl : isDigit last = true)
    (monthCode : JsValue) :
    ∃ y : Int, getFuturesYear R (digits ++ [last]) monthCode = .int y
      ∧ y % 10 = ((last.toNat - 48 : Nat) : Int) ∧ (100 ≤ R → 0 ≤ y) := by
  have hall : ∀ c ∈ digits ++ [last], isDigit c = true := by
    intro c hc
    rcases List.mem_append.1 hc with h | h
    · exact hd c h
    · simp only [List.mem_singleton] at h
      rw [h]; exact hl
  have hp := parseInt_of_digits (digits ++ [last]) (by simp) hall
  have hlt := digit_lt_ten hl
  rw [List.map_append, List.map_cons, List.map_nil, fromDigits_concat] at hp
  generalize fromDigits 10 (digits.map (fun c => c.toNat - 48)) = v at hp
  generalize last.toNat - 48 = k at hp hlt
  simp only [getFuturesYear, hp]
  split_ifs <;> exact ⟨_, rfl, by omega, fun _ => by omega⟩

/-- The producer symbol of a concrete future: the root, the month letter and the last
digit. -/
theorem producer_concrete (R : Nat) (a : Char) (rest : List Char)
    (month : Char) (digits : List Char) (last : Char)
    (ha : ci isUpper a = true) (hrest : rest.length ≤ 2)
    (hrc : ∀ c ∈ rest, ci isRootChar c = true) (hm : ci isUpper month = true)
    (hd : ∀ c ∈ digits, isDigit c = true) (hl : isDigit last = true)
    (hlen : digits.length = 0 ∨ digits.length = 1 ∨ digits.length = 3) :
    getProducerSymbol R (.str (a :: rest ++ month :: digits ++ [last]))
      = .ok (some (a :: rest ++ [month, last])) := by
  obtain ⟨h1, h2, h3⟩ := converters_future_concrete a rest month digits last ha hrest hrc hm
    hd hl hlen
  simp only [List.cons_append, List.append_assoc, List.nil_append] at h1 h2 h3
  simp [getProducerSymbol, convertLoop, converters, converters.future, getIsFuture,
    getIsConcrete, getIsReference, is.string, JsValue.text, h1, h2, h3]

/-- C21. For every concrete future symbol `s` (a symbol that `getIsFuture` and
`getIsConcrete` accept: one, two or four year digits) and every reference year `R`, the
parsed year is an integer `y`, which is not negative when `R` is at least 100; and when
`y` is not negative, `getFuturesExplicitFormat` returns a text that ends in the last
digit of `s` and whose producer symbol is the producer symbol of `s`. -/
theorem getProducerSymbol_explicit_format (R : Nat) (s : List Char)
    (hf : getIsFuture (.str s) = true) (hc : getIsConcrete (.str s) = true) :
    ∃ y : Int,
      (parseInstrumentType R (.str s)).map Definition.year = some (some (.int y))
        ∧ (100 ≤ R → 0 ≤ y)
        ∧ (0 ≤ y → ∃ e, getFuturesExplicitFormat R (.str s) = .ok (some e)
            ∧ e.getLast? = s.getLast?
            ∧ getProducerSymbol R (.str e) = getProducerSymbol R (.str s)) := by
  have htest : types.futures.concrete.test s = true := by
    simp only [getIsFuture, getIsConcrete, getIsReference, is.string, JsValue.text,
      Bool.true_and, Bool.or_eq_true, Bool.not_eq_true'] at hf hc
    rcases hf with h | h
    · exact h
    · rw [hc] at h; exact absurd h (by simp)
  obtain ⟨a, rest, month, digits, last, rfl, ha, hrest, hrc, hm, hd, hl, hlen⟩ :=
    concrete_full_shape htest
  obtain ⟨y, hy, hmod, hpos⟩ := getFuturesYear_last_digit R digits last hd hl (.str [month])
  obtain ⟨-, hparse⟩ := concrete_definition R a rest month digits last ha hrest hrc hm hd hl
    hlen
  refine ⟨y, by rw [hparse, hy]; rfl, hpos, ?_⟩
  intro hy0
  have hlt : (y % 100).toNat < 100 := by omega
  have hk := digit_lt_ten hl
  have hlast : (y % 100).toNat % 10 = last.toNat - 48 := by omega
  obtain ⟨g1, -⟩ := isDigit_digitChar ((y % 100).toNat / 10) (by omega)
  have he : a :: rest ++ month :: twoDigits (y % 100).toNat
      = a :: rest ++ month :: [Nat.digitChar ((y % 100).toNat / 10)] ++ [last] := by
    simp [twoDigits, hlast, digitChar_of_isDigit hl]
  refine ⟨_, explicit_format_shape R a rest month digits last ha hrest hrc hm hd hl hlen y hy
    hy0, ?_, ?_⟩
  · rw [he, List.getLast?_concat, List.getLast?_concat]
  · rw [he, producer_concrete R a rest month _ last ha hrest hrc hm (by simpa using g1) hl
        (by simp),
      producer_concrete R a rest month digits last ha hrest hrc hm hd hl hlen]

/-- Witness of C21: `ZCZ2024`, `ZCZ24` and `ZCZ4` all have the explicit form `ZCZ24` and
the producer symbol `ZCZ4` when the reference year is 2024; `ZCY0`, whose year is the
start of the next century, has the explicit form `ZCY00` and the producer symbol
`ZCY0`. -/
theorem getProducerSymbol_explicit_format_witness :
    (getIsFuture (.str "ZCZ2024".toList) = true
        ∧ getIsConcrete (.str "ZCZ2024".toList) = true)
      ∧ (∃ y : Int,
          (parseInstrumentType 2024 (.str "ZCZ2024".toList)).map Definition.year
              = some (some (.int y))
            ∧ (100 ≤ 2024 → 0 ≤ y)
            ∧ (0 ≤ y → ∃ e, getFuturesExplicitFormat 2024 (.str "ZCZ2024".toList)
                  = .ok (some e)
                ∧ e.getLast? = "ZCZ2024".toList.getLast?
                ∧ getProducerSymbol 2024 (.str e)
                  = getProducerSymbol 2024 (.str "ZCZ2024".toList)))
      ∧ getFuturesExplicitFormat 2024 (.str "ZCZ2024".toList) = .ok (some "ZCZ24".toList)
      ∧ getFuturesExplicitFormat 2024 (.str "ZCZ24".toList) = .ok (some "ZCZ24".toList)
      ∧ getFuturesExplicitFormat 2024 (.str "ZCZ4".toList) = .ok (some "ZCZ24".toList)
      ∧ getProducerSymbol 2024 (.str "ZCZ2024".toList) = .ok (some "ZCZ4".toList)
      ∧ getProducerSymbol 2024 (.str "ZCZ24".toList) = .ok (some "ZCZ4".toList)
      ∧ getProducerSymbol 2024 (.str "ZCZ4".toList) = .ok (some "ZCZ4".toList)
      ∧ getFuturesExplicitFormat 2024 (.str "ZCY0".toList) = .ok (some "ZCY00".toList)
      ∧ getProducerSymbol 2024 (.str "ZCY00".toList) = .ok (some "ZCY0".toList)
      ∧ getProducerSymbol 2024 (.str "ZCY0".toList) = .ok (some "ZCY0".toList) :=
  ⟨⟨rfl, rfl⟩,
    getProducerSymbol_explicit_format 2024 "ZCZ2024".toList rfl rfl,
    rfl, rfl, rfl, rfl, rfl, rfl, rfl, rfl, rfl⟩

end SymbolParser
